import Mathlib

/-!
# Verification of a red-black tree with interval range query

Shallow embedding of `src/main.go` (package main, red-black search tree with
Put/Get/Has/Delete, rotation primitives, insertion and deletion fix-up, and an
interval range query over integer keys).

The Go code is pointer-based with parent back-references, so the embedding uses
an arena: a `Tree` holds a list of node records addressed by their index, and
every pointer field (`Left`, `Right`, `parent`, the tree's `Root`) is an
`Option Nat` index into that list.  Each Go pointer assignment becomes a
`List.set` on the arena, performed in source order and re-reading the heap
wherever the Go code re-reads a pointer.  A nil-pointer dereference becomes an
`Except` error, and each unbounded Go loop takes explicit fuel, returning
`Err.outOfFuel` when the fuel runs out (which models divergence: if every fuel
gives `outOfFuel`, the Go loop never terminates).

Keys in the core model are `Int` ordered by the default `IntComparator`
(the source's comparator for `int` keys); payloads are an arbitrary type `V`.
Key validation (`mustBeValidKey`) is modelled separately over `GoKey`, a value
tagged with its reflect kind, since validation runs before any tree access.
-/

namespace RBGo

/-- `Color` in the source is a bool: `BLACK, RED Color = true, false`. -/
abbrev Color := Bool

/-- `BLACK Color = true` in the source. -/
def BLACK : Color := true

/-- `RED Color = false` in the source. -/
def RED : Color := false

/-- `Direction` points to either the Left or Right subtree (`LEFT`, `RIGHT`, `NODIR`). -/
inductive Direction where
  | LEFT
  | RIGHT
  | NODIR
deriving DecidableEq, Repr

/-- The `Node` struct: key, payload, color, left and right child pointers, the
`Leaf` marker flag used by the range-query fixture, and the parent back-pointer.
Pointers are arena indices.  The Go zero value of `Color` is `false`, i.e. `RED`. -/
structure Node (V : Type) where
  key : Int
  payload : V
  color : Color
  left : Option Nat
  right : Option Nat
  leaf : Bool
  parent : Option Nat
deriving DecidableEq, Repr

/-- The `Tree` struct: the arena of nodes plus the `Root` pointer.  The
comparator field is fixed to the default `IntComparator` in this model. -/
structure Tree (V : Type) where
  nodes : List (Node V)
  root : Option Nat
deriving DecidableEq, Repr

/-- Runtime faults of the Go code: nil-pointer dereference (panic), a dangling
arena index (impossible for Go pointers; never reachable in well-formed states),
type-assertion panic in a comparator, and fuel exhaustion (modelling a loop that
has not terminated yet). -/
inductive Err where
  | nilDeref
  | danglingId
  | typeAssert
  | outOfFuel
deriving DecidableEq, Repr

/-- `NewTree()` returns an empty tree (with the default `IntComparator`). -/
def NewTree (V : Type) : Tree V := { nodes := [], root := none }

/-- Dereference an arena index (a non-nil Go pointer read). -/
def getN (t : Tree V) (i : Nat) : Option (Node V) := t.nodes.get? i

/-- Write a node record back through an arena index. -/
def setN (t : Tree V) (i : Nat) (n : Node V) : Tree V :=
  { t with nodes := t.nodes.set i n }

/-- Update one node in place (a Go field assignment through a pointer).
A dangling index leaves the arena unchanged; Go pointers cannot dangle, so this
branch is never taken in reachable states. -/
def modifyN (t : Tree V) (i : Nat) (f : Node V → Node V) : Tree V :=
  match getN t i with
  | some n => setN t i (f n)
  | none => t

/-- Default comparator for `int` keys: `1` if `i1 > i2`, `-1` if `i1 < i2`, else `0`. -/
def IntComparator (i1 i2 : Int) : Int :=
  if i1 > i2 then 1
  else if i1 < i2 then -1
  else 0

/-- `isRed`: nil nodes count as not red; otherwise compare the color to `RED`. -/
def isRed (t : Tree V) (n : Option Nat) : Bool :=
  match n with
  | none => false
  | some i =>
    match getN t i with
    | some nd => nd.color = RED
    | none => false

/-- `internalLookup(parent, this, key, dir)`: comparator-driven descent
returning `(found, parent, dir)`.  The fuel bounds the recursion depth; the
final `default` branch of the Go `switch` (unreachable for a total comparator)
is kept faithfully. -/
def internalLookup (t : Tree V) :
    Nat → Option Nat → Option Nat → Int → Direction →
    Except Err (Bool × Option Nat × Direction)
  | 0, _, _, _, _ => .error .outOfFuel
  | _ + 1, parent, none, _, dir => .ok (false, parent, dir)
  | fuel + 1, parent, some i, key, dir =>
    match getN t i with
    | none => .error .danglingId
    | some n =>
      if IntComparator key n.key = 0 then .ok (true, parent, dir)
      else if IntComparator key n.key < 0 then
        internalLookup t fuel (some i) n.left key .LEFT
      else if IntComparator key n.key > 0 then
        internalLookup t fuel (some i) n.right key .RIGHT
      else .ok (false, parent, .NODIR)

/-- Default fuel for structural recursions: one more than the arena size.  In a
well-formed tree every root-to-node path visits pairwise distinct nodes, so any
descent finishes within this bound. -/
def dFuel (t : Tree V) : Nat := t.nodes.length + 1

/-- `GetParent` without the key-validation prelude: nil root means not found,
otherwise run `internalLookup` from the root. -/
def GetParentCore (t : Tree V) (key : Int) :
    Except Err (Bool × Option Nat × Direction) :=
  match t.root with
  | none => .ok (false, none, .NODIR)
  | some _ => internalLookup t (dFuel t) none t.root key .NODIR

/-- `getNode`: locate the node for a key via its parent and direction. -/
def getNodeCore (t : Tree V) (key : Int) : Except Err (Bool × Option Nat) := do
  let (found, parent, dir) ← GetParentCore t key
  if found then
    match parent with
    | none => pure (true, t.root)
    | some p =>
      match getN t p with
      | none => .error .danglingId
      | some pn =>
        match (match dir with
               | .LEFT => pn.left
               | .RIGHT => pn.right
               | .NODIR => none) with
        | some i => pure (true, some i)
        | none => pure (false, none)
  else pure (false, none)

/-- `Get` without the key-validation prelude: payload of the located node. -/
def GetCore (t : Tree V) (key : Int) : Except Err (Bool × Option V) := do
  let (ok, node) ← getNodeCore t key
  if ok then
    match node with
    | some i =>
      match getN t i with
      | none => .error .danglingId
      | some n => pure (true, some n.payload)
    | none => .error .nilDeref
  else pure (false, none)

/-- `Has` without the key-validation prelude: run the lookup from the root. -/
def HasCore (t : Tree V) (key : Int) : Except Err Bool := do
  let (found, _, _) ← internalLookup t (dFuel t) none t.root key .NODIR
  pure found

/-- `getMinimum`: descend `Left` until there is no left child. -/
def getMinimum (t : Tree V) : Nat → Nat → Except Err Nat
  | 0, _ => .error .outOfFuel
  | fuel + 1, x =>
    match getN t x with
    | none => .error .danglingId
    | some n =>
      match n.left with
      | some l => getMinimum t fuel l
      | none => .ok x

/-- `countingVisitor`: inorder walk counting the non-nil nodes. -/
def countVisit (t : Tree V) : Nat → Option Nat → Except Err Nat
  | 0, _ => .error .outOfFuel
  | _ + 1, none => .ok 0
  | fuel + 1, some i =>
    match getN t i with
    | none => .error .danglingId
    | some n => do
      let l ← countVisit t fuel n.left
      let r ← countVisit t fuel n.right
      pure (l + 1 + r)

/-- `Size()`: walk the tree with the counting visitor. -/
def Size (t : Tree V) : Except Err Nat := countVisit t (dFuel t) t.root

/-- Dereference a nullable pointer; `none` is a Go nil-pointer panic. -/
def derefP (i? : Option Nat) : Except Err Nat :=
  match i? with
  | some i => .ok i
  | none => .error .nilDeref

/-- Read the record behind a (non-nil) pointer. -/
def readN (t : Tree V) (i : Nat) : Except Err (Node V) :=
  match getN t i with
  | some n => .ok n
  | none => .error .danglingId

/-- Read a `parent` field through the current heap. -/
def parentOf (t : Tree V) (i : Nat) : Option Nat := (getN t i).bind Node.parent

/-- `RotateLeft(x)`: no-op when `x` or `x.Right` is nil; otherwise the six
pointer writes of the source, in order, re-reading the heap where the source
re-reads a pointer. -/
def RotateLeft (t : Tree V) (x? : Option Nat) : Tree V :=
  match x? with
  | none => t
  | some x =>
    match getN t x with
    | none => t
    | some xn =>
      match xn.right with
      | none => t
      | some y =>
        match getN t y with
        | none => t
        | some yn =>
          -- y := x.Right ; x.Right = y.Left
          let b := yn.left
          let t1 := modifyN t x (fun n => { n with right := b })
          -- if y.Left != nil { y.Left.parent = x }
          let t2 := match b with
                    | some bi => modifyN t1 bi (fun n => { n with parent := some x })
                    | none => t1
          -- y.parent = x.parent  (x.parent read from the current heap)
          let xp := (getN t2 x).bind Node.parent
          let t3 := modifyN t2 y (fun n => { n with parent := xp })
          -- if x.parent == nil { t.Root = y } else update the child slot of x.parent
          let xp2 := (getN t3 x).bind Node.parent
          let t4 := match xp2 with
                    | none => { nodes := t3.nodes, root := some y }
                    | some p =>
                      match getN t3 p with
                      | none => t3
                      | some pn =>
                        if pn.left = some x then
                          modifyN t3 p (fun n => { n with left := some y })
                        else
                          modifyN t3 p (fun n => { n with right := some y })
          -- y.Left = x ; x.parent = y
          let t5 := modifyN t4 y (fun n => { n with left := some x })
          modifyN t5 x (fun n => { n with parent := some y })

/-- `RotateRight(y)`: the mirror of `RotateLeft`. -/
def RotateRight (t : Tree V) (y? : Option Nat) : Tree V :=
  match y? with
  | none => t
  | some y =>
    match getN t y with
    | none => t
    | some yn =>
      match yn.left with
      | none => t
      | some x =>
        match getN t x with
        | none => t
        | some xn =>
          -- x := y.Left ; y.Left = x.Right
          let b := xn.right
          let t1 := modifyN t y (fun n => { n with left := b })
          -- if x.Right != nil { x.Right.parent = y }
          let t2 := match b with
                    | some bi => modifyN t1 bi (fun n => { n with parent := some y })
                    | none => t1
          -- x.parent = y.parent
          let yp := (getN t2 y).bind Node.parent
          let t3 := modifyN t2 x (fun n => { n with parent := yp })
          -- if y.parent == nil { t.Root = x } else update the child slot of y.parent
          let yp2 := (getN t3 y).bind Node.parent
          let t4 := match yp2 with
                    | none => { nodes := t3.nodes, root := some x }
                    | some p =>
                      match getN t3 p with
                      | none => t3
                      | some pn =>
                        if pn.left = some y then
                          modifyN t3 p (fun n => { n with left := some x })
                        else
                          modifyN t3 p (fun n => { n with right := some x })
          -- x.Right = y ; y.parent = x
          let t5 := modifyN t4 x (fun n => { n with right := some y })
          modifyN t5 y (fun n => { n with parent := some x })

/-- The `fixupPut` loop.  Breaks when `z`'s parent is nil or black; otherwise
runs the classic three cases, mirrored by the side of the grandparent that the
parent is on.  A red parent with a nil grandparent would dereference nil in the
source (`grandparent.Left`).  Fuel is consumed once per iteration. -/
def fixupPutLoop (t : Tree V) : Nat → Nat → Except Err (Tree V)
  | 0, _ => .error .outOfFuel
  | fuel + 1, z =>
    match getN t z with
    | none => .error .danglingId
    | some zn =>
      match zn.parent with
      | none => .ok t
      | some zp =>
        match getN t zp with
        | none => .error .danglingId
        | some zpn =>
          if zpn.color = BLACK then .ok t
          else
            match zpn.parent with
            | none => .error .nilDeref
            | some gp =>
              match getN t gp with
              | none => .error .danglingId
              | some gpn =>
                if gpn.left = some zp then
                  if isRed t gpn.right then
                    -- case 1: recolor and move z to the grandparent
                    let t1 := modifyN t zp (fun n => { n with color := BLACK })
                    let t2 := match gpn.right with
                              | some yi => modifyN t1 yi (fun n => { n with color := BLACK })
                              | none => t1
                    let t3 := modifyN t2 gp (fun n => { n with color := RED })
                    fixupPutLoop t3 fuel gp
                  else do
                    -- case 2: z is an inner (right) child
                    let (t4, z4) :=
                      if zpn.right = some z then (RotateLeft t (some zp), zp) else (t, z)
                    -- case 3: recolor z.parent and grandparent, rotate right at the grandparent
                    let zp4 ← derefP ((getN t4 z4).bind Node.parent)
                    let t5 := modifyN t4 zp4 (fun n => { n with color := BLACK })
                    let t6 := modifyN t5 gp (fun n => { n with color := RED })
                    fixupPutLoop (RotateRight t6 (some gp)) fuel z4
                else
                  if isRed t gpn.left then
                    -- case 1 (mirror)
                    let t1 := modifyN t zp (fun n => { n with color := BLACK })
                    let t2 := match gpn.left with
                              | some yi => modifyN t1 yi (fun n => { n with color := BLACK })
                              | none => t1
                    let t3 := modifyN t2 gp (fun n => { n with color := RED })
                    fixupPutLoop t3 fuel gp
                  else do
                    -- case 2 (mirror): z is an inner (left) child
                    let (t4, z4) :=
                      if zpn.left = some z then (RotateRight t (some zp), zp) else (t, z)
                    -- case 3 (mirror)
                    let zp4 ← derefP ((getN t4 z4).bind Node.parent)
                    let t5 := modifyN t4 zp4 (fun n => { n with color := BLACK })
                    let t6 := modifyN t5 gp (fun n => { n with color := RED })
                    fixupPutLoop (RotateLeft t6 (some gp)) fuel z4

/-- `fixupPut(z)`: run the loop, then unconditionally color the root black
(`t.Root.color = BLACK` would panic on a nil root). -/
def fixupPut (t : Tree V) (fuel : Nat) (z : Nat) : Except Err (Tree V) := do
  let t1 ← fixupPutLoop t fuel z
  match t1.root with
  | none => .error .nilDeref
  | some r => .ok (modifyN t1 r (fun n => { n with color := BLACK }))

/-- `Put(key, data)` without the key-validation prelude: create a black root on
an empty tree; otherwise look the key up and either overwrite the payload in
place or attach a new red node under the located parent and run the fix-up. -/
def Put (t : Tree V) (fuel : Nat) (key : Int) (data : V) : Except Err (Tree V) :=
  match t.root with
  | none =>
    .ok { nodes := t.nodes ++
            [{ key := key, payload := data, color := BLACK,
               left := none, right := none, leaf := false, parent := none }],
          root := some t.nodes.length }
  | some r => do
    let (found, parent, dir) ← internalLookup t (dFuel t) none t.root key .NODIR
    if found then
      match parent with
      | none => pure (modifyN t r (fun n => { n with payload := data }))
      | some p =>
        match getN t p with
        | none => .error .danglingId
        | some pn =>
          match dir with
          | .LEFT =>
            match pn.left with
            | some i => pure (modifyN t i (fun n => { n with payload := data }))
            | none => .error .nilDeref
          | .RIGHT =>
            match pn.right with
            | some i => pure (modifyN t i (fun n => { n with payload := data }))
            | none => .error .nilDeref
          | .NODIR => pure t
    else
      match parent with
      | none => pure t
      | some p =>
        -- newNode := &Node{Key: key, parent: parent, payload: data}; zero color is RED
        let newId := t.nodes.length
        let t1 : Tree V :=
          { t with nodes := t.nodes ++
              [{ key := key, payload := data, color := RED,
                 left := none, right := none, leaf := false, parent := some p }] }
        let t2 := match dir with
                  | .LEFT => modifyN t1 p (fun n => { n with left := some newId })
                  | .RIGHT => modifyN t1 p (fun n => { n with right := some newId })
                  | .NODIR => t1
        fixupPut t2 fuel newId

/-- `transplant(u, v)`: replace `u` by `v` in `u`'s parent's child slot (or at
the root), then update `v.parent` when `v` is non-nil. -/
def transplant (t : Tree V) (u : Nat) (v : Option Nat) : Tree V :=
  match getN t u with
  | none => t
  | some un =>
    let t1 :=
      match un.parent with
      | none => { nodes := t.nodes, root := v }
      | some p =>
        match getN t p with
        | none => t
        | some pn =>
          if pn.left = some u then modifyN t p (fun n => { n with left := v })
          else modifyN t p (fun n => { n with right := v })
    match v with
    | some vi =>
      match getN t1 u with
      | some un1 => modifyN t1 vi (fun n => { n with parent := un1.parent })
      | none => t1
    | none => t1

/-- One symmetric half of the `fixupDelete` loop body is inlined below; the
loop state is the tree plus the deficiency pointer `x` (nullable: the source
reassigns `x = t.Root`, which may be nil).  A loop iteration in which the
parent of `x` lists `x` in neither child slot, or in which the sibling `w` is
nil, leaves the state unchanged, so the source loop spins forever there; the
model consumes one unit of fuel per iteration. -/
def fixupDeleteLoop (t : Tree V) : Nat → Option Nat → Except Err (Tree V × Option Nat)
  | 0, _ => .error .outOfFuel
  | fuel + 1, x? =>
    if t.root = x? then .ok (t, x?)
    else
      match x? with
      | none => .error .nilDeref
      | some x =>
        match getN t x with
        | none => .error .danglingId
        | some xn =>
          if xn.color = RED then .ok (t, x?)
          else
            match xn.parent with
            | none => .error .nilDeref
            | some p =>
              match getN t p with
              | none => .error .danglingId
              | some pn =>
                if pn.right = some x then do
                  -- BRANCH: x is the right child of its parent; w := x.parent.Left
                  let w0 := pn.left
                  let (t1, w1) ←
                    if isRed t w0 then do
                      -- case 1: recolor, rotate right at the parent, refresh w
                      let wi ← derefP w0
                      let ta := modifyN t wi (fun n => { n with color := BLACK })
                      let pxa ← derefP (parentOf ta x)
                      let tb := modifyN ta pxa (fun n => { n with color := RED })
                      let tc := RotateRight tb (parentOf tb x)
                      let pxc ← derefP (parentOf tc x)
                      let pnc ← readN tc pxc
                      pure (tc, pnc.left)
                    else pure (t, w0)
                  match w1 with
                  | none => fixupDeleteLoop t1 fuel (some x)
                  | some w => do
                    let wn ← readN t1 w
                    let (t2, w2, x2) ←
                      if ¬ isRed t1 wn.left ∧ ¬ isRed t1 wn.right then do
                        -- case 2: recolor w red, move the deficiency up
                        let ta := modifyN t1 w (fun n => { n with color := RED })
                        pure (ta, some w, parentOf ta x)
                      else if isRed t1 wn.right ∧ ¬ isRed t1 wn.left then do
                        -- case 3: recolor, rotate left at w, refresh w
                        let wr ← derefP wn.right
                        let ta := modifyN t1 wr (fun n => { n with color := BLACK })
                        let tb := modifyN ta w (fun n => { n with color := RED })
                        let tc := RotateLeft tb (some w)
                        let pxc ← derefP (parentOf tc x)
                        let pnc ← readN tc pxc
                        pure (tc, pnc.left, some x)
                      else pure (t1, some w, some x)
                    -- trailing check: if isRed(w.Left) { case 4 }
                    let wx ← derefP w2
                    let wxn ← readN t2 wx
                    if isRed t2 wxn.left then do
                      -- case 4: w.color = x.parent.color; x.parent.color = BLACK;
                      -- w.Left.color = BLACK; rotate right at the parent; x = t.Root
                      let xd ← derefP x2
                      let pxa ← derefP (parentOf t2 xd)
                      let pna ← readN t2 pxa
                      let ta := modifyN t2 wx (fun n => { n with color := pna.color })
                      let pxb ← derefP (parentOf ta xd)
                      let tb := modifyN ta pxb (fun n => { n with color := BLACK })
                      let wxnb ← readN tb wx
                      let wlb ← derefP wxnb.left
                      let tc := modifyN tb wlb (fun n => { n with color := BLACK })
                      let td := RotateRight tc (parentOf tc xd)
                      fixupDeleteLoop td fuel td.root
                    else fixupDeleteLoop t2 fuel x2
                else if pn.left = some x then do
                  -- BRANCH: x is the left child of its parent; w := x.parent.Right
                  let w0 := pn.right
                  let (t1, w1) ←
                    if isRed t w0 then do
                      let wi ← derefP w0
                      let ta := modifyN t wi (fun n => { n with color := BLACK })
                      let pxa ← derefP (parentOf ta x)
                      let tb := modifyN ta pxa (fun n => { n with color := RED })
                      let tc := RotateLeft tb (parentOf tb x)
                      let pxc ← derefP (parentOf tc x)
                      let pnc ← readN tc pxc
                      pure (tc, pnc.right)
                    else pure (t, w0)
                  match w1 with
                  | none => fixupDeleteLoop t1 fuel (some x)
                  | some w => do
                    let wn ← readN t1 w
                    let (t2, w2, x2) ←
                      if ¬ isRed t1 wn.left ∧ ¬ isRed t1 wn.right then do
                        let ta := modifyN t1 w (fun n => { n with color := RED })
                        pure (ta, some w, parentOf ta x)
                      else if isRed t1 wn.left ∧ ¬ isRed t1 wn.right then do
                        -- case 3 (mirror): rotate right at w, refresh w
                        let wl ← derefP wn.left
                        let ta := modifyN t1 wl (fun n => { n with color := BLACK })
                        let tb := modifyN ta w (fun n => { n with color := RED })
                        let tc := RotateRight tb (some w)
                        let pxc ← derefP (parentOf tc x)
                        let pnc ← readN tc pxc
                        pure (tc, pnc.right, some x)
                      else pure (t1, some w, some x)
                    let wx ← derefP w2
                    let wxn ← readN t2 wx
                    if isRed t2 wxn.right then do
                      -- case 4 (mirror)
                      let xd ← derefP x2
                      let pxa ← derefP (parentOf t2 xd)
                      let pna ← readN t2 pxa
                      let ta := modifyN t2 wx (fun n => { n with color := pna.color })
                      let pxb ← derefP (parentOf ta xd)
                      let tb := modifyN ta pxb (fun n => { n with color := BLACK })
                      let wxnb ← readN tb wx
                      let wrb ← derefP wxnb.right
                      let tc := modifyN tb wrb (fun n => { n with color := BLACK })
                      let td := RotateLeft tc (parentOf tc xd)
                      fixupDeleteLoop td fuel td.root
                    else fixupDeleteLoop t2 fuel x2
                else
                  -- neither child slot of the parent is x: the switch matches no
                  -- case and the loop spins with the state unchanged
                  fixupDeleteLoop t fuel (some x)

/-- `fixupDelete(x)`: the source returns immediately when `x` is nil; otherwise
it runs the loop and then forces `x` black (`x.color = BLACK` panics if the
loop left `x` nil). -/
def fixupDelete (t : Tree V) (fuel : Nat) (x? : Option Nat) : Except Err (Tree V) :=
  match x? with
  | none => .ok t
  | some _ => do
    let (t1, x1) ← fixupDeleteLoop t fuel x?
    match x1 with
    | none => .error .nilDeref
    | some xi => .ok (modifyN t1 xi (fun n => { n with color := BLACK }))

/-- `Delete(key)` without the key-validation prelude: no-op when the key is
absent; otherwise splice out the matched node (three cases, with the in-order
successor in the two-children case) and run `fixupDelete(x)` when the removed
or displaced node's original color was black. -/
def Delete (t : Tree V) (fuel : Nat) (key : Int) : Except Err (Tree V) := do
  let has ← HasCore t key
  if !has then pure t
  else do
    let (_, z?) ← getNodeCore t key
    match z? with
    | none => .error .nilDeref
    | some z =>
      match getN t z with
      | none => .error .danglingId
      | some zn =>
        match zn.left with
        | none =>
          -- one child (RIGHT): x = z.Right; transplant(z, z.Right)
          let x := zn.right
          let t1 := transplant t z zn.right
          if zn.color = BLACK then fixupDelete t1 fuel x else pure t1
        | some zl =>
          match zn.right with
          | none =>
            -- one child (LEFT): x = z.Left; transplant(z, z.Left)
            let x := some zl
            let t1 := transplant t z (some zl)
            if zn.color = BLACK then fixupDelete t1 fuel x else pure t1
          | some zr => do
            -- two children: y = minimum of z.Right
            let y ← getMinimum t (dFuel t) zr
            match getN t y with
            | none => .error .danglingId
            | some yn =>
              let yOriginalColor := yn.color
              let x := yn.right
              let t1 ←
                if yn.parent = some z then
                  pure (match x with
                        | some xi => modifyN t xi (fun n => { n with parent := some y })
                        | none => t)
                else do
                  let ta := transplant t y yn.right
                  -- y.Right = z.Right; y.Right.parent = y
                  match getN ta z with
                  | none => .error .danglingId
                  | some zna =>
                    let tb := modifyN ta y (fun n => { n with right := zna.right })
                    match zna.right with
                    | some ri => pure (modifyN tb ri (fun n => { n with parent := some y }))
                    | none => .error .nilDeref
              let t2 := transplant t1 z (some y)
              -- y.Left = z.Left; y.Left.parent = y; y.color = z.color
              match getN t2 z with
              | none => .error .danglingId
              | some zn2 =>
                let t3 := modifyN t2 y (fun n => { n with left := zn2.left })
                match zn2.left with
                | none => .error .nilDeref
                | some li =>
                  let t4 := modifyN t3 li (fun n => { n with parent := some y })
                  match getN t4 z with
                  | none => .error .danglingId
                  | some zn4 =>
                    let t5 := modifyN t4 y (fun n => { n with color := zn4.color })
                    if yOriginalColor = BLACK then fixupDelete t5 fuel x else pure t5

/-! ## Range query -/

/-- `isLeaf()`: a node with neither child (this is the structural test the
source uses in the range query; it does not read the `Leaf` marker flag). -/
def isLeaf (n : Node V) : Bool := n.right = none && n.left = none

/-- `getSplitNode(n, x1, x2)`: return `n` when its key lies in `[x1, x2]`;
otherwise recurse into the left child when present, else into the right child
when present, else return nil.  Called with a nil pointer it dereferences nil
(`n.Key`). -/
def getSplitNode (t : Tree V) :
    Nat → Option Nat → Int → Int → Except Err (Option Nat)
  | 0, _, _, _ => .error .outOfFuel
  | _ + 1, none, _, _ => .error .nilDeref
  | fuel + 1, some i, x1, x2 =>
    match getN t i with
    | none => .error .danglingId
    | some n =>
      if x1 ≤ n.key ∧ n.key ≤ x2 then .ok (some i)
      else
        match n.left with
        | some l => getSplitNode t fuel (some l) x1 x2
        | none =>
          match n.right with
          | some r => getSplitNode t fuel (some r) x1 x2
          | none => .ok none

/-- The "going left" loop of `getValuesInRange`: while the current node is not
a structural leaf, if `x1 <= curNode.Key` append a copy of `*curNode.Right` and
descend left, else descend right; stop at a structural leaf.  Reaching a nil
current node panics in `curNode.isLeaf()`; appending `*curNode.Right` with a
nil right child dereferences nil. -/
def goLeft (t : Tree V) :
    Nat → Option Nat → Int → Int → List (Node V) → Except Err (List (Node V) × Nat)
  | 0, _, _, _, _ => .error .outOfFuel
  | _ + 1, none, _, _, _ => .error .nilDeref
  | fuel + 1, some c, x1, x2, acc =>
    match getN t c with
    | none => .error .danglingId
    | some cn =>
      if ¬ isLeaf cn then
        if x1 ≤ cn.key then
          match cn.right with
          | none => .error .nilDeref
          | some r => do
            let rn ← readN t r
            goLeft t fuel cn.left x1 x2 (acc ++ [rn])
        else goLeft t fuel cn.right x1 x2 acc
      else .ok (acc, c)

/-- The "going right" loop: the mirror of `goLeft`, collecting `*curNode.Left`
while `curNode.Key <= x2` and descending right, else descending left. -/
def goRight (t : Tree V) :
    Nat → Option Nat → Int → Int → List (Node V) → Except Err (List (Node V) × Nat)
  | 0, _, _, _, _ => .error .outOfFuel
  | _ + 1, none, _, _, _ => .error .nilDeref
  | fuel + 1, some c, x1, x2, acc =>
    match getN t c with
    | none => .error .danglingId
    | some cn =>
      if ¬ isLeaf cn then
        if cn.key ≤ x2 then
          match cn.left with
          | none => .error .nilDeref
          | some l => do
            let ln ← readN t l
            goRight t fuel cn.right x1 x2 (acc ++ [ln])
        else goRight t fuel cn.left x1 x2 acc
      else .ok (acc, c)

/-- `getValuesInRange(x1, x2)`: find the split node (nil split gives an empty
result), collect node copies along the two paths, and return the collected
keys in collection order. -/
def getValuesInRange (t : Tree V) (x1 x2 : Int) : Except Err (List Int) := do
  let vs? ← getSplitNode t (dFuel t) t.root x1 x2
  match vs? with
  | none => pure []
  | some vs => do
    let vsn ← readN t vs
    -- curNode := Vs; a leaf split node is collected when in range, otherwise
    -- the walk starts at the split node's left child
    let start :=
      if isLeaf vsn then
        ((if x1 ≤ vsn.key ∧ vsn.key ≤ x2 then [vsn] else []), some vs)
      else (([] : List (Node V)), vsn.left)
    let (acc1, c1) ← goLeft t (dFuel t) start.2 x1 x2 start.1
    let c1n ← readN t c1
    let acc2 := if x1 ≤ c1n.key ∧ c1n.key ≤ x2 then acc1 ++ [c1n] else acc1
    -- curNode = Vs.Right
    let (acc3, c3) ← goRight t (dFuel t) vsn.right x1 x2 acc2
    let c3n ← readN t c3
    let acc4 := if x1 ≤ c3n.key ∧ c3n.key ≤ x2 then acc3 ++ [c3n] else acc3
    pure (acc4.map Node.key)

/-- A node of the range-query fixture built in `main()`: key, left, right, and
the `Leaf` marker flag.  Colors are the Go zero value (red), payloads `0`,
parent pointers nil (the fixture never sets them). -/
def fxNode (key : Int) (l r : Option Nat) (leaf : Bool) : Node Int :=
  { key := key, payload := 0, color := RED, left := l, right := r,
    leaf := leaf, parent := none }

/-- The sample tree of `main()`: root key 49, left subtree rooted at 23, right
subtree rooted at 80, with `Leaf`-flagged bottom nodes.  Arena indices follow
the declaration order of the source (leaves first). -/
def fixtureTree : Tree Int :=
  { nodes :=
      [fxNode 3 none none true,        -- 0  leaf3
       fxNode 10 none none true,       -- 1  leaf10
       fxNode 19 none none true,       -- 2  leaf19
       fxNode 23 none none true,       -- 3  leaf23
       fxNode 30 none none true,       -- 4  leaf30
       fxNode 37 none none true,       -- 5  leaf37
       fxNode 49 none none true,       -- 6  leaf49
       fxNode 59 none none true,       -- 7  leaf59
       fxNode 62 none none true,       -- 8  leaf62
       fxNode 70 none none true,       -- 9  leaf70
       fxNode 80 none none true,       -- 10 leaf80
       fxNode 100 none none true,      -- 11 leaf100
       fxNode 3 (some 0) (some 1) false,    -- 12 node3
       fxNode 19 (some 2) (some 3) false,   -- 13 node19
       fxNode 30 (some 4) (some 5) false,   -- 14 node30
       fxNode 59 (some 7) (some 8) false,   -- 15 node59
       fxNode 70 (some 9) (some 10) false,  -- 16 node70
       fxNode 100 (some 11) none false,     -- 17 node100
       fxNode 10 (some 12) (some 13) false, -- 18 node10
       fxNode 37 (some 14) (some 6) false,  -- 19 node37
       fxNode 62 (some 15) (some 16) false, -- 20 node62
       fxNode 89 none (some 17) false,      -- 21 node89
       fxNode 23 (some 18) (some 19) false, -- 22 node23
       fxNode 80 (some 20) (some 21) false, -- 23 node80
       fxNode 49 (some 22) (some 23) false], -- 24 root
    root := some 24 }

/-! ## Key validation -/

/-- The reflect kinds distinguished by `mustBeValidKey`'s switch, plus
representative kinds that fall through to its default branch (notably
`arrayK`: Go arrays have kind `reflect.Array`, which the switch does not
list). -/
inductive GoKind where
  | chanK
  | funcK
  | interfaceK
  | mapK
  | ptrK
  | sliceK
  | arrayK
  | intK
  | stringK
  | boolK
  | structK
deriving DecidableEq, Repr

/-- A key as the validator sees it: the literal nil interface, an `int` key
carrying its value, or a non-nil value of some other kind. -/
inductive GoKey where
  | nilKey
  | intKey (n : Int)
  | other (kind : GoKind)
deriving DecidableEq, Repr

/-- The reflect kind of a non-nil key. -/
def GoKey.kind : GoKey → GoKind
  | .nilKey => .intK
  | .intKey _ => .intK
  | .other k => k

/-- The two error values of the source: `ErrorKeyIsNil` and `ErrorKeyDisallowed`. -/
inductive KeyErr where
  | ErrorKeyIsNil
  | ErrorKeyDisallowed
deriving DecidableEq, Repr

/-- `mustBeValidKey`: nil keys are rejected with `ErrorKeyIsNil`; keys of kind
Chan, Func, Interface, Map, Ptr or Slice with `ErrorKeyDisallowed`; every other
kind falls through to the default branch and passes. -/
def mustBeValidKey : GoKey → Option KeyErr
  | .nilKey => some .ErrorKeyIsNil
  | k =>
    match k.kind with
    | .chanK | .funcK | .interfaceK | .mapK | .ptrK | .sliceK =>
      some .ErrorKeyDisallowed
    | _ => none

/-- `Put` with the key-validation prelude.  A validation failure returns the
error before any tree access.  A valid non-`int` key would reach the default
`IntComparator`, whose type assertion panics on the first comparison; the model
reports that as `Err.typeAssert` (on an empty tree the source would create a
root without comparing, a corner outside this `Int`-keyed core model and not
exercised by any theorem below). -/
def PutW (t : Tree V) (fuel : Nat) (key : GoKey) (data : V) :
    Except Err (Option KeyErr × Tree V) :=
  match mustBeValidKey key with
  | some e => .ok (some e, t)
  | none =>
    match key with
    | .intKey n => (Put t fuel n data).map (fun t1 => (none, t1))
    | _ => .error .typeAssert

/-- `Get` with the key-validation prelude: a validation failure yields
`(false, nil)` without touching the tree. -/
def GetW (t : Tree V) (key : GoKey) : Except Err (Bool × Option V) :=
  match mustBeValidKey key with
  | some _ => .ok (false, none)
  | none =>
    match key with
    | .intKey n => GetCore t n
    | _ => .error .typeAssert

/-- `Has` with the key-validation prelude: a validation failure yields `false`. -/
def HasW (t : Tree V) (key : GoKey) : Except Err Bool :=
  match mustBeValidKey key with
  | some _ => .ok false
  | none =>
    match key with
    | .intKey n => HasCore t n
    | _ => .error .typeAssert

/-- `GetParent` with the key-validation prelude: a validation failure yields
`(false, nil, NODIR)`. -/
def GetParentW (t : Tree V) (key : GoKey) :
    Except Err (Bool × Option Nat × Direction) :=
  match mustBeValidKey key with
  | some _ => .ok (false, none, .NODIR)
  | none =>
    match key with
    | .intKey n => GetParentCore t n
    | _ => .error .typeAssert

/-! ## Red-black invariant checkers and an operation runner -/

/-- Inorder key sequence of the structure reachable from `r`. -/
def inorderKeys (t : Tree V) : Nat → Option Nat → Except Err (List Int)
  | 0, _ => .error .outOfFuel
  | _ + 1, none => .ok []
  | fuel + 1, some i =>
    match getN t i with
    | none => .error .danglingId
    | some n => do
      let l ← inorderKeys t fuel n.left
      let r ← inorderKeys t fuel n.right
      pure (l ++ n.key :: r)

/-- Invariant 1: the root, if present, is black. -/
def rootIsBlack (t : Tree V) : Bool :=
  match t.root with
  | none => true
  | some r =>
    match getN t r with
    | some n => n.color = BLACK
    | none => false

/-- Invariant 2: no red node has a red child (nil children count as black). -/
def noRedRed (t : Tree V) : Nat → Option Nat → Except Err Bool
  | 0, _ => .error .outOfFuel
  | _ + 1, none => .ok true
  | fuel + 1, some i =>
    match getN t i with
    | none => .error .danglingId
    | some n =>
      if n.color = RED ∧ (isRed t n.left ∨ isRed t n.right) then .ok false
      else do
        let l ← noRedRed t fuel n.left
        let r ← noRedRed t fuel n.right
        pure (l && r)

/-- Black-height of a subtree: `some h` when every path from here to a null
descendant passes the same number `h` of black nodes (counting a null as one),
`none` when two paths disagree. -/
def blackHeight (t : Tree V) : Nat → Option Nat → Except Err (Option Nat)
  | 0, _ => .error .outOfFuel
  | _ + 1, none => .ok (some 1)
  | fuel + 1, some i =>
    match getN t i with
    | none => .error .danglingId
    | some n => do
      let l ← blackHeight t fuel n.left
      let r ← blackHeight t fuel n.right
      match l, r with
      | some a, some b =>
        pure (if a = b then some (a + (if n.color = BLACK then 1 else 0)) else none)
      | _, _ => pure none

/-- Invariant 3: all root-to-null paths have equal black count. -/
def blackBalanced (t : Tree V) : Except Err Bool :=
  (blackHeight t (dFuel t) t.root).map Option.isSome

/-- Strictly increasing list of keys (the `IntComparator` order). -/
def strictlyInc : List Int → Bool
  | [] => true
  | [_] => true
  | a :: b :: rest => a < b && strictlyInc (b :: rest)

/-- All four red-black invariants of the specification together. -/
def invariantsOK (t : Tree V) : Except Err Bool := do
  let rr ← noRedRed t (dFuel t) t.root
  let bb ← blackBalanced t
  let keys ← inorderKeys t (dFuel t) t.root
  pure (rootIsBlack t && rr && bb && strictlyInc keys)

deriving instance DecidableEq for Except

/-- A `Put` or `Delete` call with an `int` key (payload equal to the key). -/
inductive Op where
  | put (k : Int)
  | del (k : Int)
deriving DecidableEq, Repr

/-- Run a sequence of operations from the empty tree, with loop fuel 1000 per
call (every sequence used below runs far below this bound, except where
divergence itself is being proved). -/
def runOps (ops : List Op) : Except Err (Tree Int) :=
  ops.foldlM
    (fun t op =>
      match op with
      | .put k => Put t 1000 k k
      | .del k => Delete t 1000 k)
    (NewTree Int)

/-- Unwrap an `.ok` tree (total helper for naming concrete states). -/
def okD (r : Except Err (Tree V)) : Tree V :=
  match r with
  | .ok t => t
  | .error _ => NewTree V

/-! ## Specification-side definitions for the range-query claims -/

/-- Predicate "the node behind index `j` has its key in `[x1, x2]`". -/
def splitPred (t : Tree V) (x1 x2 : Int) (j : Nat) : Bool :=
  match getN t j with
  | some n => decide (x1 ≤ n.key ∧ n.key ≤ x2)
  | none => false

/-- The descent path of the split-node search: the visited node, then the path
through the left child when present, else through the right child, stopping at
a node with no children. -/
def descentPath (t : Tree V) : Nat → Option Nat → Except Err (List Nat)
  | 0, _ => .error .outOfFuel
  | _ + 1, none => .error .nilDeref
  | fuel + 1, some i =>
    match getN t i with
    | none => .error .danglingId
    | some n =>
      match n.left with
      | some l => do
        let rest ← descentPath t fuel (some l)
        pure (i :: rest)
      | none =>
        match n.right with
        | some r => do
          let rest ← descentPath t fuel (some r)
          pure (i :: rest)
        | none => .ok [i]

/-- The left path as the claim states it: stop at a `Leaf`-flagged node and
include it when in range; at a non-flagged node with `x1 ≤ key` collect the
inorder keys of the entire right subtree and descend left, else descend right. -/
def claimLeftPath (t : Tree V) : Nat → Option Nat → Int → Int → Except Err (List Int)
  | 0, _, _, _ => .error .outOfFuel
  | _ + 1, none, _, _ => .error .nilDeref
  | fuel + 1, some c, x1, x2 =>
    match getN t c with
    | none => .error .danglingId
    | some n =>
      if n.leaf then .ok (if x1 ≤ n.key ∧ n.key ≤ x2 then [n.key] else [])
      else if x1 ≤ n.key then do
        let sub ← inorderKeys t (dFuel t) n.right
        let rest ← claimLeftPath t fuel n.left x1 x2
        pure (sub ++ rest)
      else claimLeftPath t fuel n.right x1 x2

/-- The keys the source's left path actually produces from a starting node:
run the going-left loop with an empty accumulator, include the final node when
its key is in range, and keep the keys of the collected node copies. -/
def codeLeftPath (t : Tree V) (fuel : Nat) (start : Option Nat) (x1 x2 : Int) :
    Except Err (List Int) := do
  let (ns, c) ← goLeft t fuel start x1 x2 []
  let cn ← readN t c
  pure (((if x1 ≤ cn.key ∧ cn.key ≤ x2 then ns ++ [cn] else ns)).map Node.key)

/-- The left path as amended: stop at a node with no children (the structural
test the source uses) and include its key when in range; at a node with a
child and `x1 ≤ key`, collect only the right child's key (dereferencing a nil
right child) and descend left, else descend right. -/
def amendedLeftPath (t : Tree V) : Nat → Option Nat → Int → Int → Except Err (List Int)
  | 0, _, _, _ => .error .outOfFuel
  | _ + 1, none, _, _ => .error .nilDeref
  | fuel + 1, some c, x1, x2 =>
    match getN t c with
    | none => .error .danglingId
    | some n =>
      if ¬ isLeaf n then
        if x1 ≤ n.key then
          match n.right with
          | none => .error .nilDeref
          | some r => do
            let rn ← readN t r
            let rest ← amendedLeftPath t fuel n.left x1 x2
            pure (rn.key :: rest)
        else amendedLeftPath t fuel n.right x1 x2
      else .ok (if x1 ≤ n.key ∧ n.key ≤ x2 then [n.key] else [])

/-- The node copies the range query collects, in collection order (split-node
phase, then the left path with its final node, then the right path with its
final node). -/
def collectedRangeNodes (t : Tree V) (x1 x2 : Int) : Except Err (List (Node V)) := do
  let vs? ← getSplitNode t (dFuel t) t.root x1 x2
  match vs? with
  | none => pure []
  | some vs => do
    let vsn ← readN t vs
    let start :=
      if isLeaf vsn then
        ((if x1 ≤ vsn.key ∧ vsn.key ≤ x2 then [vsn] else []), some vs)
      else (([] : List (Node V)), vsn.left)
    let (acc1, c1) ← goLeft t (dFuel t) start.2 x1 x2 start.1
    let c1n ← readN t c1
    let acc2 := if x1 ≤ c1n.key ∧ c1n.key ≤ x2 then acc1 ++ [c1n] else acc1
    let (acc3, c3) ← goRight t (dFuel t) vsn.right x1 x2 acc2
    let c3n ← readN t c3
    pure (if x1 ≤ c3n.key ∧ c3n.key ≤ x2 then acc3 ++ [c3n] else acc3)

/-! ## Claim C1 -/

/-- The sequence exhibiting the broken delete fix-up. -/
def c1Ops : List Op := [.put 1, .put 2, .put 3, .put 4, .del 1]

/-- C1: the claim that every finite Put/Delete sequence leaves all four
red-black invariants intact is false.  After `Put 1, Put 2, Put 3, Put 4,
Delete 1` the black-count invariant fails (the conjunction of all four
invariants evaluates to `false`, and specifically the equal-black-count check
fails, while the root is black, no red node has a red child, and the inorder
keys are sorted). -/
theorem C1_invariant_sequence_fails :
    (runOps c1Ops).bind invariantsOK = .ok false ∧
    (runOps c1Ops).bind blackBalanced = .ok false ∧
    (runOps c1Ops).bind (fun t => noRedRed t (dFuel t) t.root) = .ok true ∧
    (runOps c1Ops).bind (fun t => (inorderKeys t (dFuel t) t.root).map strictlyInc) = .ok true ∧
    (runOps c1Ops).map rootIsBlack = .ok true := by
  refine ⟨?_, ?_, ?_, ?_, ?_⟩ <;> decide

/-! ## Claim C2 -/

/-- C2: the delete fix-up does not run when `x` is nil: `fixupDelete` returns
immediately, for every tree and fuel, leaving the tree untouched — it does not
track the double-black deficiency through the parent.  Consequently, deleting
the black node 1 from the tree built by `Put 1, Put 2, Put 3, Put 4` (whose
replacement `x` is nil) leaves the black-count invariant violated. -/
theorem C2_nil_x_fixup_skipped :
    (∀ (V : Type) (t : Tree V) (fuel : Nat), fixupDelete t fuel none = .ok t) ∧
    ((runOps [.put 1, .put 2, .put 3, .put 4]).bind
      (fun t => Delete t 1000 1)).bind blackBalanced = .ok false := by
  constructor
  · intro V t fuel; rfl
  · decide

/-! ## Claim C8 -/

/-- A valid operation sequence after which the tree is corrupted enough
(by the nil-`x` delete bug) that deleting the present key 2 never returns. -/
def c8Ops : List Op :=
  [.put 1, .put 2, .put 3, .put 7, .del 7, .del 3, .put 4, .put 6, .put 5, .del 6, .del 4]

/-- The tree reached by `c8Ops`: root 5 (black), its left child 2 (black),
whose left child is 1 (black) — all three black, right subtrees nil. -/
def c8Pre : Tree Int := okD (runOps c8Ops)

/-- The heap after `Delete 2` splices node 1 into node 2's place; the delete
fix-up then starts at `x` = node 1, a black non-root node whose sibling is
nil, and the loop body changes nothing. -/
def c8Spliced : Tree Int := transplant c8Pre 1 (some 0)

/-- One iteration of the delete fix-up loop on the stationary state: the
sibling `w` is nil, so the body falls through without any write. -/
theorem c8step (f : Nat) :
    fixupDeleteLoop c8Spliced (f + 1) (some 0) = fixupDeleteLoop c8Spliced f (some 0) := rfl

/-- The delete fix-up loop on the stationary state runs out of any fuel:
the source loop spins forever. -/
theorem c8loop : ∀ f, fixupDeleteLoop c8Spliced f (some 0) = .error .outOfFuel := by
  intro f
  induction f with
  | zero => rfl
  | succ n ih => rw [c8step n]; exact ih

/-- C8: the claim fails on the code.  After the valid sequence `c8Ops` the key
2 is present (and the tree has 3 nodes), yet `Delete 2` never terminates: for
every loop fuel the call reports fuel exhaustion, because the fix-up loop
reaches a black non-root node with a nil sibling and repeats without changing
anything.  So `Has` never becomes false and `Size` never decreases. -/
theorem C8_delete_present_key_diverges :
    (runOps c8Ops).bind (fun t => HasCore t 2) = .ok true ∧
    (runOps c8Ops).bind Size = .ok 3 ∧
    ∀ fuel, (runOps c8Ops).bind (fun t => Delete t fuel 2) = .error .outOfFuel := by
  refine ⟨by decide, by decide, ?_⟩
  intro fuel
  show fixupDelete c8Spliced fuel (some 0) = .error .outOfFuel
  simp only [fixupDelete]
  rw [c8loop fuel]
  rfl

/-! ## Claim C9 -/

/-- C9: `Put` with an invalid key is an atomic no-op: validation runs first,
the reported error is exactly the validation error, and the returned tree is
the argument tree itself, unchanged. -/
theorem C9_put_invalid_key_noop (V : Type) (t : Tree V) (fuel : Nat)
    (key : GoKey) (data : V) (e : KeyErr)
    (h : mustBeValidKey key = some e) :
    PutW t fuel key data = .ok (some e, t) := by
  unfold PutW
  rw [h]

/-- Witness for C9: a nil key on the empty tree. -/
theorem C9_put_invalid_key_noop_witness :
    mustBeValidKey .nilKey = some .ErrorKeyIsNil ∧
    PutW (NewTree Int) 5 .nilKey 0 = .ok (some .ErrorKeyIsNil, NewTree Int) :=
  ⟨by decide, C9_put_invalid_key_noop Int (NewTree Int) 5 .nilKey 0 .ErrorKeyIsNil (by decide)⟩

/-! ## Claim C6 -/

/-- C6 counterexample: an array-kinded key (`reflect.Array`) passes validation
— the switch lists `reflect.Slice` but not `reflect.Array` — so the claim that
both slices and arrays fail with `DisallowedKeyKind` is false. -/
theorem C6_counterexample_array_kind :
    mustBeValidKey (.other .arrayK) = none ∧
    ¬ mustBeValidKey (.other .arrayK) = some .ErrorKeyDisallowed := by
  constructor
  · decide
  · decide

/-- C6 amended: validation fails with `NilKey` exactly on the nil key, and
with `DisallowedKeyKind` exactly on the kinds Chan, Func, Interface, Map, Ptr
and Slice (arrays pass); and on any invalid key each of `Put`, `Get`, `Has`
and `GetParent` returns its failure value with no tree access. -/
theorem C6_validation_amended :
    (∀ key : GoKey, mustBeValidKey key = some .ErrorKeyIsNil ↔ key = .nilKey) ∧
    (∀ key : GoKey, mustBeValidKey key = some .ErrorKeyDisallowed ↔
      key ≠ .nilKey ∧ key.kind ∈
        ([.chanK, .funcK, .interfaceK, .mapK, .ptrK, .sliceK] : List GoKind)) ∧
    (∀ (V : Type) (t : Tree V) (fuel : Nat) (key : GoKey) (data : V) (e : KeyErr),
      mustBeValidKey key = some e →
        PutW t fuel key data = .ok (some e, t) ∧
        GetW t key = .ok (false, none) ∧
        HasW t key = .ok false ∧
        GetParentW t key = .ok (false, none, .NODIR)) := by
  refine ⟨?_, ?_, ?_⟩
  · intro key
    match key with
    | .nilKey => simp [mustBeValidKey]
    | .intKey n => simp [mustBeValidKey, GoKey.kind]
    | .other k => cases k <;> simp [mustBeValidKey, GoKey.kind]
  · intro key
    match key with
    | .nilKey => simp [mustBeValidKey]
    | .intKey n => simp [mustBeValidKey, GoKey.kind]
    | .other k => cases k <;> simp [mustBeValidKey, GoKey.kind]
  · intro V t fuel key data e h
    refine ⟨?_, ?_, ?_, ?_⟩
    · unfold PutW; rw [h]
    · unfold GetW; rw [h]
    · unfold HasW; rw [h]
    · unfold GetParentW; rw [h]

/-- Witness for C6: a slice-kinded key is rejected as disallowed and makes the
four operations no-ops on the empty tree. -/
theorem C6_validation_amended_witness :
    mustBeValidKey (.other .sliceK) = some .ErrorKeyDisallowed ∧
    PutW (NewTree Int) 7 (.other .sliceK) 0 = .ok (some .ErrorKeyDisallowed, NewTree Int) ∧
    GetW (NewTree Int) (.other .sliceK) = .ok (false, none) ∧
    HasW (NewTree Int) (.other .sliceK) = .ok false ∧
    GetParentW (NewTree Int) (.other .sliceK) = .ok (false, none, .NODIR) := by
  have h := (C6_validation_amended.2.2) Int (NewTree Int) 7 (.other .sliceK) 0
    .ErrorKeyDisallowed (by decide)
  exact ⟨by decide, h.1, h.2.1, h.2.2.1, h.2.2.2⟩

/-! ## Claim C5 counterexample -/

/-- C5 counterexample: on the documented fixture, `valuesInRange(19, 77)`
returns `[37, 23, 19, 59, 70]`, which is not sorted by the key order, so the
claim that the result is always ordered is false. -/
theorem C5_counterexample_unsorted :
    getValuesInRange fixtureTree 19 77 = .ok [37, 23, 19, 59, 70] ∧
    strictlyInc [37, 23, 19, 59, 70] = false := by
  constructor
  · decide
  · decide

/-! ## Claim C3 counterexample -/

/-- C3 counterexample: on the empty tree the range query does not return an
empty result — the split-node search dereferences the nil root. -/
theorem C3_counterexample_empty_tree :
    getValuesInRange (NewTree Int) 19 77 = .error .nilDeref ∧
    ¬ getValuesInRange (NewTree Int) 19 77 = .ok [] := by
  constructor
  · rfl
  · decide

/-! ## Monad-reduction helpers -/

/-- Bind on a successful `Except` computation. -/
theorem bindOk (a : α) (f : α → Except Err β) : (Except.ok a >>= f) = f a := rfl

/-- Bind on a failed `Except` computation. -/
theorem bindErr (e : Err) (f : α → Except Err β) :
    ((Except.error e : Except Err α) >>= f) = Except.error e := rfl

/-- Map on a successful `Except` computation. -/
theorem mapOk (f : α → β) (a : α) :
    Except.map f (Except.ok a : Except Err α) = Except.ok (f a) := rfl

/-- Map on a failed `Except` computation. -/
theorem mapErr (f : α → β) (e : Err) :
    Except.map f (Except.error e : Except Err α) = Except.error e := rfl

/-! ## Claim C3: amended theorem -/

/-- Descent-path characterization of the split-node search. -/
theorem c3part1 (V : Type) (t : Tree V) (fuel : Nat) :
    ∀ (r : Option Nat) (x1 x2 : Int) (p : List Nat),
      descentPath t fuel r = .ok p →
        getSplitNode t fuel r x1 x2 = .ok (List.find? (splitPred t x1 x2) p) := by
  induction fuel with
  | zero => intro r x1 x2 p h; simp [descentPath] at h
  | succ n ih =>
    intro r x1 x2 p h
    match r with
    | none => simp [descentPath] at h
    | some i =>
      simp only [descentPath] at h
      simp only [getSplitNode]
      cases hn : getN t i with
      | none => simp [hn] at h
      | some nd =>
        simp only [hn] at h
        dsimp only at h ⊢
        by_cases hin : x1 ≤ nd.key ∧ nd.key ≤ x2
        · have hpred : splitPred t x1 x2 i = true := by
            simp [splitPred, hn, hin.1, hin.2]
          cases hl : nd.left with
          | some l =>
            simp only [hl] at h
            cases hrest : descentPath t n (some l) with
            | error e => simp [hrest] at h
            | ok rest =>
              simp only [hrest] at h
              have hp : p = i :: rest := (Except.ok.inj h).symm
              subst hp
              simp [hin, hpred]
          | none =>
            simp only [hl] at h
            cases hr : nd.right with
            | some rr =>
              simp only [hr] at h
              cases hrest : descentPath t n (some rr) with
              | error e => simp [hrest] at h
              | ok rest =>
                simp only [hrest] at h
                have hp : p = i :: rest := (Except.ok.inj h).symm
                subst hp
                simp [hin, hpred]
            | none =>
              simp only [hr] at h
              have hp : p = [i] := (Except.ok.inj h).symm
              subst hp
              simp [hin, hpred]
        · have hpred : splitPred t x1 x2 i = false := by
            simp only [splitPred, hn]
            simpa using hin
          rw [if_neg hin]
          cases hl : nd.left with
          | some l =>
            simp only [hl] at h
            cases hrest : descentPath t n (some l) with
            | error e => simp [hrest] at h
            | ok rest =>
              simp only [hrest] at h
              have hp : p = i :: rest := (Except.ok.inj h).symm
              subst hp
              rw [List.find?_cons_of_neg _ (by simp [hpred])]
              exact ih (some l) x1 x2 rest hrest
          | none =>
            simp only [hl] at h
            cases hr : nd.right with
            | some rr =>
              simp only [hr] at h
              cases hrest : descentPath t n (some rr) with
              | error e => simp [hrest] at h
              | ok rest =>
                simp only [hrest] at h
                have hp : p = i :: rest := (Except.ok.inj h).symm
                subst hp
                rw [List.find?_cons_of_neg _ (by simp [hpred])]
                exact ih (some rr) x1 x2 rest hrest
            | none =>
              simp only [hr] at h
              have hp : p = [i] := (Except.ok.inj h).symm
              subst hp
              simp [hl, hr, hpred]

/-- A nil split node on any tree makes the query return an empty result. -/
theorem c3part2 (V : Type) (t : Tree V) (x1 x2 : Int)
    (h : getSplitNode t (dFuel t) t.root x1 x2 = .ok none) :
    getValuesInRange t x1 x2 = .ok [] := by
  simp only [getValuesInRange]
  rw [h]
  rfl

/-- C3 amended: the split node is the first node on the code's descent path
(preferring the left child, else the right) whose key lies in `[x1, x2]`; and
whenever the split-node search returns nil — which can only happen on a
nonempty tree, since an empty tree makes it dereference nil — the query
returns an empty result. -/
theorem C3_split_node_amended :
    (∀ (V : Type) (t : Tree V) (fuel : Nat) (r : Option Nat) (x1 x2 : Int) (p : List Nat),
      descentPath t fuel r = .ok p →
        getSplitNode t fuel r x1 x2 = .ok (List.find? (splitPred t x1 x2) p)) ∧
    (∀ (V : Type) (t : Tree V) (x1 x2 : Int),
      getSplitNode t (dFuel t) t.root x1 x2 = .ok none →
        getValuesInRange t x1 x2 = .ok []) :=
  ⟨c3part1, c3part2⟩

/-- Witness for C3: on the fixture, the descent path is
`49, 23, 10, 3, leaf 3` and the split node for `[19, 77]` is the root; for
`[80, 100]` no node on that path is in range and the query returns `[]`. -/
theorem C3_split_node_amended_witness :
    descentPath fixtureTree 26 (some 24) = .ok [24, 22, 18, 12, 0] ∧
    getSplitNode fixtureTree 26 (some 24) 19 77 =
      .ok (List.find? (splitPred fixtureTree 19 77) [24, 22, 18, 12, 0]) ∧
    getSplitNode fixtureTree (dFuel fixtureTree) fixtureTree.root 80 100 = .ok none ∧
    getValuesInRange fixtureTree 80 100 = .ok [] :=
  ⟨by decide,
   C3_split_node_amended.1 Int fixtureTree 26 (some 24) 19 77 [24, 22, 18, 12, 0] (by decide),
   by decide,
   C3_split_node_amended.2 Int fixtureTree 80 100 (by decide)⟩

/-! ## Claim C4: amended theorem -/

/-- Accumulator characterization of the going-left loop. -/
theorem goLeft_acc (V : Type) (t : Tree V) (fuel : Nat) :
    ∀ (s : Option Nat) (x1 x2 : Int) (acc : List (Node V)),
      goLeft t fuel s x1 x2 acc =
        (goLeft t fuel s x1 x2 []).map (fun pr => (acc ++ pr.1, pr.2)) := by
  induction fuel with
  | zero => intro s x1 x2 acc; rfl
  | succ n ih =>
    intro s x1 x2 acc
    match s with
    | none => rfl
    | some c =>
      simp only [goLeft]
      cases hn : getN t c with
      | none => rfl
      | some cn =>
        dsimp only
        by_cases hleaf : isLeaf cn
        · simp [hleaf, Except.map]
        · simp only [hleaf, not_false_eq_true, if_true, Bool.false_eq_true, if_false]
          by_cases hx : x1 ≤ cn.key
          · simp only [hx, if_true]
            cases hr : cn.right with
            | none => rfl
            | some r =>
              dsimp only
              cases hrn : readN t r with
              | error e => rfl
              | ok rn =>
                simp only [bindOk, List.nil_append]
                rw [ih cn.left x1 x2 (acc ++ [rn]), ih cn.left x1 x2 [rn]]
                cases hbase : goLeft t n cn.left x1 x2 [] with
                | error e => rfl
                | ok pr => simp [Except.map]
          · simp only [hx, if_false]
            rw [ih cn.right x1 x2 acc]

/-- C4 amended: for every tree, bounds and starting node, the keys produced by
the source's left path (the going-left loop plus the final in-range check)
are exactly those of the amended description: structural-leaf stopping test,
and collection of only the right child node's key. -/
theorem C4_left_path_amended (V : Type) (t : Tree V) (fuel : Nat) :
    ∀ (s : Option Nat) (x1 x2 : Int),
      codeLeftPath t fuel s x1 x2 = amendedLeftPath t fuel s x1 x2 := by
  induction fuel with
  | zero => intro s x1 x2; rfl
  | succ n ih =>
    intro s x1 x2
    match s with
    | none => rfl
    | some c =>
      simp only [codeLeftPath, goLeft, amendedLeftPath]
      cases hn : getN t c with
      | none => rfl
      | some cn =>
        dsimp only
        by_cases hleaf : isLeaf cn
        · have hro : readN t c = .ok cn := by simp [readN, hn]
          simp only [hleaf, not_true_eq_false, Bool.true_eq_false, if_false, if_true]
          simp only [bindOk, hro]
          by_cases hin : x1 ≤ cn.key ∧ cn.key ≤ x2
          · simp [hin, pure, Except.pure]
          · simp [hin, pure, Except.pure]
        · simp only [hleaf, not_false_eq_true, if_true, Bool.false_eq_true, if_false]
          by_cases hx : x1 ≤ cn.key
          · simp only [hx, if_true]
            cases hr : cn.right with
            | none => rfl
            | some r =>
              dsimp only
              cases hrn : readN t r with
              | error e => rfl
              | ok rn =>
                simp only [bindOk, List.nil_append]
                rw [goLeft_acc V t n cn.left x1 x2 [rn], ← ih cn.left x1 x2]
                simp only [codeLeftPath]
                cases hbase : goLeft t n cn.left x1 x2 [] with
                | error e => rfl
                | ok pr =>
                  simp only [mapOk, bindOk]
                  cases hcn : readN t pr.2 with
                  | error e => rfl
                  | ok cend =>
                    simp only [bindOk]
                    by_cases hin : x1 ≤ cend.key ∧ cend.key ≤ x2
                    · simp [hin, pure, Except.pure, bindOk]
                    · simp [hin, pure, Except.pure, bindOk]
          · simp only [hx, if_false]
            exact ih cn.right x1 x2

/-! ## Claim C5: amended theorem -/

/-- C5 amended: for every integer-keyed tree and interval, the range query
returns exactly the flattened, order-preserving key list of the node copies it
collects, in collection order. -/
theorem C5_flattened_keys_amended (V : Type) (t : Tree V) (x1 x2 : Int) :
    getValuesInRange t x1 x2 = (collectedRangeNodes t x1 x2).map (List.map Node.key) := by
  simp only [getValuesInRange, collectedRangeNodes]
  cases h1 : getSplitNode t (dFuel t) t.root x1 x2 with
  | error e => rfl
  | ok vs? =>
    match vs? with
    | none => rfl
    | some vs =>
      simp only [bindOk]
      cases h2 : readN t vs with
      | error e => rfl
      | ok vsn =>
        simp only [bindOk]
        cases h3 : goLeft t (dFuel t)
            (if isLeaf vsn = true then
              (if x1 ≤ vsn.key ∧ vsn.key ≤ x2 then [vsn] else [], some vs)
             else ([], vsn.left)).2 x1 x2
            (if isLeaf vsn = true then
              (if x1 ≤ vsn.key ∧ vsn.key ≤ x2 then [vsn] else [], some vs)
             else ([], vsn.left)).1 with
        | error e => rfl
        | ok pr =>
          simp only [bindOk]
          cases h4 : readN t pr.2 with
          | error e => rfl
          | ok c1n =>
            simp only [bindOk]
            cases h5 : goRight t (dFuel t) vsn.right x1 x2
                (if x1 ≤ c1n.key ∧ c1n.key ≤ x2 then pr.1 ++ [c1n] else pr.1) with
            | error e => rfl
            | ok pr2 =>
              simp only [bindOk]
              cases h6 : readN t pr2.2 with
              | error e => rfl
              | ok c3n => rfl

/-! ## Claim C4 counterexample -/

/-- C4 counterexample: starting from the split node's left child on the
fixture with bounds `[19, 77]`, the path described by the claim (leaf-flag
test, entire right subtrees collected) yields `[30, 30, 37, 37, 49, 23, 19]`,
but the code's left path yields `[37, 23, 19]` — it collects only the right
child node's key — and indeed the full query output starts with exactly those
three keys. -/
theorem C4_counterexample_fixture :
    claimLeftPath fixtureTree 26 (some 22) 19 77 = .ok [30, 30, 37, 37, 49, 23, 19] ∧
    codeLeftPath fixtureTree 26 (some 22) 19 77 = .ok [37, 23, 19] ∧
    ([30, 30, 37, 37, 49, 23, 19] : List Int) ≠ [37, 23, 19] ∧
    getValuesInRange fixtureTree 19 77 = .ok ([37, 23, 19] ++ [59, 70]) := by
  refine ⟨by decide, by decide, by decide, by decide⟩


/-! ## Arena access lemmas -/

theorem getN_lt (t : Tree V) (i : Nat) (n : Node V) (h : getN t i = some n) :
    i < t.nodes.length := by
  rcases List.get?_eq_some.mp h with ⟨hl, _⟩
  exact hl

theorem modifyN_eq_setN (t : Tree V) (i : Nat) (f : Node V → Node V) (n : Node V)
    (h : getN t i = some n) : modifyN t i f = setN t i (f n) := by
  unfold modifyN
  rw [h]

theorem getN_setN_self (t : Tree V) (i : Nat) (m : Node V) (h : i < t.nodes.length) :
    getN (setN t i m) i = some m := by
  simp only [getN, setN]
  exact List.get?_set_eq_of_lt _ h

theorem getN_setN_ne (t : Tree V) (i j : Nat) (m : Node V) (h : j ≠ i) :
    getN (setN t j m) i = getN t i := by
  simp only [getN, setN]
  exact List.get?_set_ne _ _ h

theorem getN_modifyN_ne (t : Tree V) (i j : Nat) (f : Node V → Node V) (h : j ≠ i) :
    getN (modifyN t j f) i = getN t i := by
  unfold modifyN
  cases hj : getN t j with
  | none => rfl
  | some n => exact getN_setN_ne t i j (f n) h

theorem setN_root (t : Tree V) (i : Nat) (m : Node V) : (setN t i m).root = t.root := rfl

theorem modifyN_root (t : Tree V) (i : Nat) (f : Node V → Node V) :
    (modifyN t i f).root = t.root := by
  unfold modifyN
  cases getN t i <;> rfl

theorem setN_length (t : Tree V) (i : Nat) (m : Node V) :
    (setN t i m).nodes.length = t.nodes.length := by
  simp [setN]

theorem modifyN_length (t : Tree V) (i : Nat) (f : Node V → Node V) :
    (modifyN t i f).nodes.length = t.nodes.length := by
  unfold modifyN
  cases getN t i with
  | none => rfl
  | some n => exact setN_length t i (f n)

/-- Tree equality from pointwise arena equality plus equal roots. -/
theorem tree_ext (t1 t2 : Tree V) (hr : t1.root = t2.root)
    (h : ∀ j, getN t1 j = getN t2 j) : t1 = t2 := by
  cases t1 with
  | mk n1 r1 =>
    cases t2 with
    | mk n2 r2 =>
      simp only [Tree.mk.injEq]
      exact ⟨List.ext_get?_iff.mpr h, hr⟩

/-! ## Rotation characterizations -/

/-- Conditionally update a parent pointer behind a nullable index (the
`if y.Left != nil { y.Left.parent = x }` step of a rotation). -/
def setPar (t : Tree V) (i? : Option Nat) (par : Option Nat) : Tree V :=
  match i? with
  | some i => modifyN t i (fun n => { n with parent := par })
  | none => t

/-- The re-linking step of a rotation: point the old node's parent slot (or
the tree root) at the promoted node. -/
def relink (t : Tree V) (p? : Option Nat) (old new : Nat) : Tree V :=
  match p? with
  | none => { nodes := t.nodes, root := some new }
  | some p =>
    match getN t p with
    | none => t
    | some pn =>
      if pn.left = some old then modifyN t p (fun n => { n with left := some new })
      else modifyN t p (fun n => { n with right := some new })

theorem getN_setPar_ne (t : Tree V) (i? : Option Nat) (par : Option Nat) (j : Nat)
    (h : ∀ bi, i? = some bi → bi ≠ j) :
    getN (setPar t i? par) j = getN t j := by
  cases i? with
  | none => rfl
  | some bi => exact getN_modifyN_ne t j bi _ (h bi rfl)

theorem getN_relink_ne (t : Tree V) (p? : Option Nat) (o n j : Nat)
    (h : ∀ p, p? = some p → p ≠ j) :
    getN (relink t p? o n) j = getN t j := by
  cases p? with
  | none => rfl
  | some p =>
    dsimp only [relink]
    cases getN t p with
    | none => rfl
    | some pn =>
      dsimp only
      split
      · exact getN_modifyN_ne t j p _ (h p rfl)
      · exact getN_modifyN_ne t j p _ (h p rfl)

theorem setPar_root (t : Tree V) (i? : Option Nat) (par : Option Nat) :
    (setPar t i? par).root = t.root := by
  cases i? with
  | none => rfl
  | some bi => exact modifyN_root t bi _

theorem relink_root_some (t : Tree V) (p : Nat) (o n : Nat) :
    (relink t (some p) o n).root = t.root := by
  dsimp only [relink]
  cases getN t p with
  | none => rfl
  | some pn =>
    dsimp only
    split
    · exact modifyN_root t p _
    · exact modifyN_root t p _

theorem setPar_length (t : Tree V) (i? : Option Nat) (par : Option Nat) :
    (setPar t i? par).nodes.length = t.nodes.length := by
  cases i? with
  | none => rfl
  | some bi => exact modifyN_length t bi _

theorem relink_length (t : Tree V) (p? : Option Nat) (o n : Nat) :
    (relink t p? o n).nodes.length = t.nodes.length := by
  cases p? with
  | none => rfl
  | some p =>
    dsimp only [relink]
    cases getN t p with
    | none => rfl
    | some pn =>
      dsimp only
      split
      · exact modifyN_length t p _
      · exact modifyN_length t p _



theorem getN_modifyN_self (t : Tree V) (i : Nat) (f : Node V → Node V) (n : Node V)
    (h : getN t i = some n) : getN (modifyN t i f) i = some (f n) := by
  rw [modifyN_eq_setN t i f n h]
  exact getN_setN_self t i (f n) (getN_lt t i n h)

/-- The heap produced by `RotateLeft` at `x` (with `y = x.Right`): the six
pointer writes, with the parent-slot update expressed through `relink`. -/
def rlChain (t : Tree V) (x y : Nat) (xn yn : Node V) : Tree V :=
  setN (setN (relink
      (setN (setPar (setN t x { xn with right := yn.left }) yn.left (some x))
        y { yn with parent := xn.parent })
      xn.parent x y)
    y { yn with left := some x, parent := xn.parent })
    x { xn with right := yn.left, parent := some y }

/-- The heap produced by `RotateRight` at `y` (with `x = y.Left`): mirror. -/
def rrChain (t : Tree V) (y x : Nat) (yn xn : Node V) : Tree V :=
  setN (setN (relink
      (setN (setPar (setN t y { yn with left := xn.right }) xn.right (some y))
        x { xn with parent := yn.parent })
      yn.parent y x)
    x { xn with right := some y, parent := yn.parent })
    y { yn with left := xn.right, parent := some x }

theorem rotateLeft_chain (t : Tree V) (x y : Nat) (xn yn : Node V)
    (hx : getN t x = some xn) (hxr : xn.right = some y) (hy : getN t y = some yn)
    (hxy : x ≠ y)
    (hbne : ∀ bi, yn.left = some bi → bi ≠ x ∧ bi ≠ y)
    (hpne : ∀ p, xn.parent = some p → p ≠ x ∧ p ≠ y) :
    RotateLeft t (some x) = rlChain t x y xn yn := by
  simp only [RotateLeft, rlChain, hx, hxr, hy]
  rw [modifyN_eq_setN t x _ xn hx]
  cases hbl : yn.left with
  | none =>
    dsimp only [setPar]
    have e1 : getN (setN t x { xn with right := (none : Option Nat) }) x = some { xn with right := (none : Option Nat) } :=
      getN_setN_self _ _ _ (getN_lt _ _ _ hx)
    have e1p : ((getN (setN t x { xn with right := (none : Option Nat) }) x).bind fun a => a.parent) = xn.parent := by
      rw [e1]; rfl
    rw [e1p]
    have gc2 : getN (setN t x { xn with right := (none : Option Nat) }) y = some yn := by
      rw [getN_setN_ne _ y x _ hxy]; exact hy
    rw [modifyN_eq_setN _ y _ yn gc2]
    simp only [hbl]
    have e2 : getN (setN (setN t x { xn with right := (none : Option Nat) }) y { yn with left := (none : Option Nat), parent := xn.parent }) x = some { xn with right := (none : Option Nat) } := by
      rw [getN_setN_ne _ x y _ hxy.symm]; exact e1
    have e2p : ((getN (setN (setN t x { xn with right := (none : Option Nat) }) y { yn with left := (none : Option Nat), parent := xn.parent }) x).bind fun a => a.parent) = xn.parent := by
      rw [e2]; rfl
    rw [e2p]
    cases hpp : xn.parent with
    | none =>
      rw [hpp] at e2
      dsimp only [relink]
      have gc4 : getN { nodes := (setN (setN t x { xn with right := (none : Option Nat), parent := (none : Option Nat) }) y { yn with left := (none : Option Nat), parent := (none : Option Nat) }).nodes, root := some y } y = some { yn with left := (none : Option Nat), parent := (none : Option Nat) } :=
        getN_setN_self _ _ _ (by rw [setN_length]; exact getN_lt _ _ _ hy)
      rw [modifyN_eq_setN _ y _ { yn with left := (none : Option Nat), parent := (none : Option Nat) } gc4]
      have gr5 : getN (setN { nodes := (setN (setN t x { xn with right := (none : Option Nat), parent := (none : Option Nat) }) y { yn with left := (none : Option Nat), parent := (none : Option Nat) }).nodes, root := some y } y { yn with left := some x, parent := (none : Option Nat) }) x = some { xn with right := (none : Option Nat), parent := (none : Option Nat) } := by
        rw [getN_setN_ne _ x y _ hxy.symm]
        exact e2
      rw [modifyN_eq_setN _ x _ { xn with right := (none : Option Nat), parent := (none : Option Nat) } gr5]
    | some p =>
      rw [hpp] at e2
      obtain ⟨hpx, hpy⟩ := hpne p hpp
      dsimp only [relink]
      cases hgp : getN (setN (setN t x { xn with right := (none : Option Nat), parent := some p }) y { yn with left := (none : Option Nat), parent := some p }) p with
      | none =>
        have gc4 : getN (setN (setN t x { xn with right := (none : Option Nat), parent := some p }) y { yn with left := (none : Option Nat), parent := some p }) y = some { yn with left := (none : Option Nat), parent := some p } :=
          getN_setN_self _ _ _ (by rw [setN_length]; exact getN_lt _ _ _ hy)
        rw [modifyN_eq_setN _ y _ { yn with left := (none : Option Nat), parent := some p } gc4]
        have gr5 : getN (setN (setN (setN t x { xn with right := (none : Option Nat), parent := some p }) y { yn with left := (none : Option Nat), parent := some p }) y { yn with left := some x, parent := some p }) x = some { xn with right := (none : Option Nat), parent := some p } := by
          rw [getN_setN_ne _ x y _ hxy.symm]
          exact e2
        rw [modifyN_eq_setN _ x _ { xn with right := (none : Option Nat), parent := some p } gr5]
      | some pn =>
        dsimp only
        by_cases hsl : pn.left = some x
        · rw [if_pos hsl]
          rw [modifyN_eq_setN _ p _ pn hgp]
          have gc4 : getN (setN (setN (setN t x { xn with right := (none : Option Nat), parent := some p }) y { yn with left := (none : Option Nat), parent := some p }) p { pn with left := some y }) y = some { yn with left := (none : Option Nat), parent := some p } := by
            rw [getN_setN_ne _ y p _ hpy]
            exact getN_setN_self _ _ _ (by rw [setN_length]; exact getN_lt _ _ _ hy)
          rw [modifyN_eq_setN _ y _ { yn with left := (none : Option Nat), parent := some p } gc4]
          have gr5 : getN (setN (setN (setN (setN t x { xn with right := (none : Option Nat), parent := some p }) y { yn with left := (none : Option Nat), parent := some p }) p { pn with left := some y }) y { yn with left := some x, parent := some p }) x = some { xn with right := (none : Option Nat), parent := some p } := by
            rw [getN_setN_ne _ x y _ hxy.symm, getN_setN_ne _ x p _ hpx]
            exact e2
          rw [modifyN_eq_setN _ x _ { xn with right := (none : Option Nat), parent := some p } gr5]
        · rw [if_neg hsl]
          rw [modifyN_eq_setN _ p _ pn hgp]
          have gc4 : getN (setN (setN (setN t x { xn with right := (none : Option Nat), parent := some p }) y { yn with left := (none : Option Nat), parent := some p }) p { pn with right := some y }) y = some { yn with left := (none : Option Nat), parent := some p } := by
            rw [getN_setN_ne _ y p _ hpy]
            exact getN_setN_self _ _ _ (by rw [setN_length]; exact getN_lt _ _ _ hy)
          rw [modifyN_eq_setN _ y _ { yn with left := (none : Option Nat), parent := some p } gc4]
          have gr5 : getN (setN (setN (setN (setN t x { xn with right := (none : Option Nat), parent := some p }) y { yn with left := (none : Option Nat), parent := some p }) p { pn with right := some y }) y { yn with left := some x, parent := some p }) x = some { xn with right := (none : Option Nat), parent := some p } := by
            rw [getN_setN_ne _ x y _ hxy.symm, getN_setN_ne _ x p _ hpx]
            exact e2
          rw [modifyN_eq_setN _ x _ { xn with right := (none : Option Nat), parent := some p } gr5]
  | some b =>
    obtain ⟨hbx, hby⟩ := hbne b hbl
    dsimp only [setPar]
    have e1 : getN (modifyN (setN t x { xn with right := some b }) b (fun n => { n with parent := some x })) x = some { xn with right := some b } := by
      rw [getN_modifyN_ne _ x b _ hbx]
      exact getN_setN_self _ _ _ (getN_lt _ _ _ hx)
    have e1p : ((getN (modifyN (setN t x { xn with right := some b }) b (fun n => { n with parent := some x })) x).bind fun a => a.parent) = xn.parent := by
      rw [e1]; rfl
    rw [e1p]
    have gc2 : getN (modifyN (setN t x { xn with right := some b }) b (fun n => { n with parent := some x })) y = some yn := by
      rw [getN_modifyN_ne _ y b _ hby, getN_setN_ne _ y x _ hxy]
      exact hy
    rw [modifyN_eq_setN _ y _ yn gc2]
    simp only [hbl]
    have e2 : getN (setN (modifyN (setN t x { xn with right := some b }) b (fun n => { n with parent := some x })) y { yn with left := some b, parent := xn.parent }) x = some { xn with right := some b } := by
      rw [getN_setN_ne _ x y _ hxy.symm]; exact e1
    have e2p : ((getN (setN (modifyN (setN t x { xn with right := some b }) b (fun n => { n with parent := some x })) y { yn with left := some b, parent := xn.parent }) x).bind fun a => a.parent) = xn.parent := by
      rw [e2]; rfl
    rw [e2p]
    cases hpp : xn.parent with
    | none =>
      rw [hpp] at e2
      dsimp only [relink]
      have gc4 : getN { nodes := (setN (modifyN (setN t x { xn with right := some b, parent := (none : Option Nat) }) b (fun n => { n with parent := some x })) y { yn with left := some b, parent := (none : Option Nat) }).nodes, root := some y } y = some { yn with left := some b, parent := (none : Option Nat) } :=
        getN_setN_self _ _ _ (by rw [modifyN_length, setN_length]; exact getN_lt _ _ _ hy)
      rw [modifyN_eq_setN _ y _ { yn with left := some b, parent := (none : Option Nat) } gc4]
      have gr5 : getN (setN { nodes := (setN (modifyN (setN t x { xn with right := some b, parent := (none : Option Nat) }) b (fun n => { n with parent := some x })) y { yn with left := some b, parent := (none : Option Nat) }).nodes, root := some y } y { yn with left := some x, parent := (none : Option Nat) }) x = some { xn with right := some b, parent := (none : Option Nat) } := by
        rw [getN_setN_ne _ x y _ hxy.symm]
        exact e2
      rw [modifyN_eq_setN _ x _ { xn with right := some b, parent := (none : Option Nat) } gr5]
    | some p =>
      rw [hpp] at e2
      obtain ⟨hpx, hpy⟩ := hpne p hpp
      dsimp only [relink]
      cases hgp : getN (setN (modifyN (setN t x { xn with right := some b, parent := some p }) b (fun n => { n with parent := some x })) y { yn with left := some b, parent := some p }) p with
      | none =>
        have gc4 : getN (setN (modifyN (setN t x { xn with right := some b, parent := some p }) b (fun n => { n with parent := some x })) y { yn with left := some b, parent := some p }) y = some { yn with left := some b, parent := some p } :=
          getN_setN_self _ _ _ (by rw [modifyN_length, setN_length]; exact getN_lt _ _ _ hy)
        rw [modifyN_eq_setN _ y _ { yn with left := some b, parent := some p } gc4]
        have gr5 : getN (setN (setN (modifyN (setN t x { xn with right := some b, parent := some p }) b (fun n => { n with parent := some x })) y { yn with left := some b, parent := some p }) y { yn with left := some x, parent := some p }) x = some { xn with right := some b, parent := some p } := by
          rw [getN_setN_ne _ x y _ hxy.symm]
          exact e2
        rw [modifyN_eq_setN _ x _ { xn with right := some b, parent := some p } gr5]
      | some pn =>
        dsimp only
        by_cases hsl : pn.left = some x
        · rw [if_pos hsl]
          rw [modifyN_eq_setN _ p _ pn hgp]
          have gc4 : getN (setN (setN (modifyN (setN t x { xn with right := some b, parent := some p }) b (fun n => { n with parent := some x })) y { yn with left := some b, parent := some p }) p { pn with left := some y }) y = some { yn with left := some b, parent := some p } := by
            rw [getN_setN_ne _ y p _ hpy]
            exact getN_setN_self _ _ _ (by rw [modifyN_length, setN_length]; exact getN_lt _ _ _ hy)
          rw [modifyN_eq_setN _ y _ { yn with left := some b, parent := some p } gc4]
          have gr5 : getN (setN (setN (setN (modifyN (setN t x { xn with right := some b, parent := some p }) b (fun n => { n with parent := some x })) y { yn with left := some b, parent := some p }) p { pn with left := some y }) y { yn with left := some x, parent := some p }) x = some { xn with right := some b, parent := some p } := by
            rw [getN_setN_ne _ x y _ hxy.symm, getN_setN_ne _ x p _ hpx]
            exact e2
          rw [modifyN_eq_setN _ x _ { xn with right := some b, parent := some p } gr5]
        · rw [if_neg hsl]
          rw [modifyN_eq_setN _ p _ pn hgp]
          have gc4 : getN (setN (setN (modifyN (setN t x { xn with right := some b, parent := some p }) b (fun n => { n with parent := some x })) y { yn with left := some b, parent := some p }) p { pn with right := some y }) y = some { yn with left := some b, parent := some p } := by
            rw [getN_setN_ne _ y p _ hpy]
            exact getN_setN_self _ _ _ (by rw [modifyN_length, setN_length]; exact getN_lt _ _ _ hy)
          rw [modifyN_eq_setN _ y _ { yn with left := some b, parent := some p } gc4]
          have gr5 : getN (setN (setN (setN (modifyN (setN t x { xn with right := some b, parent := some p }) b (fun n => { n with parent := some x })) y { yn with left := some b, parent := some p }) p { pn with right := some y }) y { yn with left := some x, parent := some p }) x = some { xn with right := some b, parent := some p } := by
            rw [getN_setN_ne _ x y _ hxy.symm, getN_setN_ne _ x p _ hpx]
            exact e2
          rw [modifyN_eq_setN _ x _ { xn with right := some b, parent := some p } gr5]

theorem rotateRight_chain (t : Tree V) (y x : Nat) (yn xn : Node V)
    (hy : getN t y = some yn) (hyl : yn.left = some x) (hx : getN t x = some xn)
    (hxy : x ≠ y)
    (hbne : ∀ bi, xn.right = some bi → bi ≠ x ∧ bi ≠ y)
    (hpne : ∀ p, yn.parent = some p → p ≠ x ∧ p ≠ y) :
    RotateRight t (some y) = rrChain t y x yn xn := by
  simp only [RotateRight, rrChain, hy, hyl, hx]
  rw [modifyN_eq_setN t y _ yn hy]
  cases hbl : xn.right with
  | none =>
    dsimp only [setPar]
    have e1 : getN (setN t y { yn with left := (none : Option Nat) }) y = some { yn with left := (none : Option Nat) } :=
      getN_setN_self _ _ _ (getN_lt _ _ _ hy)
    have e1p : ((getN (setN t y { yn with left := (none : Option Nat) }) y).bind fun a => a.parent) = yn.parent := by
      rw [e1]; rfl
    rw [e1p]
    have gc2 : getN (setN t y { yn with left := (none : Option Nat) }) x = some xn := by
      rw [getN_setN_ne _ x y _ hxy.symm]; exact hx
    rw [modifyN_eq_setN _ x _ xn gc2]
    simp only [hbl]
    have e2 : getN (setN (setN t y { yn with left := (none : Option Nat) }) x { xn with right := (none : Option Nat), parent := yn.parent }) y = some { yn with left := (none : Option Nat) } := by
      rw [getN_setN_ne _ y x _ hxy]; exact e1
    have e2p : ((getN (setN (setN t y { yn with left := (none : Option Nat) }) x { xn with right := (none : Option Nat), parent := yn.parent }) y).bind fun a => a.parent) = yn.parent := by
      rw [e2]; rfl
    rw [e2p]
    cases hpp : yn.parent with
    | none =>
      rw [hpp] at e2
      dsimp only [relink]
      have gc4 : getN { nodes := (setN (setN t y { yn with left := (none : Option Nat), parent := (none : Option Nat) }) x { xn with right := (none : Option Nat), parent := (none : Option Nat) }).nodes, root := some x } x = some { xn with right := (none : Option Nat), parent := (none : Option Nat) } :=
        getN_setN_self _ _ _ (by rw [setN_length]; exact getN_lt _ _ _ hx)
      rw [modifyN_eq_setN _ x _ { xn with right := (none : Option Nat), parent := (none : Option Nat) } gc4]
      have gr5 : getN (setN { nodes := (setN (setN t y { yn with left := (none : Option Nat), parent := (none : Option Nat) }) x { xn with right := (none : Option Nat), parent := (none : Option Nat) }).nodes, root := some x } x { xn with right := some y, parent := (none : Option Nat) }) y = some { yn with left := (none : Option Nat), parent := (none : Option Nat) } := by
        rw [getN_setN_ne _ y x _ hxy]
        exact e2
      rw [modifyN_eq_setN _ y _ { yn with left := (none : Option Nat), parent := (none : Option Nat) } gr5]
    | some p =>
      rw [hpp] at e2
      obtain ⟨hpx, hpy⟩ := hpne p hpp
      dsimp only [relink]
      cases hgp : getN (setN (setN t y { yn with left := (none : Option Nat), parent := some p }) x { xn with right := (none : Option Nat), parent := some p }) p with
      | none =>
        have gc4 : getN (setN (setN t y { yn with left := (none : Option Nat), parent := some p }) x { xn with right := (none : Option Nat), parent := some p }) x = some { xn with right := (none : Option Nat), parent := some p } :=
          getN_setN_self _ _ _ (by rw [setN_length]; exact getN_lt _ _ _ hx)
        rw [modifyN_eq_setN _ x _ { xn with right := (none : Option Nat), parent := some p } gc4]
        have gr5 : getN (setN (setN (setN t y { yn with left := (none : Option Nat), parent := some p }) x { xn with right := (none : Option Nat), parent := some p }) x { xn with right := some y, parent := some p }) y = some { yn with left := (none : Option Nat), parent := some p } := by
          rw [getN_setN_ne _ y x _ hxy]
          exact e2
        rw [modifyN_eq_setN _ y _ { yn with left := (none : Option Nat), parent := some p } gr5]
      | some pn =>
        dsimp only
        by_cases hsl : pn.left = some y
        · rw [if_pos hsl]
          rw [modifyN_eq_setN _ p _ pn hgp]
          have gc4 : getN (setN (setN (setN t y { yn with left := (none : Option Nat), parent := some p }) x { xn with right := (none : Option Nat), parent := some p }) p { pn with left := some x }) x = some { xn with right := (none : Option Nat), parent := some p } := by
            rw [getN_setN_ne _ x p _ hpx]
            exact getN_setN_self _ _ _ (by rw [setN_length]; exact getN_lt _ _ _ hx)
          rw [modifyN_eq_setN _ x _ { xn with right := (none : Option Nat), parent := some p } gc4]
          have gr5 : getN (setN (setN (setN (setN t y { yn with left := (none : Option Nat), parent := some p }) x { xn with right := (none : Option Nat), parent := some p }) p { pn with left := some x }) x { xn with right := some y, parent := some p }) y = some { yn with left := (none : Option Nat), parent := some p } := by
            rw [getN_setN_ne _ y x _ hxy, getN_setN_ne _ y p _ hpy]
            exact e2
          rw [modifyN_eq_setN _ y _ { yn with left := (none : Option Nat), parent := some p } gr5]
        · rw [if_neg hsl]
          rw [modifyN_eq_setN _ p _ pn hgp]
          have gc4 : getN (setN (setN (setN t y { yn with left := (none : Option Nat), parent := some p }) x { xn with right := (none : Option Nat), parent := some p }) p { pn with right := some x }) x = some { xn with right := (none : Option Nat), parent := some p } := by
            rw [getN_setN_ne _ x p _ hpx]
            exact getN_setN_self _ _ _ (by rw [setN_length]; exact getN_lt _ _ _ hx)
          rw [modifyN_eq_setN _ x _ { xn with right := (none : Option Nat), parent := some p } gc4]
          have gr5 : getN (setN (setN (setN (setN t y { yn with left := (none : Option Nat), parent := some p }) x { xn with right := (none : Option Nat), parent := some p }) p { pn with right := some x }) x { xn with right := some y, parent := some p }) y = some { yn with left := (none : Option Nat), parent := some p } := by
            rw [getN_setN_ne _ y x _ hxy, getN_setN_ne _ y p _ hpy]
            exact e2
          rw [modifyN_eq_setN _ y _ { yn with left := (none : Option Nat), parent := some p } gr5]
  | some b =>
    obtain ⟨hbx, hby⟩ := hbne b hbl
    dsimp only [setPar]
    have e1 : getN (modifyN (setN t y { yn with left := some b }) b (fun n => { n with parent := some y })) y = some { yn with left := some b } := by
      rw [getN_modifyN_ne _ y b _ hby]
      exact getN_setN_self _ _ _ (getN_lt _ _ _ hy)
    have e1p : ((getN (modifyN (setN t y { yn with left := some b }) b (fun n => { n with parent := some y })) y).bind fun a => a.parent) = yn.parent := by
      rw [e1]; rfl
    rw [e1p]
    have gc2 : getN (modifyN (setN t y { yn with left := some b }) b (fun n => { n with parent := some y })) x = some xn := by
      rw [getN_modifyN_ne _ x b _ hbx, getN_setN_ne _ x y _ hxy.symm]
      exact hx
    rw [modifyN_eq_setN _ x _ xn gc2]
    simp only [hbl]
    have e2 : getN (setN (modifyN (setN t y { yn with left := some b }) b (fun n => { n with parent := some y })) x { xn with right := some b, parent := yn.parent }) y = some { yn with left := some b } := by
      rw [getN_setN_ne _ y x _ hxy]; exact e1
    have e2p : ((getN (setN (modifyN (setN t y { yn with left := some b }) b (fun n => { n with parent := some y })) x { xn with right := some b, parent := yn.parent }) y).bind fun a => a.parent) = yn.parent := by
      rw [e2]; rfl
    rw [e2p]
    cases hpp : yn.parent with
    | none =>
      rw [hpp] at e2
      dsimp only [relink]
      have gc4 : getN { nodes := (setN (modifyN (setN t y { yn with left := some b, parent := (none : Option Nat) }) b (fun n => { n with parent := some y })) x { xn with right := some b, parent := (none : Option Nat) }).nodes, root := some x } x = some { xn with right := some b, parent := (none : Option Nat) } :=
        getN_setN_self _ _ _ (by rw [modifyN_length, setN_length]; exact getN_lt _ _ _ hx)
      rw [modifyN_eq_setN _ x _ { xn with right := some b, parent := (none : Option Nat) } gc4]
      have gr5 : getN (setN { nodes := (setN (modifyN (setN t y { yn with left := some b, parent := (none : Option Nat) }) b (fun n => { n with parent := some y })) x { xn with right := some b, parent := (none : Option Nat) }).nodes, root := some x } x { xn with right := some y, parent := (none : Option Nat) }) y = some { yn with left := some b, parent := (none : Option Nat) } := by
        rw [getN_setN_ne _ y x _ hxy]
        exact e2
      rw [modifyN_eq_setN _ y _ { yn with left := some b, parent := (none : Option Nat) } gr5]
    | some p =>
      rw [hpp] at e2
      obtain ⟨hpx, hpy⟩ := hpne p hpp
      dsimp only [relink]
      cases hgp : getN (setN (modifyN (setN t y { yn with left := some b, parent := some p }) b (fun n => { n with parent := some y })) x { xn with right := some b, parent := some p }) p with
      | none =>
        have gc4 : getN (setN (modifyN (setN t y { yn with left := some b, parent := some p }) b (fun n => { n with parent := some y })) x { xn with right := some b, parent := some p }) x = some { xn with right := some b, parent := some p } :=
          getN_setN_self _ _ _ (by rw [modifyN_length, setN_length]; exact getN_lt _ _ _ hx)
        rw [modifyN_eq_setN _ x _ { xn with right := some b, parent := some p } gc4]
        have gr5 : getN (setN (setN (modifyN (setN t y { yn with left := some b, parent := some p }) b (fun n => { n with parent := some y })) x { xn with right := some b, parent := some p }) x { xn with right := some y, parent := some p }) y = some { yn with left := some b, parent := some p } := by
          rw [getN_setN_ne _ y x _ hxy]
          exact e2
        rw [modifyN_eq_setN _ y _ { yn with left := some b, parent := some p } gr5]
      | some pn =>
        dsimp only
        by_cases hsl : pn.left = some y
        · rw [if_pos hsl]
          rw [modifyN_eq_setN _ p _ pn hgp]
          have gc4 : getN (setN (setN (modifyN (setN t y { yn with left := some b, parent := some p }) b (fun n => { n with parent := some y })) x { xn with right := some b, parent := some p }) p { pn with left := some x }) x = some { xn with right := some b, parent := some p } := by
            rw [getN_setN_ne _ x p _ hpx]
            exact getN_setN_self _ _ _ (by rw [modifyN_length, setN_length]; exact getN_lt _ _ _ hx)
          rw [modifyN_eq_setN _ x _ { xn with right := some b, parent := some p } gc4]
          have gr5 : getN (setN (setN (setN (modifyN (setN t y { yn with left := some b, parent := some p }) b (fun n => { n with parent := some y })) x { xn with right := some b, parent := some p }) p { pn with left := some x }) x { xn with right := some y, parent := some p }) y = some { yn with left := some b, parent := some p } := by
            rw [getN_setN_ne _ y x _ hxy, getN_setN_ne _ y p _ hpy]
            exact e2
          rw [modifyN_eq_setN _ y _ { yn with left := some b, parent := some p } gr5]
        · rw [if_neg hsl]
          rw [modifyN_eq_setN _ p _ pn hgp]
          have gc4 : getN (setN (setN (modifyN (setN t y { yn with left := some b, parent := some p }) b (fun n => { n with parent := some y })) x { xn with right := some b, parent := some p }) p { pn with right := some x }) x = some { xn with right := some b, parent := some p } := by
            rw [getN_setN_ne _ x p _ hpx]
            exact getN_setN_self _ _ _ (by rw [modifyN_length, setN_length]; exact getN_lt _ _ _ hx)
          rw [modifyN_eq_setN _ x _ { xn with right := some b, parent := some p } gc4]
          have gr5 : getN (setN (setN (setN (modifyN (setN t y { yn with left := some b, parent := some p }) b (fun n => { n with parent := some y })) x { xn with right := some b, parent := some p }) p { pn with right := some x }) x { xn with right := some y, parent := some p }) y = some { yn with left := some b, parent := some p } := by
            rw [getN_setN_ne _ y x _ hxy, getN_setN_ne _ y p _ hpy]
            exact e2
          rw [modifyN_eq_setN _ y _ { yn with left := some b, parent := some p } gr5]



/-! ## Write-algebra for the arena: commutation, absorption, cancellation -/

theorem setN_setN_same (t : Tree V) (i : Nat) (m m' : Node V) :
    setN (setN t i m) i m' = setN t i m' := by
  simp [setN, List.set_set]

theorem setN_setN_comm (t : Tree V) (i j : Nat) (m m' : Node V) (h : i ≠ j) :
    setN (setN t i m) j m' = setN (setN t j m') i m := by
  simp only [setN]
  rw [List.set_comm _ _ _ h]

theorem modifyN_none (t : Tree V) (i : Nat) (f : Node V → Node V)
    (h : getN t i = none) : modifyN t i f = t := by
  unfold modifyN
  rw [h]

theorem modifyN_setN_comm (t : Tree V) (i j : Nat) (f : Node V → Node V) (m : Node V)
    (h : i ≠ j) : modifyN (setN t j m) i f = setN (modifyN t i f) j m := by
  unfold modifyN
  rw [getN_setN_ne _ i j _ (Ne.symm h)]
  cases hg : getN t i with
  | none => rfl
  | some n => exact setN_setN_comm t j i m (f n) (Ne.symm h)

theorem modifyN_modifyN_same (t : Tree V) (i : Nat) (f g : Node V → Node V) :
    modifyN (modifyN t i f) i g = modifyN t i (fun n => g (f n)) := by
  cases hg : getN t i with
  | none => rw [modifyN_none t i f hg, modifyN_none t i g hg, modifyN_none t i _ hg]
  | some n =>
    rw [modifyN_eq_setN t i f n hg,
      modifyN_eq_setN _ i g (f n) (getN_setN_self _ _ _ (getN_lt _ _ _ hg)),
      setN_setN_same, modifyN_eq_setN t i _ n hg]

theorem modifyN_modifyN_comm (t : Tree V) (i j : Nat) (f g : Node V → Node V)
    (h : i ≠ j) : modifyN (modifyN t i f) j g = modifyN (modifyN t j g) i f := by
  cases hi : getN t i with
  | none =>
    rw [modifyN_none t i f hi]
    cases hj : getN t j with
    | none => rw [modifyN_none t j g hj, modifyN_none t i f hi]
    | some nj =>
      rw [modifyN_eq_setN t j g nj hj,
        modifyN_none _ i f (by rw [getN_setN_ne _ i j _ (Ne.symm h)]; exact hi)]
  | some ni =>
    rw [modifyN_eq_setN t i f ni hi]
    cases hj : getN t j with
    | none =>
      rw [modifyN_none t j g hj,
        modifyN_none _ j g (by rw [getN_setN_ne _ j i _ h]; exact hj),
        modifyN_eq_setN t i f ni hi]
    | some nj =>
      rw [modifyN_eq_setN t j g nj hj,
        modifyN_eq_setN _ j g nj (by rw [getN_setN_ne _ j i _ h]; exact hj),
        modifyN_eq_setN _ i f ni (by rw [getN_setN_ne _ i j _ (Ne.symm h)]; exact hi)]
      exact setN_setN_comm t i j (f ni) (g nj) h

theorem setPar_setN_comm (t : Tree V) (b? : Option Nat) (v : Option Nat)
    (j : Nat) (m : Node V) (h : ∀ bi, b? = some bi → bi ≠ j) :
    setPar (setN t j m) b? v = setN (setPar t b? v) j m := by
  cases b? with
  | none => rfl
  | some bi => exact modifyN_setN_comm t bi j _ m (h bi rfl)

theorem setPar_setPar_absorb (t : Tree V) (b? : Option Nat) (v w : Option Nat) :
    setPar (setPar t b? v) b? w = setPar t b? w := by
  cases b? with
  | none => rfl
  | some bi =>
    dsimp only [setPar]
    rw [modifyN_modifyN_same]

theorem relink_setN_comm (t : Tree V) (p? : Option Nat) (o n : Nat)
    (j : Nat) (m : Node V) (h : ∀ p, p? = some p → p ≠ j) :
    relink (setN t j m) p? o n = setN (relink t p? o n) j m := by
  cases p? with
  | none => rfl
  | some p =>
    dsimp only [relink]
    rw [getN_setN_ne _ p j _ (Ne.symm (h p rfl))]
    cases getN t p with
    | none => rfl
    | some pn =>
      dsimp only
      split
      · exact modifyN_setN_comm t p j _ m (h p rfl)
      · exact modifyN_setN_comm t p j _ m (h p rfl)

theorem relink_setPar_comm (t : Tree V) (p? : Option Nat) (o n : Nat)
    (b? : Option Nat) (v : Option Nat)
    (h : ∀ p bi, p? = some p → b? = some bi → bi ≠ p) :
    relink (setPar t b? v) p? o n = setPar (relink t p? o n) b? v := by
  cases p? with
  | none =>
    cases b? with
    | none => rfl
    | some bi =>
      dsimp only [relink, setPar]
      cases hg : getN t bi with
      | none =>
        rw [modifyN_none t bi _ hg,
          modifyN_none _ bi _ (show getN { nodes := t.nodes, root := some n } bi = none from hg)]
      | some bn =>
        rw [modifyN_eq_setN t bi _ bn hg,
          modifyN_eq_setN _ bi _ bn
            (show getN { nodes := t.nodes, root := some n } bi = some bn from hg)]
        rfl
  | some p =>
    cases b? with
    | none => rfl
    | some bi =>
      dsimp only [relink, setPar]
      rw [getN_modifyN_ne _ p bi _ (h p bi rfl rfl)]
      cases getN t p with
      | none => rfl
      | some pn =>
        dsimp only
        split
        · exact modifyN_modifyN_comm t bi p _ _ (h p bi rfl rfl)
        · exact modifyN_modifyN_comm t bi p _ _ (h p bi rfl rfl)

theorem setN_cancel (t : Tree V) (i : Nat) (n : Node V) (h : getN t i = some n) :
    setN t i n = t := by
  cases t with
  | mk ns r =>
    simp only [setN, Tree.mk.injEq, and_true]
    apply List.ext_get?_iff.mpr
    intro j
    by_cases hj : j = i
    · subst hj
      rw [List.get?_set_eq_of_lt _ (by rcases List.get?_eq_some.mp h with ⟨hl, _⟩; exact hl)]
      exact h.symm
    · exact List.get?_set_ne _ _ (fun hh => hj hh.symm)

theorem setPar_cancel (t : Tree V) (b? : Option Nat) (v : Option Nat)
    (h : ∀ bi bn, b? = some bi → getN t bi = some bn → bn.parent = v) :
    setPar t b? v = t := by
  cases b? with
  | none => rfl
  | some bi =>
    dsimp only [setPar]
    cases hg : getN t bi with
    | none => exact modifyN_none t bi _ hg
    | some bn =>
      rw [modifyN_eq_setN t bi _ bn hg]
      have hp : bn.parent = v := h bi bn rfl hg
      rw [← hp]
      exact setN_cancel t bi bn hg

theorem relink_roundtrip (t : Tree V) (p? : Option Nat) (x y : Nat)
    (hroot : p? = none → t.root = some x)
    (hslot : ∀ p pn, p? = some p → getN t p = some pn →
      (pn.left = some x ∨ (pn.left ≠ some x ∧ pn.left ≠ some y ∧ pn.right = some x))) :
    relink (relink t p? x y) p? y x = t := by
  cases p? with
  | none =>
    dsimp only [relink]
    cases t with
    | mk ns r =>
      have hr : r = some x := hroot rfl
      rw [hr]
  | some p =>
    dsimp only [relink]
    cases hgp : getN t p with
    | none => rw [hgp]
    | some pn =>
      dsimp only
      rcases hslot p pn rfl hgp with hsl | ⟨hnx, hny, hsr⟩
      · rw [if_pos hsl, modifyN_eq_setN t p _ pn hgp,
          getN_setN_self _ _ _ (getN_lt _ _ _ hgp)]
        dsimp only
        rw [if_pos rfl, modifyN_eq_setN _ p _ { pn with left := some y }
          (getN_setN_self _ _ _ (getN_lt _ _ _ hgp)), setN_setN_same]
        have : ({ pn with left := some x } : Node V) = pn := by rw [← hsl]
        rw [this]
        exact setN_cancel t p pn hgp
      · rw [if_neg hnx, modifyN_eq_setN t p _ pn hgp,
          getN_setN_self _ _ _ (getN_lt _ _ _ hgp)]
        dsimp only
        rw [if_neg hny, modifyN_eq_setN _ p _ { pn with right := some y }
          (getN_setN_self _ _ _ (getN_lt _ _ _ hgp)), setN_setN_same]
        have : ({ pn with right := some x } : Node V) = pn := by rw [← hsr]
        rw [this]
        exact setN_cancel t p pn hgp



/-- `RotateLeft` never allocates or frees a node: the arena length is unchanged. -/
theorem RotateLeft_length (t : Tree V) (x? : Option Nat) :
    (RotateLeft t x?).nodes.length = t.nodes.length := by
  unfold RotateLeft
  cases x? with
  | none => rfl
  | some x =>
    dsimp only
    cases getN t x with
    | none => rfl
    | some xn =>
      dsimp only
      cases xn.right with
      | none => rfl
      | some y =>
        dsimp only
        cases getN t y with
        | none => rfl
        | some yn =>
          dsimp only
          repeat' split
          all_goals simp [modifyN_length, setN_length]

/-- `RotateRight` never allocates or frees a node: the arena length is unchanged. -/
theorem RotateRight_length (t : Tree V) (y? : Option Nat) :
    (RotateRight t y?).nodes.length = t.nodes.length := by
  unfold RotateRight
  cases y? with
  | none => rfl
  | some y =>
    dsimp only
    cases getN t y with
    | none => rfl
    | some yn =>
      dsimp only
      cases yn.left with
      | none => rfl
      | some x =>
        dsimp only
        cases getN t x with
        | none => rfl
        | some xn =>
          dsimp only
          repeat' split
          all_goals simp [modifyN_length, setN_length]

theorem rotate_roundtrip_core (t : Tree V) (x y : Nat) (xn yn : Node V)
    (hx : getN t x = some xn) (hxr : xn.right = some y) (hy : getN t y = some yn)
    (hxy : x ≠ y)
    (hyp : yn.parent = some x)
    (hbne : ∀ bi, yn.left = some bi → bi ≠ x ∧ bi ≠ y)
    (hpne : ∀ p, xn.parent = some p → p ≠ x ∧ p ≠ y)
    (hbpne : ∀ bi p, yn.left = some bi → xn.parent = some p → bi ≠ p)
    (hbpar : ∀ bi bn, yn.left = some bi → getN t bi = some bn → bn.parent = some y)
    (hpslot : ∀ p pn, xn.parent = some p → getN t p = some pn →
      (pn.left = some x ∨ (pn.left ≠ some x ∧ pn.left ≠ some y ∧ pn.right = some x)))
    (hroot : xn.parent = none → t.root = some x) :
    RotateRight (RotateLeft t (some x)) (some y) = t := by
  rw [rotateLeft_chain t x y xn yn hx hxr hy hxy hbne hpne]
  have hx1 : getN (rlChain t x y xn yn) x = some { xn with right := yn.left, parent := some y } := by
    unfold rlChain
    exact getN_setN_self _ _ _
      (by simp only [setN_length, relink_length, setPar_length]; exact getN_lt _ _ _ hx)
  have hy1 : getN (rlChain t x y xn yn) y = some { yn with left := some x, parent := xn.parent } := by
    unfold rlChain
    rw [getN_setN_ne _ y x _ hxy]
    exact getN_setN_self _ _ _
      (by simp only [setN_length, relink_length, setPar_length]; exact getN_lt _ _ _ hy)
  rw [rotateRight_chain (rlChain t x y xn yn) y x
      { yn with left := some x, parent := xn.parent } { xn with right := yn.left, parent := some y }
      hy1 rfl hx1 hxy (fun bi h => hbne bi h) (fun p h => hpne p h)]
  simp only [rrChain, rlChain]
  have s1 : ∀ Q : Tree V,
      setN (setN (setN Q y { yn with left := some x, parent := xn.parent })
        x { xn with right := yn.left, parent := some y }) y { yn with parent := xn.parent }
      = setN (setN Q y { yn with parent := xn.parent })
        x { xn with right := yn.left, parent := some y } := by
    intro Q
    rw [setN_setN_comm _ x y _ _ hxy, setN_setN_same]
  have s2 : ∀ Q : Tree V,
      setPar (setN (setN Q y { yn with parent := xn.parent })
        x { xn with right := yn.left, parent := some y }) yn.left (some y)
      = setN (setN (setPar Q yn.left (some y)) y { yn with parent := xn.parent })
        x { xn with right := yn.left, parent := some y } := by
    intro Q
    rw [setPar_setN_comm _ yn.left (some y) x _ (fun bi h => (hbne bi h).1),
        setPar_setN_comm _ yn.left (some y) y _ (fun bi h => (hbne bi h).2)]
  have s3 : ∀ Q : Tree V,
      setPar (relink Q xn.parent x y) yn.left (some y)
      = relink (setPar Q yn.left (some y)) xn.parent x y := by
    intro Q
    exact (relink_setPar_comm Q xn.parent x y yn.left (some y)
      (fun p bi hp hb => hbpne bi p hb hp)).symm
  have s4 : ∀ Q : Tree V,
      setPar (setN (setPar (setN Q x { xn with right := yn.left }) yn.left (some x))
        y { yn with parent := xn.parent }) yn.left (some y)
      = setN (setN (setPar Q yn.left (some y)) x { xn with right := yn.left })
        y { yn with parent := xn.parent } := by
    intro Q
    rw [setPar_setN_comm _ yn.left (some y) y _ (fun bi h => (hbne bi h).2),
        setPar_setPar_absorb,
        setPar_setN_comm _ yn.left (some y) x _ (fun bi h => (hbne bi h).1)]
  have s6 : ∀ Q : Tree V,
      relink (setN (setN Q y { yn with parent := xn.parent })
        x { xn with right := yn.left }) xn.parent y x
      = setN (setN (relink Q xn.parent y x) y { yn with parent := xn.parent })
        x { xn with right := yn.left } := by
    intro Q
    rw [relink_setN_comm _ xn.parent y x x _ (fun p h => (hpne p h).1),
        relink_setN_comm _ xn.parent y x y _ (fun p h => (hpne p h).2)]
  have s7 : relink (relink (setN (setN (setPar t yn.left (some y))
      x { xn with right := yn.left }) y { yn with parent := xn.parent }) xn.parent x y)
      xn.parent y x
      = setN (setN (setPar t yn.left (some y))
        x { xn with right := yn.left }) y { yn with parent := xn.parent } := by
    apply relink_roundtrip
    · intro hp
      simp only [setN_root, setPar_root]
      exact hroot hp
    · intro p pn hp hg
      rw [getN_setN_ne _ p y _ (Ne.symm (hpne p hp).2),
        getN_setN_ne _ p x _ (Ne.symm (hpne p hp).1),
        getN_setPar_ne _ yn.left _ p (fun bi hb => hbpne bi p hb hp)] at hg
      exact hpslot p pn hp hg
  rw [s1]
  rw [s2]
  rw [s3]
  rw [s4]
  rw [setN_setN_same]
  rw [s6]
  rw [s7]
  rw [setN_setN_same]
  rw [setN_setN_same]
  rw [setN_setN_comm _ y x { yn with parent := xn.parent } { xn with right := some y } (Ne.symm hxy)]
  rw [setN_setN_same]
  rw [setN_setN_same]
  rw [setPar_cancel t yn.left (some y) hbpar]
  have hXC : ({ xn with right := some y } : Node V) = xn := by rw [← hxr]
  have hYD : ({ yn with parent := some x } : Node V) = yn := by rw [← hyp]
  rw [hXC, setN_cancel t x xn hx, hYD, setN_cancel t y yn hy]



/-- C10: for every tree and node `x` with a non-null right child `y` (the
links around the rotation site being those of an actual tree: `y`'s parent is
`x`, `y`'s left child—if any—points back to `y`, `x`'s parent—if any—has `x`
in a child slot, the involved ids are distinct, and `x` is the root when it
has no parent), `RotateLeft(x)` followed by `RotateRight` on the promoted
node `y` restores the tree exactly — same child, parent and root links — and
rotation never creates or destroys nodes (the arena length is always
unchanged). -/
theorem C10_rotate_roundtrip (t : Tree V) (x y : Nat) (xn yn : Node V)
    (hx : getN t x = some xn) (hxr : xn.right = some y) (hy : getN t y = some yn)
    (hxy : x ≠ y)
    (hyp : yn.parent = some x)
    (hbne : ∀ bi, yn.left = some bi → bi ≠ x ∧ bi ≠ y)
    (hpne : ∀ p, xn.parent = some p → p ≠ x ∧ p ≠ y)
    (hbpne : ∀ bi p, yn.left = some bi → xn.parent = some p → bi ≠ p)
    (hbpar : ∀ bi bn, yn.left = some bi → getN t bi = some bn → bn.parent = some y)
    (hpslot : ∀ p pn, xn.parent = some p → getN t p = some pn →
      (pn.left = some x ∨ (pn.left ≠ some x ∧ pn.left ≠ some y ∧ pn.right = some x)))
    (hroot : xn.parent = none → t.root = some x) :
    RotateRight (RotateLeft t (some x)) (some y) = t ∧
      (∀ (s : Tree V) (z? : Option Nat),
        (RotateLeft s z?).nodes.length = s.nodes.length ∧
        (RotateRight s z?).nodes.length = s.nodes.length) :=
  ⟨rotate_roundtrip_core t x y xn yn hx hxr hy hxy hyp hbne hpne hbpne hbpar hpslot hroot,
   fun s z? => ⟨RotateLeft_length s z?, RotateRight_length s z?⟩⟩

/-- A concrete four-node tree for the C10 witness: parent `0` with left child
`1` (= `x`), whose right child is `2` (= `y`), whose left child is `3`. -/
def c10t : Tree Nat :=
  { nodes :=
      [ { key := 10, payload := 0, color := BLACK, left := some 1, right := none,
          leaf := false, parent := none },
        { key := 5, payload := 0, color := BLACK, left := none, right := some 2,
          leaf := false, parent := some 0 },
        { key := 8, payload := 0, color := RED, left := some 3, right := none,
          leaf := false, parent := some 1 },
        { key := 6, payload := 0, color := RED, left := none, right := none,
          leaf := false, parent := some 2 } ],
    root := some 0 }

def c10xn : Node Nat :=
  { key := 5, payload := 0, color := BLACK, left := none, right := some 2,
    leaf := false, parent := some 0 }

def c10yn : Node Nat :=
  { key := 8, payload := 0, color := RED, left := some 3, right := none,
    leaf := false, parent := some 1 }

theorem C10_rotate_roundtrip_witness :
    RotateRight (RotateLeft c10t (some 1)) (some 2) = c10t ∧
      (∀ (s : Tree Nat) (z? : Option Nat),
        (RotateLeft s z?).nodes.length = s.nodes.length ∧
        (RotateRight s z?).nodes.length = s.nodes.length) :=
  C10_rotate_roundtrip c10t 1 2 c10xn c10yn rfl rfl rfl (by decide) rfl
    (by intro bi h; injection h with h2; subst h2; exact ⟨by decide, by decide⟩)
    (by intro p h; injection h with h2; subst h2; exact ⟨by decide, by decide⟩)
    (by intro bi p h1 h2; injection h1 with h1'; injection h2 with h2'
        subst h1'; subst h2'; decide)
    (by intro bi bn h1 h2; injection h1 with h1'; subst h1'
        injection h2 with h2'; subst h2'; rfl)
    (by intro p pn h1 h2; injection h1 with h1'; subst h1'
        injection h2 with h2'; subst h2'; exact Or.inl rfl)
    (by intro h; exact absurd h (by decide))

end RBGo
namespace RBGo

/-! ## Functional view of the arena: binary trees of (id, key) pairs -/

/-- A functional binary tree of arena ids and keys, the shape `decode` reads
off the pointer structure. -/
inductive FT where
  | nil : FT
  | nd (l : FT) (i : Nat) (k : Int) (r : FT) : FT
deriving DecidableEq, Repr

/-- Inorder list of (id, key) pairs. -/
def ftPairs : FT → List (Nat × Int)
  | .nil => []
  | .nd l i k r => ftPairs l ++ (i, k) :: ftPairs r

/-- Inorder ids. -/
def ftIds (ft : FT) : List Nat := (ftPairs ft).map Prod.fst

/-- Inorder keys. -/
def ftKeys (ft : FT) : List Int := (ftPairs ft).map Prod.snd

/-- Height of the functional tree. -/
def ftDepth : FT → Nat
  | .nil => 0
  | .nd l _ _ r => max (ftDepth l) (ftDepth r) + 1

/-- Number of nodes. -/
def ftSize : FT → Nat
  | .nil => 0
  | .nd l _ _ r => ftSize l + 1 + ftSize r

/-- Is `k` above the (optional) strict lower bound? -/
def loOk (lo : Option Int) (k : Int) : Bool :=
  match lo with | none => true | some a => decide (a < k)

/-- Is `k` below the (optional) strict upper bound? -/
def hiOk (hi : Option Int) (k : Int) : Bool :=
  match hi with | none => true | some b => decide (k < b)

/-- Strict search-tree order within optional bounds. -/
def ftB : Option Int → Option Int → FT → Bool
  | _, _, .nil => true
  | lo, hi, .nd l _ k r =>
    loOk lo k && hiOk hi k && ftB lo (some k) l && ftB (some k) hi r

/-- Root id of a functional tree (the pointer stored in its parent's slot). -/
def rootId : FT → Option Nat
  | .nil => none
  | .nd _ i _ _ => some i

/-- Functional left rotation at the node with id `x` (no-op elsewhere and when
`x`'s right subtree is empty). -/
def rotAtL : FT → Nat → FT
  | .nil, _ => .nil
  | .nd l i k r, x =>
    if i = x then
      match r with
      | .nil => .nd l i k r
      | .nd rl j kj rr => .nd (.nd l i k rl) j kj rr
    else .nd (rotAtL l x) i k (rotAtL r x)

/-- Functional right rotation at the node with id `y`. -/
def rotAtR : FT → Nat → FT
  | .nil, _ => .nil
  | .nd l i k r, y =>
    if i = y then
      match l with
      | .nil => .nd l i k r
      | .nd ll j kj lr => .nd ll j kj (.nd lr i k r)
    else .nd (rotAtR l y) i k (rotAtR r y)

/-- Functional BST insertion of key `k` with fresh id `j`. -/
def ftIns : FT → Int → Nat → FT
  | .nil, k, j => .nd .nil j k .nil
  | .nd l i k' r, k, j =>
    if k < k' then .nd (ftIns l k j) i k' r
    else if k' < k then .nd l i k' (ftIns r k j)
    else .nd l i k' r

/-- Functional BST search: the id of the node carrying key `k`. -/
def ftFind : FT → Int → Option Nat
  | .nil, _ => none
  | .nd l i k' r, k =>
    if k < k' then ftFind l k
    else if k' < k then ftFind r k
    else some i

theorem ftPairs_rotAtL (ft : FT) (x : Nat) : ftPairs (rotAtL ft x) = ftPairs ft := by
  induction ft with
  | nil => rfl
  | nd l i k r ihl ihr =>
    by_cases h : i = x
    · simp only [rotAtL, if_pos h]
      cases r with
      | nil => rfl
      | nd rl j kj rr => simp [ftPairs, List.append_assoc]
    · simp only [rotAtL, if_neg h, ftPairs, ihl, ihr]

theorem ftPairs_rotAtR (ft : FT) (y : Nat) : ftPairs (rotAtR ft y) = ftPairs ft := by
  induction ft with
  | nil => rfl
  | nd l i k r ihl ihr =>
    by_cases h : i = y
    · simp only [rotAtR, if_pos h]
      cases l with
      | nil => rfl
      | nd ll j kj lr => simp [ftPairs, List.append_assoc]
    · simp only [rotAtR, if_neg h, ftPairs, ihl, ihr]

theorem mem_ftIds_nd (x i : Nat) (k : Int) (l r : FT) :
    x ∈ ftIds (.nd l i k r) ↔ x ∈ ftIds l ∨ x = i ∨ x ∈ ftIds r := by
  simp [ftIds, ftPairs]

theorem rotAtL_of_not_mem (ft : FT) (x : Nat) (h : x ∉ ftIds ft) : rotAtL ft x = ft := by
  induction ft with
  | nil => rfl
  | nd l i k r ihl ihr =>
    rw [mem_ftIds_nd] at h
    push_neg at h
    obtain ⟨h1, h2, h3⟩ := h
    simp only [rotAtL]
    rw [if_neg (fun he => h2 he.symm), ihl h1, ihr h3]

theorem rotAtR_of_not_mem (ft : FT) (y : Nat) (h : y ∉ ftIds ft) : rotAtR ft y = ft := by
  induction ft with
  | nil => rfl
  | nd l i k r ihl ihr =>
    rw [mem_ftIds_nd] at h
    push_neg at h
    obtain ⟨h1, h2, h3⟩ := h
    simp only [rotAtR]
    rw [if_neg (fun he => h2 he.symm), ihl h1, ihr h3]

theorem ftDepth_le_size (ft : FT) : ftDepth ft ≤ ftSize ft := by
  induction ft with
  | nil => exact Nat.le_refl 0
  | nd l i k r ihl ihr =>
    simp only [ftDepth, ftSize]
    omega

theorem ftSize_eq_pairs_length (ft : FT) : ftSize ft = (ftPairs ft).length := by
  induction ft with
  | nil => rfl
  | nd l i k r ihl ihr => simp [ftSize, ftPairs, ihl, ihr]; omega

theorem loOk_trans (lo : Option Int) (a b : Int) (h1 : loOk lo a = true) (h2 : a < b) :
    loOk lo b = true := by
  cases lo with
  | none => rfl
  | some q => simp only [loOk, decide_eq_true_eq] at h1 ⊢; omega

theorem hiOk_trans (hi : Option Int) (a b : Int) (h1 : hiOk hi b = true) (h2 : a < b) :
    hiOk hi a = true := by
  cases hi with
  | none => rfl
  | some q => simp only [hiOk, decide_eq_true_eq] at h1 ⊢; omega

theorem ftB_nd_iff (lo hi : Option Int) (l r : FT) (i : Nat) (k : Int) :
    ftB lo hi (.nd l i k r) = true ↔
      loOk lo k = true ∧ hiOk hi k = true ∧ ftB lo (some k) l = true ∧
        ftB (some k) hi r = true := by
  simp only [ftB, Bool.and_eq_true]
  tauto

theorem ftB_rotAtL (ft : FT) (x : Nat) :
    ∀ lo hi, ftB lo hi ft = true → ftB lo hi (rotAtL ft x) = true := by
  induction ft with
  | nil => intro _ _ h; exact h
  | nd l i k r ihl ihr =>
    intro lo hi h
    rw [ftB_nd_iff] at h
    obtain ⟨h1, h2, h3, h4⟩ := h
    by_cases hix : i = x
    · cases r with
      | nil =>
        simp only [rotAtL, if_pos hix]
        rw [ftB_nd_iff]; exact ⟨h1, h2, h3, rfl⟩
      | nd rl j kj rr =>
        simp only [rotAtL, if_pos hix]
        rw [ftB_nd_iff] at h4
        obtain ⟨g1, g2, g3, g4⟩ := h4
        have g1' : k < kj := by simpa [loOk] using g1
        rw [ftB_nd_iff]
        refine ⟨loOk_trans lo k kj h1 g1', g2, ?_, g4⟩
        rw [ftB_nd_iff]
        exact ⟨h1, by simpa [hiOk] using g1', h3, g3⟩
    · simp only [rotAtL]
      rw [if_neg hix, ftB_nd_iff]
      exact ⟨h1, h2, ihl lo (some k) h3, ihr (some k) hi h4⟩

theorem ftB_rotAtR (ft : FT) (y : Nat) :
    ∀ lo hi, ftB lo hi ft = true → ftB lo hi (rotAtR ft y) = true := by
  induction ft with
  | nil => intro _ _ h; exact h
  | nd l i k r ihl ihr =>
    intro lo hi h
    rw [ftB_nd_iff] at h
    obtain ⟨h1, h2, h3, h4⟩ := h
    by_cases hiy : i = y
    · cases l with
      | nil =>
        simp only [rotAtR, if_pos hiy]
        rw [ftB_nd_iff]; exact ⟨h1, h2, rfl, h4⟩
      | nd ll j kj lr =>
        simp only [rotAtR, if_pos hiy]
        rw [ftB_nd_iff] at h3
        obtain ⟨g1, g2, g3, g4⟩ := h3
        have g2' : kj < k := by simpa [hiOk] using g2
        rw [ftB_nd_iff]
        refine ⟨g1, hiOk_trans hi kj k h2 g2', g3, ?_⟩
        rw [ftB_nd_iff]
        exact ⟨by simpa [loOk] using g2', h2, g4, h4⟩
    · simp only [rotAtR]
      rw [if_neg hiy, ftB_nd_iff]
      exact ⟨h1, h2, ihl lo (some k) h3, ihr (some k) hi h4⟩

end RBGo
namespace RBGo

/-! ## Decoding the arena into a functional tree -/

/-- Read the pointer structure of the arena below slot `i?` into a functional
tree, checking that every node's `parent` field points back to the node whose
slot was followed.  Fuel bounds the depth; cycles and over-deep structures
exhaust it. -/
def decode (t : Tree V) (fuel : Nat) (i? par : Option Nat) : Option FT :=
  match fuel with
  | 0 => none
  | fuel + 1 =>
    match i? with
    | none => some .nil
    | some i =>
      match getN t i with
      | none => none
      | some n =>
        if n.parent = par then
          match decode t fuel n.left (some i), decode t fuel n.right (some i) with
          | some l, some r => some (.nd l i n.key r)
          | _, _ => none
        else none

/-- The structural fields `decode` (and the lookup) read; payload and color
are not among them. -/
def structOf (n : Node V) : Int × Option Nat × Option Nat × Option Nat :=
  (n.key, n.left, n.right, n.parent)

theorem dec_build (t : Tree V) (f : Nat) (i : Nat) (par : Option Nat)
    (n : Node V) (l r : FT)
    (hn : getN t i = some n) (hp : n.parent = par)
    (hl : decode t f n.left (some i) = some l)
    (hr : decode t f n.right (some i) = some r) :
    decode t (f + 1) (some i) par = some (.nd l i n.key r) := by
  simp only [decode]
  rw [hn]
  dsimp only
  rw [if_pos hp, hl, hr]

theorem dec_unpack (t : Tree V) (f : Nat) (i : Nat) (par : Option Nat) (ft : FT)
    (h : decode t (f + 1) (some i) par = some ft) :
    ∃ n l r, getN t i = some n ∧ n.parent = par ∧
      decode t f n.left (some i) = some l ∧ decode t f n.right (some i) = some r ∧
      ft = .nd l i n.key r := by
  simp only [decode] at h
  cases hn : getN t i with
  | none => rw [hn] at h; exact absurd h (by simp)
  | some n =>
    rw [hn] at h
    dsimp only at h
    by_cases hp : n.parent = par
    · rw [if_pos hp] at h
      cases hl : decode t f n.left (some i) with
      | none => rw [hl] at h; exact absurd h (by simp)
      | some l =>
        cases hr : decode t f n.right (some i) with
        | none => rw [hl, hr] at h; exact absurd h (by simp)
        | some r =>
          rw [hl, hr] at h
          exact ⟨n, l, r, rfl, hp, hl, hr, (Option.some.inj h).symm⟩
    · rw [if_neg hp] at h
      exact absurd h (by simp)

theorem dec_rootId (t : Tree V) (f : Nat) (i? par : Option Nat) (ft : FT)
    (h : decode t f i? par = some ft) : i? = rootId ft := by
  cases f with
  | zero => exact absurd h (by simp [decode])
  | succ f =>
    cases i? with
    | none =>
      have : ft = .nil := by
        have : some FT.nil = some ft := h
        exact (Option.some.inj this).symm
      rw [this]; rfl
    | some i =>
      obtain ⟨n, l, r, _, _, _, _, hft⟩ := dec_unpack t f i par ft h
      rw [hft]; rfl

theorem dec_mono (t : Tree V) :
    ∀ f f' (i? par : Option Nat) (ft : FT), decode t f i? par = some ft → f ≤ f' →
      decode t f' i? par = some ft := by
  intro f
  induction f with
  | zero => intro f' i? par ft h _; exact absurd h (by simp [decode])
  | succ f ih =>
    intro f' i? par ft h hf
    cases i? with
    | none =>
      cases f' with
      | zero => omega
      | succ f' => exact h
    | some i =>
      obtain ⟨n, l, r, hn, hp, hl, hr, hft⟩ := dec_unpack t f i par ft h
      cases f' with
      | zero => omega
      | succ f' =>
        rw [hft]
        exact dec_build t f' i par n l r hn hp
          (ih f' n.left (some i) l hl (by omega))
          (ih f' n.right (some i) r hr (by omega))

theorem dec_exact (t : Tree V) :
    ∀ f (i? par : Option Nat) (ft : FT), decode t f i? par = some ft →
      decode t (ftDepth ft + 1) i? par = some ft := by
  intro f
  induction f with
  | zero => intro i? par ft h; exact absurd h (by simp [decode])
  | succ f ih =>
    intro i? par ft h
    cases i? with
    | none =>
      have : ft = .nil := (Option.some.inj h).symm
      subst this
      rfl
    | some i =>
      obtain ⟨n, l, r, hn, hp, hl, hr, hft⟩ := dec_unpack t f i par ft h
      subst hft
      have hdl := ih n.left (some i) l hl
      have hdr := ih n.right (some i) r hr
      have : ftDepth (FT.nd l i n.key r) = max (ftDepth l) (ftDepth r) + 1 := rfl
      rw [this]
      exact dec_build t _ i par n l r hn hp
        (dec_mono t _ _ _ _ _ hdl (by omega))
        (dec_mono t _ _ _ _ _ hdr (by omega))

theorem dec_mem (t : Tree V) :
    ∀ f (i? par : Option Nat) (ft : FT), decode t f i? par = some ft →
      ∀ p ∈ ftPairs ft, ∃ n : Node V, getN t p.1 = some n ∧ n.key = p.2 := by
  intro f
  induction f with
  | zero => intro i? par ft h; exact absurd h (by simp [decode])
  | succ f ih =>
    intro i? par ft h p hp
    cases i? with
    | none =>
      have : ft = .nil := (Option.some.inj h).symm
      subst this
      exact absurd hp (by simp [ftPairs])
    | some i =>
      obtain ⟨n, l, r, hn, _, hl, hr, hft⟩ := dec_unpack t f i par ft h
      subst hft
      simp only [ftPairs, List.mem_append, List.mem_cons] at hp
      rcases hp with hp | hp | hp
      · exact ih n.left (some i) l hl p hp
      · subst hp; exact ⟨n, hn, rfl⟩
      · exact ih n.right (some i) r hr p hp

theorem dec_frame (t t' : Tree V) :
    ∀ f (i? par : Option Nat) (ft : FT), decode t f i? par = some ft →
      (∀ j, j ∈ ftIds ft → getN t' j = getN t j) →
      decode t' f i? par = some ft := by
  intro f
  induction f with
  | zero => intro i? par ft h; exact absurd h (by simp [decode])
  | succ f ih =>
    intro i? par ft h hsame
    cases i? with
    | none => exact h
    | some i =>
      obtain ⟨n, l, r, hn, hp, hl, hr, hft⟩ := dec_unpack t f i par ft h
      subst hft
      have hi : i ∈ ftIds (FT.nd l i n.key r) := by rw [mem_ftIds_nd]; exact Or.inr (Or.inl rfl)
      refine dec_build t' f i par n l r (by rw [hsame i hi]; exact hn) hp ?_ ?_
      · exact ih n.left (some i) l hl
          (fun j hj => hsame j (by rw [mem_ftIds_nd]; exact Or.inl hj))
      · exact ih n.right (some i) r hr
          (fun j hj => hsame j (by rw [mem_ftIds_nd]; exact Or.inr (Or.inr hj)))

theorem dec_struct (t t' : Tree V)
    (hs : ∀ j, (getN t' j).map structOf = (getN t j).map structOf) :
    ∀ f (i? par : Option Nat) (ft : FT), decode t f i? par = some ft →
      decode t' f i? par = some ft := by
  intro f
  induction f with
  | zero => intro i? par ft h; exact absurd h (by simp [decode])
  | succ f ih =>
    intro i? par ft h
    cases i? with
    | none => exact h
    | some i =>
      obtain ⟨n, l, r, hn, hp, hl, hr, hft⟩ := dec_unpack t f i par ft h
      subst hft
      have hsi := hs i
      rw [hn] at hsi
      cases hn' : getN t' i with
      | none => rw [hn'] at hsi; exact absurd hsi (by simp)
      | some n' =>
        rw [hn'] at hsi
        have hsi' : structOf n' = structOf n := Option.some.inj hsi
        have hkey : n'.key = n.key := congrArg Prod.fst hsi'
        have hleft : n'.left = n.left := congrArg (fun q => q.2.1) hsi'
        have hright : n'.right = n.right := congrArg (fun q => q.2.2.1) hsi'
        have hpar : n'.parent = n.parent := congrArg (fun q => q.2.2.2) hsi'
        have := dec_build t' f i par n' l r hn' (by rw [hpar]; exact hp)
          (by rw [hleft]; exact ih n.left (some i) l hl)
          (by rw [hright]; exact ih n.right (some i) r hr)
        rw [hkey] at this
        exact this

theorem dec_parent_in (t : Tree V) :
    ∀ f (i? par : Option Nat) (ft : FT), decode t f i? par = some ft →
      ∀ j, j ∈ ftIds ft → ∀ nj : Node V, getN t j = some nj →
        ∀ q, nj.parent = some q → (par = some q ∨ q ∈ ftIds ft) := by
  intro f
  induction f with
  | zero => intro i? par ft h; exact absurd h (by simp [decode])
  | succ f ih =>
    intro i? par ft h j hj nj hnj q hq
    cases i? with
    | none =>
      have : ft = .nil := (Option.some.inj h).symm
      subst this
      exact absurd hj (by simp [ftIds, ftPairs])
    | some i =>
      obtain ⟨n, l, r, hn, hp, hl, hr, hft⟩ := dec_unpack t f i par ft h
      subst hft
      rw [mem_ftIds_nd] at hj
      rcases hj with hj | hj | hj
      · rcases ih n.left (some i) l hl j hj nj hnj q hq with hcase | hcase
        · right; rw [mem_ftIds_nd]; exact Or.inr (Or.inl (Option.some.inj hcase).symm)
        · right; rw [mem_ftIds_nd]; exact Or.inl hcase
      · subst hj
        rw [hn] at hnj
        have hnj' : n = nj := Option.some.inj hnj
        left
        rw [← hp, hnj']
        exact hq
      · rcases ih n.right (some i) r hr j hj nj hnj q hq with hcase | hcase
        · right; rw [mem_ftIds_nd]; exact Or.inr (Or.inl (Option.some.inj hcase).symm)
        · right; rw [mem_ftIds_nd]; exact Or.inr (Or.inr hcase)

theorem ftB_pairs_bounds (ft : FT) :
    ∀ lo hi, ftB lo hi ft = true →
      ∀ p ∈ ftPairs ft, loOk lo p.2 = true ∧ hiOk hi p.2 = true := by
  induction ft with
  | nil => intro _ _ _ p hp; exact absurd hp (by simp [ftPairs])
  | nd l i k r ihl ihr =>
    intro lo hi h p hp
    rw [ftB_nd_iff] at h
    obtain ⟨h1, h2, h3, h4⟩ := h
    simp only [ftPairs, List.mem_append, List.mem_cons] at hp
    rcases hp with hp | hp | hp
    · obtain ⟨b1, b2⟩ := ihl lo (some k) h3 p hp
      exact ⟨b1, hiOk_trans hi p.2 k h2 (by simpa [hiOk] using b2)⟩
    · subst hp; exact ⟨h1, h2⟩
    · obtain ⟨b1, b2⟩ := ihr (some k) hi h4 p hp
      exact ⟨loOk_trans lo k p.2 h1 (by simpa [loOk] using b1), b2⟩

theorem dec_ids_lt (t : Tree V) (f : Nat) (i? par : Option Nat) (ft : FT)
    (h : decode t f i? par = some ft) :
    ∀ j, j ∈ ftIds ft → j < t.nodes.length := by
  intro j hj
  simp only [ftIds, List.mem_map] at hj
  obtain ⟨p, hp, hpj⟩ := hj
  obtain ⟨n, hn, _⟩ := dec_mem t f i? par ft h p hp
  rw [← hpj]
  exact getN_lt t p.1 n hn

theorem dec_nodup (t : Tree V) :
    ∀ f (i? par : Option Nat) (ft : FT) lo hi, decode t f i? par = some ft →
      ftB lo hi ft = true → (ftIds ft).Nodup := by
  intro f
  induction f with
  | zero => intro i? par ft _ _ h; exact absurd h (by simp [decode])
  | succ f ih =>
    intro i? par ft lo hi h hb
    cases i? with
    | none =>
      have : ft = .nil := (Option.some.inj h).symm
      subst this
      simp [ftIds, ftPairs]
    | some i =>
      obtain ⟨n, l, r, hn, hp, hl, hr, hft⟩ := dec_unpack t f i par ft h
      subst hft
      rw [ftB_nd_iff] at hb
      obtain ⟨_, _, h3, h4⟩ := hb
      have hndl := ih n.left (some i) l lo (some n.key) hl h3
      have hndr := ih n.right (some i) r (some n.key) hi hr h4
      have keyOf : ∀ j, j ∈ ftIds l → ∀ m : Node V, getN t j = some m →
          m.key < n.key := by
        intro j hj m hm
        simp only [ftIds, List.mem_map] at hj
        obtain ⟨p, hp', hpj⟩ := hj
        obtain ⟨m', hm', hk'⟩ := dec_mem t f n.left (some i) l hl p hp'
        rw [hpj] at hm'
        rw [hm] at hm'
        have hb2 := (ftB_pairs_bounds l lo (some n.key) h3 p hp').2
        simp only [hiOk, decide_eq_true_eq] at hb2
        rw [Option.some.inj hm', hk']
        exact hb2
      have keyOfR : ∀ j, j ∈ ftIds r → ∀ m : Node V, getN t j = some m →
          n.key < m.key := by
        intro j hj m hm
        simp only [ftIds, List.mem_map] at hj
        obtain ⟨p, hp', hpj⟩ := hj
        obtain ⟨m', hm', hk'⟩ := dec_mem t f n.right (some i) r hr p hp'
        rw [hpj] at hm'
        rw [hm] at hm'
        have hb2 := (ftB_pairs_bounds r (some n.key) hi h4 p hp').1
        simp only [loOk, decide_eq_true_eq] at hb2
        rw [Option.some.inj hm', hk']
        exact hb2
      have exN : ∀ j, j ∈ ftIds l ∨ j = i ∨ j ∈ ftIds r → ∃ m : Node V, getN t j = some m := by
        intro j hj
        rcases hj with hj | hj | hj
        · simp only [ftIds, List.mem_map] at hj
          obtain ⟨p, hp', hpj⟩ := hj
          obtain ⟨m, hm, _⟩ := dec_mem t f n.left (some i) l hl p hp'
          exact ⟨m, hpj ▸ hm⟩
        · exact ⟨n, hj ▸ hn⟩
        · simp only [ftIds, List.mem_map] at hj
          obtain ⟨p, hp', hpj⟩ := hj
          obtain ⟨m, hm, _⟩ := dec_mem t f n.right (some i) r hr p hp'
          exact ⟨m, hpj ▸ hm⟩
      have hids : ftIds (FT.nd l i n.key r) = ftIds l ++ i :: ftIds r := by
        simp [ftIds, ftPairs]
      rw [hids]
      rw [List.nodup_append]
      refine ⟨hndl, List.nodup_cons.mpr ⟨?_, hndr⟩, ?_⟩
      · intro hir
        obtain ⟨m, hm⟩ := exN i (Or.inr (Or.inl rfl))
        have h1 := keyOfR i hir m hm
        rw [hn] at hm
        rw [← Option.some.inj hm] at h1
        exact absurd h1 (by omega)
      · intro j hjl hjmem
        rw [List.mem_cons] at hjmem
        obtain ⟨m, hm⟩ := exN j (Or.inl hjl)
        have h1 := keyOf j hjl m hm
        rcases hjmem with hji | hjr
        · subst hji
          rw [hn] at hm
          rw [← Option.some.inj hm] at h1
          exact absurd h1 (by omega)
        · have h2 := keyOfR j hjr m hm
          exact absurd (h1.trans h2) (by omega)

theorem countVisit_dec (t : Tree V) :
    ∀ f (i? par : Option Nat) (ft : FT), decode t f i? par = some ft →
      countVisit t f i? = .ok (ftSize ft) := by
  intro f
  induction f with
  | zero => intro i? par ft h; exact absurd h (by simp [decode])
  | succ f ih =>
    intro i? par ft h
    cases i? with
    | none =>
      have : ft = .nil := (Option.some.inj h).symm
      subst this
      rfl
    | some i =>
      obtain ⟨n, l, r, hn, hp, hl, hr, hft⟩ := dec_unpack t f i par ft h
      subst hft
      unfold countVisit
      rw [hn]
      dsimp only
      rw [ih n.left (some i) l hl, ih n.right (some i) r hr]
      rfl

end RBGo
namespace RBGo

/-! ## Lookup correctness over a decoded, sorted arena -/

theorem cmp_self (k : Int) : IntComparator k k = 0 := by
  simp [IntComparator]

theorem cmp_lt {k k' : Int} (h : k < k') : IntComparator k k' = -1 := by
  simp only [IntComparator]
  rw [if_neg (by omega), if_pos h]

theorem cmp_gt {k k' : Int} (h : k' < k) : IntComparator k k' = 1 := by
  simp only [IntComparator]
  rw [if_pos (by omega)]

/-- The parent/direction pair returned by a successful lookup resolves, through
the current heap, to the node `j`. -/
def slotRes (t : Tree V) (par' : Option Nat) (dir' : Direction) (j : Nat) : Prop :=
  (par' = none → t.root = some j) ∧
  (∀ q, par' = some q → ∃ qn : Node V, getN t q = some qn ∧
    ((dir' = .LEFT ∧ qn.left = some j) ∨ (dir' = .RIGHT ∧ qn.right = some j)))

theorem pairs_key_eq_root (t : Tree V) (f : Nat) (i : Nat) (par : Option Nat)
    (n : Node V) (l r : FT) (lo hi : Option Int) (j : Nat)
    (hb : ftB lo hi (.nd l i n.key r) = true)
    (hl : decode t f n.left (some i) = some l)
    (hr : decode t f n.right (some i) = some r)
    (hmem : (j, n.key) ∈ ftPairs (.nd l i n.key r)) : j = i := by
  rw [ftB_nd_iff] at hb
  obtain ⟨_, _, h3, h4⟩ := hb
  simp only [ftPairs, List.mem_append, List.mem_cons] at hmem
  rcases hmem with hm | hm | hm
  · have := (ftB_pairs_bounds l lo (some n.key) h3 (j, n.key) hm).2
    simp only [hiOk, decide_eq_true_eq] at this
    omega
  · exact (Prod.mk.injEq _ _ _ _ ▸ hm : ((j, n.key) : Nat × Int).1 = i ∧ _).1
  · have := (ftB_pairs_bounds r (some n.key) hi h4 (j, n.key) hm).1
    simp only [loOk, decide_eq_true_eq] at this
    omega

theorem lookup_found (t : Tree V) (k : Int) :
    ∀ f (i : Nat) (par : Option Nat) (ft : FT) (lo hi : Option Int)
      (fuel : Nat) (dir : Direction) (j : Nat),
      decode t f (some i) par = some ft →
      ftB lo hi ft = true →
      (j, k) ∈ ftPairs ft →
      f ≤ fuel →
      (par = none → t.root = some i) →
      (∀ q, par = some q → ∃ qn : Node V, getN t q = some qn ∧
        ((dir = .LEFT ∧ qn.left = some i) ∨ (dir = .RIGHT ∧ qn.right = some i))) →
      ∃ par' dir', internalLookup t fuel par (some i) k dir = .ok (true, par', dir') ∧
        slotRes t par' dir' j := by
  intro f
  induction f with
  | zero => intro i par ft _ _ _ _ _ h; exact absurd h (by simp [decode])
  | succ f ih =>
    intro i par ft lo hi fuel dir j hdec hb hmem hf hpar0 hslot
    obtain ⟨n, l, r, hn, hp, hl, hr, hft⟩ := dec_unpack t f i par ft hdec
    subst hft
    cases fuel with
    | zero => omega
    | succ fuel =>
      rw [ftB_nd_iff] at hb
      obtain ⟨hb1, hb2, hb3, hb4⟩ := hb
      rcases lt_trichotomy k n.key with hk | hk | hk
      · -- descend left
        have hmeml : (j, k) ∈ ftPairs l := by
          simp only [ftPairs, List.mem_append, List.mem_cons] at hmem
          rcases hmem with hm | hm | hm
          · exact hm
          · exact absurd (congrArg Prod.snd hm) (by simp; omega)
          · have := (ftB_pairs_bounds r (some n.key) hi hb4 (j, k) hm).1
            simp only [loOk, decide_eq_true_eq] at this
            omega
        have hlne : l ≠ .nil := by
          intro hnil
          rw [hnil] at hmeml
          exact absurd hmeml (by simp [ftPairs])
        have hroot := dec_rootId t f n.left (some i) l hl
        cases hlcase : l with
        | nil => exact absurd hlcase hlne
        | nd ll li lk lr =>
          rw [hlcase] at hroot
          have hleq : n.left = some li := hroot
          unfold internalLookup
          rw [hn]
          dsimp only
          rw [if_neg (by rw [cmp_lt hk]; omega), if_pos (by rw [cmp_lt hk]; omega)]
          rw [hleq]
          refine ih li (some i) (.nd ll li lk lr) lo (some n.key) fuel .LEFT j
            (by rw [← hlcase, ← hleq]; exact hl) (by rw [← hlcase]; exact hb3)
            (by rw [← hlcase]; exact hmeml) (by omega)
            (fun hco => absurd hco (by simp)) ?_
          intro q hq
          have hqi : q = i := (Option.some.inj hq).symm
          subst hqi
          exact ⟨n, hn, Or.inl ⟨rfl, hleq⟩⟩
      · -- found here
        have hji : j = i := pairs_key_eq_root t f i par n l r lo hi j
          (by rw [ftB_nd_iff]; exact ⟨hb1, hb2, hb3, hb4⟩) hl hr (hk ▸ hmem)
        subst hji
        unfold internalLookup
        rw [hn]
        dsimp only
        rw [if_pos (by rw [hk, cmp_self])]
        exact ⟨par, dir, rfl, hpar0, hslot⟩
      · -- descend right
        have hmemr : (j, k) ∈ ftPairs r := by
          simp only [ftPairs, List.mem_append, List.mem_cons] at hmem
          rcases hmem with hm | hm | hm
          · have := (ftB_pairs_bounds l lo (some n.key) hb3 (j, k) hm).2
            simp only [hiOk, decide_eq_true_eq] at this
            omega
          · exact absurd (congrArg Prod.snd hm) (by simp; omega)
          · exact hm
        have hrne : r ≠ .nil := by
          intro hnil
          rw [hnil] at hmemr
          exact absurd hmemr (by simp [ftPairs])
        have hroot := dec_rootId t f n.right (some i) r hr
        cases hrcase : r with
        | nil => exact absurd hrcase hrne
        | nd rl ri rk rr =>
          rw [hrcase] at hroot
          have hreq : n.right = some ri := hroot
          unfold internalLookup
          rw [hn]
          dsimp only
          rw [if_neg (by rw [cmp_gt hk]; omega), if_neg (by rw [cmp_gt hk]; omega),
            if_pos (by rw [cmp_gt hk]; omega)]
          rw [hreq]
          refine ih ri (some i) (.nd rl ri rk rr) (some n.key) hi fuel .RIGHT j
            (by rw [← hrcase, ← hreq]; exact hr) (by rw [← hrcase]; exact hb4)
            (by rw [← hrcase]; exact hmemr) (by omega)
            (fun hco => absurd hco (by simp)) ?_
          intro q hq
          have hqi : q = i := (Option.some.inj hq).symm
          subst hqi
          exact ⟨n, hn, Or.inr ⟨rfl, hreq⟩⟩

theorem getNodeCore_found (t : Tree V) (ft : FT) (k : Int) (j : Nat)
    (hdec : decode t (dFuel t) t.root none = some ft)
    (hb : ftB none none ft = true)
    (hmem : (j, k) ∈ ftPairs ft) :
    getNodeCore t k = .ok (true, some j) := by
  cases hr : t.root with
  | none =>
    rw [hr] at hdec
    have : ft = .nil := by
      cases hF : dFuel t with
      | zero => rw [hF] at hdec; exact absurd hdec (by simp [decode])
      | succ F => rw [hF] at hdec; exact (Option.some.inj hdec).symm
    subst this
    exact absurd hmem (by simp [ftPairs])
  | some r =>
    rw [hr] at hdec
    obtain ⟨par', dir', hlook, hres⟩ := lookup_found t k (dFuel t) r none ft none none
      (dFuel t) .NODIR j hdec hb hmem (Nat.le_refl _)
      (fun _ => hr) (fun q hq => absurd hq (by simp))
    unfold getNodeCore GetParentCore
    rw [hr]
    dsimp only
    rw [hlook, bindOk]
    dsimp only
    rw [if_pos rfl]
    cases par' with
    | none =>
      dsimp only
      have hrj : r = j := Option.some.inj (hr.symm.trans (hres.1 rfl))
      rw [hrj]
      rfl
    | some q =>
      obtain ⟨qn, hqn, hcase⟩ := hres.2 q rfl
      dsimp only
      rw [hqn]
      dsimp only
      rcases hcase with ⟨hdir, hsl⟩ | ⟨hdir, hsl⟩ <;> subst hdir
      · rw [hsl]; rfl
      · rw [hsl]; rfl

theorem getCore_found (t : Tree V) (ft : FT) (k : Int) (j : Nat) (nj : Node V)
    (hdec : decode t (dFuel t) t.root none = some ft)
    (hb : ftB none none ft = true)
    (hmem : (j, k) ∈ ftPairs ft)
    (hnj : getN t j = some nj) :
    GetCore t k = .ok (true, some nj.payload) := by
  unfold GetCore
  rw [getNodeCore_found t ft k j hdec hb hmem, bindOk]
  dsimp only
  rw [hnj]
  rfl

end RBGo
namespace RBGo

/-! ## The overwrite path of `Put` and payload-only writes -/

theorem modifyN_structOf (t : Tree V) (i : Nat) (f : Node V → Node V)
    (hf : ∀ n : Node V, structOf (f n) = structOf n) :
    ∀ j, (getN (modifyN t i f) j).map structOf = (getN t j).map structOf := by
  intro j
  cases hg : getN t i with
  | none => rw [modifyN_none t i f hg]
  | some n =>
    rw [modifyN_eq_setN t i f n hg]
    by_cases hj : j = i
    · subst hj
      rw [getN_setN_self _ _ _ (getN_lt _ _ _ hg), hg]
      simp [hf n]
    · rw [getN_setN_ne _ j i _ (fun h => hj h.symm)]

/-- On a decoded sorted arena, `Put` of a key that is present only overwrites
that node's payload. -/
theorem put_found (t : Tree V) (ft : FT) (k : Int) (j : Nat) (v : V) (f : Nat)
    (hdec : decode t (dFuel t) t.root none = some ft)
    (hb : ftB none none ft = true)
    (hmem : (j, k) ∈ ftPairs ft) :
    Put t f k v = .ok (modifyN t j (fun n => { n with payload := v })) := by
  cases hr : t.root with
  | none =>
    rw [hr] at hdec
    have : ft = .nil := by
      cases hF : dFuel t with
      | zero => rw [hF] at hdec; exact absurd hdec (by simp [decode])
      | succ F => rw [hF] at hdec; exact (Option.some.inj hdec).symm
    subst this
    exact absurd hmem (by simp [ftPairs])
  | some r =>
    rw [hr] at hdec
    obtain ⟨par', dir', hlook, hres⟩ := lookup_found t k (dFuel t) r none ft none none
      (dFuel t) .NODIR j hdec hb hmem (Nat.le_refl _)
      (fun _ => hr) (fun q hq => absurd hq (by simp))
    unfold Put
    rw [hr]
    dsimp only
    rw [hlook, bindOk]
    dsimp only
    rw [if_pos rfl]
    cases par' with
    | none =>
      dsimp only
      have hrj : r = j := Option.some.inj (hr.symm.trans (hres.1 rfl))
      rw [hrj]
      rfl
    | some q =>
      obtain ⟨qn, hqn, hcase⟩ := hres.2 q rfl
      dsimp only
      rw [hqn]
      dsimp only
      rcases hcase with ⟨hdir, hsl⟩ | ⟨hdir, hsl⟩ <;> subst hdir
      · dsimp only
        rw [hsl]
        rfl
      · dsimp only
        rw [hsl]
        rfl

/-- The tree decodes to a sorted search tree in which key `k` sits on a node
whose payload is `v`. -/
def wfWith (t : Tree V) (k : Int) (v : V) : Prop :=
  ∃ ft j nj, decode t (dFuel t) t.root none = some ft ∧ ftB none none ft = true ∧
    (j, k) ∈ ftPairs ft ∧ getN t j = some nj ∧ nj.payload = v

theorem overwrite_spec (t : Tree V) (k : Int) (v v0 : V) (f : Nat) (t' : Tree V)
    (hw : wfWith t k v0) (hput : Put t f k v = .ok t') :
    GetCore t' k = .ok (true, some v) ∧ Size t' = Size t ∧ wfWith t' k v := by
  obtain ⟨ft, j, nj, hdec, hb, hmem, hnj, _⟩ := hw
  have heq := put_found t ft k j v f hdec hb hmem
  rw [hput] at heq
  have ht' : t' = modifyN t j (fun n => { n with payload := v }) :=
    Except.ok.inj heq
  subst ht'
  have hstruct := modifyN_structOf t j (fun n => { n with payload := v })
    (fun n => rfl)
  have hroot' : (modifyN t j (fun n => { n with payload := v })).root = t.root :=
    modifyN_root t j _
  have hlen' : (modifyN t j (fun n => { n with payload := v })).nodes.length
      = t.nodes.length := modifyN_length t j _
  have hdec' : decode (modifyN t j (fun n => { n with payload := v }))
      (dFuel (modifyN t j (fun n => { n with payload := v })))
      (modifyN t j (fun n => { n with payload := v })).root none = some ft := by
    rw [hroot']
    have : dFuel (modifyN t j (fun n => { n with payload := v })) = dFuel t := by
      unfold dFuel
      rw [hlen']
    rw [this]
    exact dec_struct t _ hstruct (dFuel t) t.root none ft hdec
  have hnj' : getN (modifyN t j (fun n => { n with payload := v })) j
      = some { nj with payload := v } := by
    rw [modifyN_eq_setN t j _ nj hnj]
    exact getN_setN_self _ _ _ (getN_lt _ _ _ hnj)
  refine ⟨?_, ?_, ft, j, { nj with payload := v }, hdec', hb, hmem, hnj', rfl⟩
  · exact getCore_found _ ft k j { nj with payload := v } hdec' hb hmem hnj'
  · unfold Size
    rw [countVisit_dec _ (dFuel _) _ none ft hdec',
      countVisit_dec t (dFuel t) t.root none ft hdec]

end RBGo
namespace RBGo

/-! ## Insertion: functional lemmas and the attach step -/

theorem ftIds_nd (l r : FT) (i : Nat) (k : Int) :
    ftIds (.nd l i k r) = ftIds l ++ i :: ftIds r := by
  simp [ftIds, ftPairs]

theorem ftIns_mem (ft : FT) (k : Int) (j : Nat)
    (habs : ∀ (j' : Nat) (kk : Int), (j', kk) ∈ ftPairs ft → kk ≠ k) :
    (j, k) ∈ ftPairs (ftIns ft k j) := by
  induction ft with
  | nil => simp [ftIns, ftPairs]
  | nd l i k' r ihl ihr =>
    rcases lt_trichotomy k k' with hk | hk | hk
    · simp only [ftIns, if_pos hk]
      simp only [ftPairs, List.mem_append]
      exact Or.inl (ihl (fun j' kk hm => habs j' kk (by simp [ftPairs]; tauto)))
    · exact absurd hk.symm (habs i k' (by simp [ftPairs]))
    · simp only [ftIns, if_neg (show ¬ k < k' by omega), if_pos hk]
      simp only [ftPairs, List.mem_append, List.mem_cons]
      exact Or.inr (Or.inr (ihr (fun j' kk hm => habs j' kk (by simp [ftPairs]; tauto))))

theorem ftB_ftIns (ft : FT) (k : Int) (j : Nat) :
    ∀ lo hi, ftB lo hi ft = true → loOk lo k = true → hiOk hi k = true →
      ftB lo hi (ftIns ft k j) = true := by
  induction ft with
  | nil =>
    intro lo hi _ hlo hhi
    simp only [ftIns]
    rw [ftB_nd_iff]
    exact ⟨hlo, hhi, rfl, rfl⟩
  | nd l i k' r ihl ihr =>
    intro lo hi hb hlo hhi
    rw [ftB_nd_iff] at hb
    obtain ⟨h1, h2, h3, h4⟩ := hb
    rcases lt_trichotomy k k' with hk | hk | hk
    · simp only [ftIns, if_pos hk]
      rw [ftB_nd_iff]
      exact ⟨h1, h2, ihl lo (some k') h3 hlo (by simpa [hiOk] using hk), h4⟩
    · simp only [ftIns, if_neg (show ¬ k < k' by omega), if_neg (show ¬ k' < k by omega)]
      rw [ftB_nd_iff]
      exact ⟨h1, h2, h3, h4⟩
    · simp only [ftIns, if_neg (show ¬ k < k' by omega), if_pos hk]
      rw [ftB_nd_iff]
      exact ⟨h1, h2, h3, ihr (some k') hi h4 (by simpa [loOk] using hk) hhi⟩

theorem ftSize_ftIns (ft : FT) (k : Int) (j : Nat)
    (habs : ∀ (j' : Nat) (kk : Int), (j', kk) ∈ ftPairs ft → kk ≠ k) :
    ftSize (ftIns ft k j) = ftSize ft + 1 := by
  induction ft with
  | nil => rfl
  | nd l i k' r ihl ihr =>
    rcases lt_trichotomy k k' with hk | hk | hk
    · simp only [ftIns, if_pos hk, ftSize]
      rw [ihl (fun j' kk hm => habs j' kk (by simp [ftPairs]; tauto))]
      omega
    · exact absurd hk.symm (habs i k' (by simp [ftPairs]))
    · simp only [ftIns, if_neg (show ¬ k < k' by omega), if_pos hk, ftSize]
      rw [ihr (fun j' kk hm => habs j' kk (by simp [ftPairs]; tauto))]
      omega

theorem ftIds_ftIns_subset (ft : FT) (k : Int) (j : Nat) :
    ∀ q, q ∈ ftIds (ftIns ft k j) → q ∈ ftIds ft ∨ q = j := by
  induction ft with
  | nil => intro q hq; right; simpa [ftIns, ftIds, ftPairs] using hq
  | nd l i k' r ihl ihr =>
    intro q hq
    rcases lt_trichotomy k k' with hk | hk | hk
    · simp only [ftIns, if_pos hk] at hq
      rw [mem_ftIds_nd] at hq
      rcases hq with hq | hq | hq
      · rcases ihl q hq with h | h
        · left; rw [mem_ftIds_nd]; exact Or.inl h
        · right; exact h
      · left; rw [mem_ftIds_nd]; exact Or.inr (Or.inl hq)
      · left; rw [mem_ftIds_nd]; exact Or.inr (Or.inr hq)
    · simp only [ftIns, if_neg (show ¬ k < k' by omega), if_neg (show ¬ k' < k by omega)] at hq
      left; exact hq
    · simp only [ftIns, if_neg (show ¬ k < k' by omega), if_pos hk] at hq
      rw [mem_ftIds_nd] at hq
      rcases hq with hq | hq | hq
      · left; rw [mem_ftIds_nd]; exact Or.inl hq
      · left; rw [mem_ftIds_nd]; exact Or.inr (Or.inl hq)
      · rcases ihr q hq with h | h
        · left; rw [mem_ftIds_nd]; exact Or.inr (Or.inr h)
        · right; exact h

/-- A new node appended to the arena; reads at old indices are unchanged. -/
theorem getN_append_lt (t : Tree V) (m : Node V) (r : Option Nat) (j : Nat)
    (h : j < t.nodes.length) :
    getN { nodes := t.nodes ++ [m], root := r } j = getN t j := by
  simp only [getN]
  exact List.get?_append h

theorem getN_append_self (t : Tree V) (m : Node V) (r : Option Nat) :
    getN { nodes := t.nodes ++ [m], root := r } t.nodes.length = some m := by
  simp only [getN]
  exact List.get?_concat_length t.nodes m

/-- The heap `Put`'s insert branch builds before running the fix-up: append the
fresh red node and point the dead-end parent's slot at it. -/
def attach (t : Tree V) (p : Nat) (dir : Direction) (key : Int) (data : V) : Tree V :=
  let t1 : Tree V :=
    { nodes := t.nodes ++
        [{ key := key, payload := data, color := RED,
           left := none, right := none, leaf := false, parent := some p }],
      root := t.root }
  match dir with
  | .LEFT => modifyN t1 p (fun n => { n with left := some t.nodes.length })
  | .RIGHT => modifyN t1 p (fun n => { n with right := some t.nodes.length })
  | .NODIR => t1

theorem attach_length (t : Tree V) (p : Nat) (dir : Direction) (key : Int) (data : V) :
    (attach t p dir key data).nodes.length = t.nodes.length + 1 := by
  unfold attach
  cases dir <;> simp [modifyN_length, List.length_append]

end RBGo
namespace RBGo

/-! ## The insert path of `Put`: the dead-end lookup and the attach step -/

theorem nodup_nd_parts (l r : FT) (i : Nat) (k : Int)
    (h : (ftIds (.nd l i k r)).Nodup) :
    (ftIds l).Nodup ∧ (ftIds r).Nodup ∧ i ∉ ftIds l ∧ i ∉ ftIds r ∧
      ∀ q, q ∈ ftIds l → q ∉ ftIds r := by
  rw [ftIds_nd, List.nodup_append] at h
  obtain ⟨h1, h2, h3⟩ := h
  rw [List.nodup_cons] at h2
  exact ⟨h1, h2.2, fun hi => h3 hi (List.mem_cons_self i _),
    h2.1, fun q hq hqr => h3 hq (List.mem_cons_of_mem i hqr)⟩

theorem dec_nil (t : Tree V) (par : Option Nat) (f : Nat) (hf : f ≠ 0) :
    decode t f none par = some .nil := by
  cases f with
  | zero => exact absurd rfl hf
  | succ f => rfl

theorem dec_zero_ne (t : Tree V) (i? par : Option Nat) (ft : FT)
    (h : decode t 0 i? par = some ft) : False := by
  simp [decode] at h

theorem getN_attach_old (t : Tree V) (p : Nat) (dir : Direction) (k : Int) (v : V)
    (j : Nat) (hj : j < t.nodes.length) (hjp : p ≠ j) :
    getN (attach t p dir k v) j = getN t j := by
  cases dir with
  | LEFT =>
    simp only [attach]
    rw [getN_modifyN_ne _ j p _ hjp]
    exact getN_append_lt t _ _ j hj
  | RIGHT =>
    simp only [attach]
    rw [getN_modifyN_ne _ j p _ hjp]
    exact getN_append_lt t _ _ j hj
  | NODIR =>
    simp only [attach]
    exact getN_append_lt t _ _ j hj

theorem getN_attach_p_left (t : Tree V) (p : Nat) (k : Int) (v : V) (pn : Node V)
    (hpn : getN t p = some pn) :
    getN (attach t p .LEFT k v) p = some { pn with left := some t.nodes.length } := by
  simp only [attach]
  rw [modifyN_eq_setN _ p _ pn
    (by rw [getN_append_lt t _ _ p (getN_lt t p pn hpn)]; exact hpn)]
  refine getN_setN_self _ _ _ ?_
  have := getN_lt t p pn hpn
  simp only [List.length_append, List.length_cons, List.length_nil]
  omega

theorem getN_attach_p_right (t : Tree V) (p : Nat) (k : Int) (v : V) (pn : Node V)
    (hpn : getN t p = some pn) :
    getN (attach t p .RIGHT k v) p = some { pn with right := some t.nodes.length } := by
  simp only [attach]
  rw [modifyN_eq_setN _ p _ pn
    (by rw [getN_append_lt t _ _ p (getN_lt t p pn hpn)]; exact hpn)]
  refine getN_setN_self _ _ _ ?_
  have := getN_lt t p pn hpn
  simp only [List.length_append, List.length_cons, List.length_nil]
  omega

theorem getN_attach_new_left (t : Tree V) (p : Nat) (k : Int) (v : V)
    (hp : p < t.nodes.length) :
    getN (attach t p .LEFT k v) t.nodes.length
      = some { key := k, payload := v, color := RED, left := none,
               right := none, leaf := false, parent := some p } := by
  simp only [attach]
  rw [getN_modifyN_ne _ t.nodes.length p _ (by omega)]
  exact getN_append_self t _ _

theorem getN_attach_new_right (t : Tree V) (p : Nat) (k : Int) (v : V)
    (hp : p < t.nodes.length) :
    getN (attach t p .RIGHT k v) t.nodes.length
      = some { key := k, payload := v, color := RED, left := none,
               right := none, leaf := false, parent := some p } := by
  simp only [attach]
  rw [getN_modifyN_ne _ t.nodes.length p _ (by omega)]
  exact getN_append_self t _ _

/-- On a sorted decoded subtree that misses key `k`, the lookup stops at a
dead end `(p, dir')`, and attaching the fresh node there re-decodes to the
functional insertion of `k`. -/
theorem lookup_insert (t : Tree V) (k : Int) (v : V) :
    ∀ f (i : Nat) (par : Option Nat) (ft : FT) (lo hi : Option Int)
      (fuel : Nat) (dir : Direction),
      decode t f (some i) par = some ft →
      ftB lo hi ft = true →
      loOk lo k = true → hiOk hi k = true →
      (∀ (j' : Nat) (kk : Int), (j', kk) ∈ ftPairs ft → kk ≠ k) →
      (ftIds ft).Nodup →
      f ≤ fuel →
      ∃ p dir', internalLookup t fuel par (some i) k dir = .ok (false, some p, dir') ∧
        p ∈ ftIds ft ∧
        decode (attach t p dir' k v) (f + 2) (some i) par
          = some (ftIns ft k t.nodes.length) := by
  intro f
  induction f with
  | zero => intro i par ft _ _ _ _ h; exact absurd h (by simp [decode])
  | succ f ih =>
    intro i par ft lo hi fuel dir hdec hb hlo hhi habs hnd hf
    obtain ⟨n, l, r, hn, hp, hl, hr, hft⟩ := dec_unpack t f i par ft hdec
    subst hft
    obtain ⟨hndl, hndr, hil, hir, hdisj⟩ := nodup_nd_parts l r i n.key hnd
    cases fuel with
    | zero => omega
    | succ fuel =>
      rw [ftB_nd_iff] at hb
      obtain ⟨hb1, hb2, hb3, hb4⟩ := hb
      have hfpos : f ≠ 0 := fun h0 => dec_zero_ne t n.left (some i) l (h0 ▸ hl)
      have hilen : i < t.nodes.length := getN_lt t i n hn
      have hik : n.key ≠ k := habs i n.key (by simp [ftPairs])
      rcases lt_trichotomy k n.key with hk | hk | hk
      · -- descend left
        have hroot := dec_rootId t f n.left (some i) l hl
        cases hlc : l with
        | nil =>
          rw [hlc] at hroot
          have hln : n.left = none := hroot
          cases fuel with
          | zero => omega
          | succ fuel =>
            refine ⟨i, .LEFT, ?_, by rw [mem_ftIds_nd]; exact Or.inr (Or.inl rfl), ?_⟩
            · unfold internalLookup
              rw [hn]
              dsimp only
              rw [if_neg (by rw [cmp_lt hk]; omega), if_pos (by rw [cmp_lt hk]; omega)]
              rw [hln]
              rfl
            · have hga := getN_attach_p_left t i k v n hn
              have hgnew := getN_attach_new_left t i k v hilen
              have hnew : decode (attach t i .LEFT k v) (f + 1)
                  (some t.nodes.length) (some i)
                  = some (.nd .nil t.nodes.length k .nil) :=
                dec_build _ f t.nodes.length (some i) _ .nil .nil hgnew rfl
                  (dec_nil _ _ f hfpos) (dec_nil _ _ f hfpos)
              have hfrr : decode (attach t i .LEFT k v) (f + 1) n.right (some i)
                  = some r := by
                refine dec_mono _ f (f + 1) n.right (some i) r ?_ (by omega)
                refine dec_frame t _ f n.right (some i) r hr ?_
                intro j hj
                exact getN_attach_old t i .LEFT k v j
                  (dec_ids_lt t f n.right (some i) r hr j hj)
                  (fun he => hir (by rw [he]; exact hj))
              have main := dec_build (attach t i .LEFT k v) (f + 1) i par
                { n with left := some t.nodes.length }
                (.nd .nil t.nodes.length k .nil) r hga hp hnew hfrr
              simp only [ftIns, if_pos hk]
              exact dec_mono _ (f + 2) (f + 1 + 2) (some i) par _ main (by omega)
        | nd ll li lk lr =>
          rw [← hlc]
          rw [hlc] at hroot
          have hleq : n.left = some li := hroot
          obtain ⟨p, dir', hlook, hpmem, hdecA⟩ :=
            ih li (some i) l lo (some n.key) fuel .LEFT
              (by rw [← hleq]; exact hl) hb3 hlo (by simpa [hiOk] using hk)
              (fun j' kk hm => habs j' kk
                (by simp only [ftPairs, List.mem_append]; exact Or.inl hm))
              hndl (by omega)
          refine ⟨p, dir', ?_, by rw [mem_ftIds_nd]; exact Or.inl hpmem, ?_⟩
          · unfold internalLookup
            rw [hn]
            dsimp only
            rw [if_neg (by rw [cmp_lt hk]; omega), if_pos (by rw [cmp_lt hk]; omega)]
            rw [hleq]
            exact hlook
          · have hpi : p ≠ i := fun he => hil (by rw [← he]; exact hpmem)
            have hgi : getN (attach t p dir' k v) i = some n :=
              (getN_attach_old t p dir' k v i hilen hpi).trans hn
            have hfrr : decode (attach t p dir' k v) (f + 2) n.right (some i)
                = some r := by
              refine dec_mono _ f (f + 2) n.right (some i) r ?_ (by omega)
              refine dec_frame t _ f n.right (some i) r hr ?_
              intro j hj
              exact getN_attach_old t p dir' k v j
                (dec_ids_lt t f n.right (some i) r hr j hj)
                (fun he => hdisj p hpmem (by rw [he]; exact hj))
            have hdecL : decode (attach t p dir' k v) (f + 2) n.left (some i)
                = some (ftIns l k t.nodes.length) := by
              rw [hleq]
              exact hdecA
            have main := dec_build (attach t p dir' k v) (f + 2) i par n
              (ftIns l k t.nodes.length) r hgi hp hdecL hfrr
            simp only [ftIns, if_pos hk]
            exact main
      · exact absurd hk.symm hik
      · -- descend right
        have hroot := dec_rootId t f n.right (some i) r hr
        cases hrc : r with
        | nil =>
          rw [hrc] at hroot
          have hrn : n.right = none := hroot
          cases fuel with
          | zero => omega
          | succ fuel =>
            refine ⟨i, .RIGHT, ?_,
              by rw [mem_ftIds_nd]; exact Or.inr (Or.inl rfl), ?_⟩
            · unfold internalLookup
              rw [hn]
              dsimp only
              rw [if_neg (by rw [cmp_gt hk]; omega), if_neg (by rw [cmp_gt hk]; omega),
                if_pos (by rw [cmp_gt hk]; omega)]
              rw [hrn]
              rfl
            · have hga := getN_attach_p_right t i k v n hn
              have hgnew := getN_attach_new_right t i k v hilen
              have hnew : decode (attach t i .RIGHT k v) (f + 1)
                  (some t.nodes.length) (some i)
                  = some (.nd .nil t.nodes.length k .nil) :=
                dec_build _ f t.nodes.length (some i) _ .nil .nil hgnew rfl
                  (dec_nil _ _ f hfpos) (dec_nil _ _ f hfpos)
              have hfrl : decode (attach t i .RIGHT k v) (f + 1) n.left (some i)
                  = some l := by
                refine dec_mono _ f (f + 1) n.left (some i) l ?_ (by omega)
                refine dec_frame t _ f n.left (some i) l hl ?_
                intro j hj
                exact getN_attach_old t i .RIGHT k v j
                  (dec_ids_lt t f n.left (some i) l hl j hj)
                  (fun he => hil (by rw [he]; exact hj))
              have main := dec_build (attach t i .RIGHT k v) (f + 1) i par
                { n with right := some t.nodes.length }
                l (.nd .nil t.nodes.length k .nil) hga hp hfrl hnew
              simp only [ftIns, if_neg (show ¬ k < n.key by omega), if_pos hk]
              exact dec_mono _ (f + 2) (f + 1 + 2) (some i) par _ main (by omega)
        | nd rl ri rk rr =>
          rw [← hrc]
          rw [hrc] at hroot
          have hreq : n.right = some ri := hroot
          obtain ⟨p, dir', hlook, hpmem, hdecA⟩ :=
            ih ri (some i) r (some n.key) hi fuel .RIGHT
              (by rw [← hreq]; exact hr) hb4 (by simpa [loOk] using hk) hhi
              (fun j' kk hm => habs j' kk
                (by simp only [ftPairs, List.mem_append, List.mem_cons]
                    exact Or.inr (Or.inr hm)))
              hndr (by omega)
          refine ⟨p, dir', ?_,
            by rw [mem_ftIds_nd]; exact Or.inr (Or.inr hpmem), ?_⟩
          · unfold internalLookup
            rw [hn]
            dsimp only
            rw [if_neg (by rw [cmp_gt hk]; omega), if_neg (by rw [cmp_gt hk]; omega),
              if_pos (by rw [cmp_gt hk]; omega)]
            rw [hreq]
            exact hlook
          · have hpi : p ≠ i := fun he => hir (by rw [← he]; exact hpmem)
            have hgi : getN (attach t p dir' k v) i = some n :=
              (getN_attach_old t p dir' k v i hilen hpi).trans hn
            have hfrl : decode (attach t p dir' k v) (f + 2) n.left (some i)
                = some l := by
              refine dec_mono _ f (f + 2) n.left (some i) l ?_ (by omega)
              refine dec_frame t _ f n.left (some i) l hl ?_
              intro j hj
              exact getN_attach_old t p dir' k v j
                (dec_ids_lt t f n.left (some i) l hl j hj)
                (fun he => hdisj j hj (by rw [← he]; exact hpmem))
            have hdecR : decode (attach t p dir' k v) (f + 2) n.right (some i)
                = some (ftIns r k t.nodes.length) := by
              rw [hreq]
              exact hdecA
            have main := dec_build (attach t p dir' k v) (f + 2) i par n
              l (ftIns r k t.nodes.length) hgi hp hfrl hdecR
            simp only [ftIns, if_neg (show ¬ k < n.key by omega), if_pos hk]
            exact main

end RBGo
namespace RBGo

/-! ## Pointwise reads of the rotated heaps -/

theorem rlChain_length (t : Tree V) (x y : Nat) (xn yn : Node V) :
    (rlChain t x y xn yn).nodes.length = t.nodes.length := by
  unfold rlChain
  simp only [setN_length, relink_length, setPar_length]

theorem rlChain_getN_x (t : Tree V) (x y : Nat) (xn yn : Node V)
    (hx : getN t x = some xn) :
    getN (rlChain t x y xn yn) x
      = some { xn with right := yn.left, parent := some y } := by
  unfold rlChain
  refine getN_setN_self _ x _ ?_
  simp only [setN_length, relink_length, setPar_length]
  exact getN_lt t x xn hx

theorem rlChain_getN_y (t : Tree V) (x y : Nat) (xn yn : Node V)
    (hy : getN t y = some yn) (hxy : x ≠ y) :
    getN (rlChain t x y xn yn) y
      = some { yn with left := some x, parent := xn.parent } := by
  unfold rlChain
  rw [getN_setN_ne _ y x _ hxy]
  refine getN_setN_self _ y _ ?_
  simp only [setN_length, relink_length, setPar_length]
  exact getN_lt t y yn hy

theorem rlChain_getN_b (t : Tree V) (x y : Nat) (xn yn : Node V) (b : Nat)
    (bn : Node V) (hbl : yn.left = some b) (hbx : b ≠ x) (hby : b ≠ y)
    (hbp : ∀ p, xn.parent = some p → p ≠ b) (hbn : getN t b = some bn) :
    getN (rlChain t x y xn yn) b = some { bn with parent := some x } := by
  unfold rlChain
  rw [getN_setN_ne _ b x _ (Ne.symm hbx), getN_setN_ne _ b y _ (Ne.symm hby),
    getN_relink_ne _ xn.parent x y b hbp, getN_setN_ne _ b y _ (Ne.symm hby), hbl]
  dsimp only [setPar]
  have hbn' : getN (setN t x { xn with right := some b }) b = some bn := by
    rw [getN_setN_ne _ b x _ (Ne.symm hbx)]; exact hbn
  exact getN_modifyN_self _ b _ bn hbn'

theorem rlChain_getN_other (t : Tree V) (x y : Nat) (xn yn : Node V) (j : Nat)
    (hjx : j ≠ x) (hjy : j ≠ y)
    (hjb : ∀ b, yn.left = some b → b ≠ j)
    (hjp : ∀ p, xn.parent = some p → p ≠ j) :
    getN (rlChain t x y xn yn) j = getN t j := by
  unfold rlChain
  rw [getN_setN_ne _ j x _ (Ne.symm hjx), getN_setN_ne _ j y _ (Ne.symm hjy),
    getN_relink_ne _ xn.parent x y j hjp, getN_setN_ne _ j y _ (Ne.symm hjy),
    getN_setPar_ne _ yn.left (some x) j hjb, getN_setN_ne _ j x _ (Ne.symm hjx)]

theorem rlChain_getN_p (t : Tree V) (x y : Nat) (xn yn : Node V) (p : Nat)
    (pn : Node V) (hpp : xn.parent = some p) (hpx : p ≠ x) (hpy : p ≠ y)
    (hpb : ∀ b, yn.left = some b → b ≠ p) (hpn : getN t p = some pn) :
    getN (rlChain t x y xn yn) p
      = some (if pn.left = some x then { pn with left := some y }
              else { pn with right := some y }) := by
  unfold rlChain
  rw [getN_setN_ne _ p x _ (Ne.symm hpx), getN_setN_ne _ p y _ (Ne.symm hpy)]
  have hT3 : getN (setN (setPar (setN t x { xn with right := yn.left })
      yn.left (some x)) y { yn with parent := xn.parent }) p = some pn := by
    rw [getN_setN_ne _ p y _ (Ne.symm hpy),
      getN_setPar_ne _ yn.left (some x) p hpb,
      getN_setN_ne _ p x _ (Ne.symm hpx)]
    exact hpn
  rw [hpp]
  rw [hpp] at hT3
  dsimp only [relink]
  rw [hT3]
  dsimp only
  by_cases hs : pn.left = some x
  · rw [if_pos hs, if_pos hs]
    exact getN_modifyN_self _ p _ pn hT3
  · rw [if_neg hs, if_neg hs]
    exact getN_modifyN_self _ p _ pn hT3

theorem rlChain_root_none (t : Tree V) (x y : Nat) (xn yn : Node V)
    (hpp : xn.parent = none) :
    (rlChain t x y xn yn).root = some y := by
  unfold rlChain
  rw [setN_root, setN_root, hpp]
  rfl

theorem rlChain_root_some (t : Tree V) (x y : Nat) (xn yn : Node V) (p : Nat)
    (hpp : xn.parent = some p) :
    (rlChain t x y xn yn).root = t.root := by
  unfold rlChain
  rw [setN_root, setN_root, hpp, relink_root_some, setN_root, setPar_root, setN_root]

theorem rrChain_length (t : Tree V) (y x : Nat) (yn xn : Node V) :
    (rrChain t y x yn xn).nodes.length = t.nodes.length := by
  unfold rrChain
  simp only [setN_length, relink_length, setPar_length]

theorem rrChain_getN_y (t : Tree V) (y x : Nat) (yn xn : Node V)
    (hy : getN t y = some yn) :
    getN (rrChain t y x yn xn) y
      = some { yn with left := xn.right, parent := some x } := by
  unfold rrChain
  refine getN_setN_self _ y _ ?_
  simp only [setN_length, relink_length, setPar_length]
  exact getN_lt t y yn hy

theorem rrChain_getN_x (t : Tree V) (y x : Nat) (yn xn : Node V)
    (hx : getN t x = some xn) (hxy : x ≠ y) :
    getN (rrChain t y x yn xn) x
      = some { xn with right := some y, parent := yn.parent } := by
  unfold rrChain
  rw [getN_setN_ne _ x y _ (Ne.symm hxy)]
  refine getN_setN_self _ x _ ?_
  simp only [setN_length, relink_length, setPar_length]
  exact getN_lt t x xn hx

theorem rrChain_getN_b (t : Tree V) (y x : Nat) (yn xn : Node V) (b : Nat)
    (bn : Node V) (hbl : xn.right = some b) (hbx : b ≠ x) (hby : b ≠ y)
    (hbp : ∀ p, yn.parent = some p → p ≠ b) (hbn : getN t b = some bn) :
    getN (rrChain t y x yn xn) b = some { bn with parent := some y } := by
  unfold rrChain
  rw [getN_setN_ne _ b y _ (Ne.symm hby), getN_setN_ne _ b x _ (Ne.symm hbx),
    getN_relink_ne _ yn.parent y x b hbp, getN_setN_ne _ b x _ (Ne.symm hbx), hbl]
  dsimp only [setPar]
  have hbn' : getN (setN t y { yn with left := some b }) b = some bn := by
    rw [getN_setN_ne _ b y _ (Ne.symm hby)]; exact hbn
  exact getN_modifyN_self _ b _ bn hbn'

theorem rrChain_getN_other (t : Tree V) (y x : Nat) (yn xn : Node V) (j : Nat)
    (hjx : j ≠ x) (hjy : j ≠ y)
    (hjb : ∀ b, xn.right = some b → b ≠ j)
    (hjp : ∀ p, yn.parent = some p → p ≠ j) :
    getN (rrChain t y x yn xn) j = getN t j := by
  unfold rrChain
  rw [getN_setN_ne _ j y _ (Ne.symm hjy), getN_setN_ne _ j x _ (Ne.symm hjx),
    getN_relink_ne _ yn.parent y x j hjp, getN_setN_ne _ j x _ (Ne.symm hjx),
    getN_setPar_ne _ xn.right (some y) j hjb, getN_setN_ne _ j y _ (Ne.symm hjy)]

theorem rrChain_getN_p (t : Tree V) (y x : Nat) (yn xn : Node V) (p : Nat)
    (pn : Node V) (hpp : yn.parent = some p) (hpx : p ≠ x) (hpy : p ≠ y)
    (hpb : ∀ b, xn.right = some b → b ≠ p) (hpn : getN t p = some pn) :
    getN (rrChain t y x yn xn) p
      = some (if pn.left = some y then { pn with left := some x }
              else { pn with right := some x }) := by
  unfold rrChain
  rw [getN_setN_ne _ p y _ (Ne.symm hpy), getN_setN_ne _ p x _ (Ne.symm hpx)]
  have hT3 : getN (setN (setPar (setN t y { yn with left := xn.right })
      xn.right (some y)) x { xn with parent := yn.parent }) p = some pn := by
    rw [getN_setN_ne _ p x _ (Ne.symm hpx),
      getN_setPar_ne _ xn.right (some y) p hpb,
      getN_setN_ne _ p y _ (Ne.symm hpy)]
    exact hpn
  rw [hpp]
  rw [hpp] at hT3
  dsimp only [relink]
  rw [hT3]
  dsimp only
  by_cases hs : pn.left = some y
  · rw [if_pos hs, if_pos hs]
    exact getN_modifyN_self _ p _ pn hT3
  · rw [if_neg hs, if_neg hs]
    exact getN_modifyN_self _ p _ pn hT3

theorem rrChain_root_none (t : Tree V) (y x : Nat) (yn xn : Node V)
    (hpp : yn.parent = none) :
    (rrChain t y x yn xn).root = some x := by
  unfold rrChain
  rw [setN_root, setN_root, hpp]
  rfl

theorem rrChain_root_some (t : Tree V) (y x : Nat) (yn xn : Node V) (p : Nat)
    (hpp : yn.parent = some p) :
    (rrChain t y x yn xn).root = t.root := by
  unfold rrChain
  rw [setN_root, setN_root, hpp, relink_root_some, setN_root, setPar_root, setN_root]

/-- `modifyN` with a payload-preserving function preserves every payload. -/
theorem modifyN_map_payload (t : Tree V) (i : Nat) (f : Node V → Node V)
    (hf : ∀ n : Node V, (f n).payload = n.payload) :
    ∀ j, (getN (modifyN t i f) j).map Node.payload = (getN t j).map Node.payload := by
  intro j
  cases hg : getN t i with
  | none => rw [modifyN_none t i f hg]
  | some n =>
    rw [modifyN_eq_setN t i f n hg]
    by_cases hj : j = i
    · subst hj
      rw [getN_setN_self _ _ _ (getN_lt _ _ _ hg), hg]
      simp [hf n]
    · rw [getN_setN_ne _ j i _ (fun h => hj h.symm)]

theorem rlChain_payload (t : Tree V) (x y : Nat) (xn yn : Node V)
    (hx : getN t x = some xn) (hy : getN t y = some yn) (hxy : x ≠ y)
    (hbex : ∀ b, yn.left = some b → ∃ bn : Node V, getN t b = some bn)
    (hbne : ∀ b, yn.left = some b → b ≠ x ∧ b ≠ y)
    (hpne : ∀ p, xn.parent = some p → p ≠ x ∧ p ≠ y)
    (hpb : ∀ p b, xn.parent = some p → yn.left = some b → b ≠ p)
    (hpex : ∀ p, xn.parent = some p → ∃ pn : Node V, getN t p = some pn) :
    ∀ j, (getN (rlChain t x y xn yn) j).map Node.payload
      = (getN t j).map Node.payload := by
  intro j
  by_cases hjx : j = x
  · subst hjx
    rw [rlChain_getN_x t j y xn yn hx, hx]
    rfl
  by_cases hjy : j = y
  · subst hjy
    rw [rlChain_getN_y t x j xn yn hy hxy, hy]
    rfl
  by_cases hjb : yn.left = some j
  · obtain ⟨bn, hbn⟩ := hbex j hjb
    rw [rlChain_getN_b t x y xn yn j bn hjb
      (fun h => hjx h) (fun h => hjy h)
      (fun p hp => (hpb p j hp hjb).symm) hbn, hbn]
    rfl
  by_cases hjp : xn.parent = some j
  · obtain ⟨pn, hpn⟩ := hpex j hjp
    rw [rlChain_getN_p t x y xn yn j pn hjp (hpne j hjp).1 (hpne j hjp).2
      (fun b hb => (fun h => hjb (h ▸ hb))) hpn, hpn]
    by_cases hs : pn.left = some x
    · rw [if_pos hs]; rfl
    · rw [if_neg hs]; rfl
  · rw [rlChain_getN_other t x y xn yn j hjx hjy
      (fun b hb h => hjb (h ▸ hb)) (fun p hp h => hjp (h ▸ hp))]

theorem rrChain_payload (t : Tree V) (y x : Nat) (yn xn : Node V)
    (hy : getN t y = some yn) (hx : getN t x = some xn) (hxy : x ≠ y)
    (hbex : ∀ b, xn.right = some b → ∃ bn : Node V, getN t b = some bn)
    (hbne : ∀ b, xn.right = some b → b ≠ x ∧ b ≠ y)
    (hpne : ∀ p, yn.parent = some p → p ≠ x ∧ p ≠ y)
    (hpb : ∀ p b, yn.parent = some p → xn.right = some b → b ≠ p)
    (hpex : ∀ p, yn.parent = some p → ∃ pn : Node V, getN t p = some pn) :
    ∀ j, (getN (rrChain t y x yn xn) j).map Node.payload
      = (getN t j).map Node.payload := by
  intro j
  by_cases hjy : j = y
  · subst hjy
    rw [rrChain_getN_y t j x yn xn hy, hy]
    rfl
  by_cases hjx : j = x
  · subst hjx
    rw [rrChain_getN_x t y j yn xn hx hxy, hx]
    rfl
  by_cases hjb : xn.right = some j
  · obtain ⟨bn, hbn⟩ := hbex j hjb
    rw [rrChain_getN_b t y x yn xn j bn hjb
      (fun h => hjx h) (fun h => hjy h)
      (fun p hp => (hpb p j hp hjb).symm) hbn, hbn]
    rfl
  by_cases hjp : yn.parent = some j
  · obtain ⟨pn, hpn⟩ := hpex j hjp
    rw [rrChain_getN_p t y x yn xn j pn hjp (hpne j hjp).1 (hpne j hjp).2
      (fun b hb => (fun h => hjb (h ▸ hb))) hpn, hpn]
    by_cases hs : pn.left = some y
    · rw [if_pos hs]; rfl
    · rw [if_neg hs]; rfl
  · rw [rrChain_getN_other t y x yn xn j hjx hjy
      (fun b hb h => hjb (h ▸ hb)) (fun p hp h => hjp (h ▸ hp))]

end RBGo
namespace RBGo

/-! ## Locating a node and its neighbours inside a decoded tree -/

theorem rootId_mem (ft : FT) (j : Nat) (h : rootId ft = some j) : j ∈ ftIds ft := by
  cases ft with
  | nil => exact absurd h (by simp [rootId])
  | nd l i k r =>
    have : i = j := Option.some.inj h
    subst this
    rw [mem_ftIds_nd]
    exact Or.inr (Or.inl rfl)

theorem dec_ids_node (t : Tree V) (f : Nat) (i? par : Option Nat) (ft : FT)
    (h : decode t f i? par = some ft) :
    ∀ j, j ∈ ftIds ft → ∃ nj : Node V, getN t j = some nj := by
  intro j hj
  simp only [ftIds, List.mem_map] at hj
  obtain ⟨p, hp, hpj⟩ := hj
  obtain ⟨n, hn, _⟩ := dec_mem t f i? par ft h p hp
  exact ⟨n, hpj ▸ hn⟩

theorem dec_child_inR (t : Tree V) :
    ∀ f (i? par : Option Nat) (ft : FT), decode t f i? par = some ft →
      ∀ x (xn : Node V) y, x ∈ ftIds ft → getN t x = some xn →
        xn.right = some y → y ∈ ftIds ft := by
  intro f
  induction f with
  | zero => intro i? par ft h; exact absurd h (by simp [decode])
  | succ f ih =>
    intro i? par ft h x xn y hxm hx hxr
    cases i? with
    | none =>
      have : ft = .nil := (Option.some.inj h).symm
      subst this
      exact absurd hxm (by simp [ftIds, ftPairs])
    | some i =>
      obtain ⟨n, l, r, hn, hp, hl, hr, hft⟩ := dec_unpack t f i par ft h
      subst hft
      rw [mem_ftIds_nd] at hxm
      rcases hxm with hm | hm | hm
      · rw [mem_ftIds_nd]
        exact Or.inl (ih n.left (some i) l hl x xn y hm hx hxr)
      · subst hm
        have hnx : n = xn := Option.some.inj (hn.symm.trans hx)
        subst hnx
        rw [hxr] at hr
        have hroot := dec_rootId t f (some y) (some x) r hr
        rw [mem_ftIds_nd]
        exact Or.inr (Or.inr (rootId_mem r y hroot.symm))
      · rw [mem_ftIds_nd]
        exact Or.inr (Or.inr (ih n.right (some i) r hr x xn y hm hx hxr))

theorem dec_child_inL (t : Tree V) :
    ∀ f (i? par : Option Nat) (ft : FT), decode t f i? par = some ft →
      ∀ x (xn : Node V) y, x ∈ ftIds ft → getN t x = some xn →
        xn.left = some y → y ∈ ftIds ft := by
  intro f
  induction f with
  | zero => intro i? par ft h; exact absurd h (by simp [decode])
  | succ f ih =>
    intro i? par ft h x xn y hxm hx hxl
    cases i? with
    | none =>
      have : ft = .nil := (Option.some.inj h).symm
      subst this
      exact absurd hxm (by simp [ftIds, ftPairs])
    | some i =>
      obtain ⟨n, l, r, hn, hp, hl, hr, hft⟩ := dec_unpack t f i par ft h
      subst hft
      rw [mem_ftIds_nd] at hxm
      rcases hxm with hm | hm | hm
      · rw [mem_ftIds_nd]
        exact Or.inl (ih n.left (some i) l hl x xn y hm hx hxl)
      · subst hm
        have hnx : n = xn := Option.some.inj (hn.symm.trans hx)
        subst hnx
        rw [hxl] at hl
        have hroot := dec_rootId t f (some y) (some x) l hl
        rw [mem_ftIds_nd]
        exact Or.inl (rootId_mem l y hroot.symm)
      · rw [mem_ftIds_nd]
        exact Or.inr (Or.inr (ih n.right (some i) r hr x xn y hm hx hxl))

theorem dec_par_in' (t : Tree V) :
    ∀ f (i? par : Option Nat) (ft : FT), decode t f i? par = some ft →
      ∀ x (xn : Node V), x ∈ ftIds ft → getN t x = some xn →
        (i? = some x ∧ xn.parent = par) ∨
          ∃ q, xn.parent = some q ∧ q ∈ ftIds ft := by
  intro f
  induction f with
  | zero => intro i? par ft h; exact absurd h (by simp [decode])
  | succ f ih =>
    intro i? par ft h x xn hxm hx
    cases i? with
    | none =>
      have : ft = .nil := (Option.some.inj h).symm
      subst this
      exact absurd hxm (by simp [ftIds, ftPairs])
    | some i =>
      obtain ⟨n, l, r, hn, hp, hl, hr, hft⟩ := dec_unpack t f i par ft h
      subst hft
      rw [mem_ftIds_nd] at hxm
      rcases hxm with hm | hm | hm
      · rcases ih n.left (some i) l hl x xn hm hx with ⟨_, hpq⟩ | ⟨q, hq1, hq2⟩
        · exact Or.inr ⟨i, hpq, by rw [mem_ftIds_nd]; exact Or.inr (Or.inl rfl)⟩
        · exact Or.inr ⟨q, hq1, by rw [mem_ftIds_nd]; exact Or.inl hq2⟩
      · subst hm
        have hnx : n = xn := Option.some.inj (hn.symm.trans hx)
        subst hnx
        exact Or.inl ⟨rfl, hp⟩
      · rcases ih n.right (some i) r hr x xn hm hx with ⟨_, hpq⟩ | ⟨q, hq1, hq2⟩
        · exact Or.inr ⟨i, hpq, by rw [mem_ftIds_nd]; exact Or.inr (Or.inl rfl)⟩
        · exact Or.inr ⟨q, hq1, by rw [mem_ftIds_nd]; exact Or.inr (Or.inr hq2)⟩

/-- Extract the decoded subtree hanging at any member `x`: it decodes from
`x` against `x`'s own parent field, its ids sit inside the whole tree, stay
`Nodup`, and exclude `x`'s parent. -/
theorem dec_locate (t : Tree V) :
    ∀ f (i? par : Option Nat) (ft : FT), decode t f i? par = some ft →
      (ftIds ft).Nodup → (∀ q, par = some q → q ∉ ftIds ft) →
      ∀ x (xn : Node V), x ∈ ftIds ft → getN t x = some xn →
        ∃ g sub, g ≤ f ∧ decode t g (some x) xn.parent = some sub ∧
          (∀ j, j ∈ ftIds sub → j ∈ ftIds ft) ∧ (ftIds sub).Nodup ∧
          (∀ q, xn.parent = some q → q ∉ ftIds sub) := by
  intro f
  induction f with
  | zero => intro i? par ft h; exact absurd h (by simp [decode])
  | succ f ih =>
    intro i? par ft h hnd hq x xn hxm hx
    cases i? with
    | none =>
      have : ft = .nil := (Option.some.inj h).symm
      subst this
      exact absurd hxm (by simp [ftIds, ftPairs])
    | some i =>
      obtain ⟨n, l, r, hn, hp, hl, hr, hft⟩ := dec_unpack t f i par ft h
      subst hft
      obtain ⟨hndl, hndr, hil, hir, hdisj⟩ := nodup_nd_parts l r i n.key hnd
      rw [mem_ftIds_nd] at hxm
      rcases hxm with hm | hm | hm
      · obtain ⟨g, sub, hgf, hdec, hsubm, hsubnd, hsubq⟩ :=
          ih n.left (some i) l hl hndl
            (fun q hqe => (Option.some.inj hqe) ▸ hil) x xn hm hx
        exact ⟨g, sub, by omega, hdec,
          fun j hj => by rw [mem_ftIds_nd]; exact Or.inl (hsubm j hj),
          hsubnd, hsubq⟩
      · subst hm
        have hnx : n = xn := Option.some.inj (hn.symm.trans hx)
        subst hnx
        refine ⟨f + 1, .nd l x n.key r, Nat.le_refl _, by rw [hp]; exact h,
          fun j hj => hj, hnd, ?_⟩
        intro q hqe
        exact hq q (hp ▸ hqe)
      · obtain ⟨g, sub, hgf, hdec, hsubm, hsubnd, hsubq⟩ :=
          ih n.right (some i) r hr hndr
            (fun q hqe => (Option.some.inj hqe) ▸ hir) x xn hm hx
        exact ⟨g, sub, by omega, hdec,
          fun j hj => by rw [mem_ftIds_nd]; exact Or.inr (Or.inr (hsubm j hj)),
          hsubnd, hsubq⟩

theorem rotAtL_here (l : FT) (x : Nat) (k : Int) (rl : FT) (j : Nat) (kj : Int)
    (rr : FT) :
    rotAtL (.nd l x k (.nd rl j kj rr)) x = .nd (.nd l x k rl) j kj rr := by
  simp [rotAtL]

theorem rotAtL_there (l r : FT) (i x : Nat) (k : Int) (h : i ≠ x) :
    rotAtL (.nd l i k r) x = .nd (rotAtL l x) i k (rotAtL r x) := by
  simp [rotAtL, h]

theorem rotAtR_here (ll : FT) (j : Nat) (kj : Int) (lr : FT) (y : Nat) (k : Int)
    (r : FT) :
    rotAtR (.nd (.nd ll j kj lr) y k r) y = .nd ll j kj (.nd lr y k r) := by
  simp [rotAtR]

theorem rotAtR_there (l r : FT) (i y : Nat) (k : Int) (h : i ≠ y) :
    rotAtR (.nd l i k r) y = .nd (rotAtR l y) i k (rotAtR r y) := by
  simp [rotAtR, h]

theorem rootId_rotAtL_eq (t : Tree V) (f : Nat) (x : Nat) (par : Option Nat)
    (L : FT) (h : decode t f (some x) par = some L) (xn : Node V)
    (hx : getN t x = some xn) (y : Nat) (hxr : xn.right = some y) :
    rootId (rotAtL L x) = some y := by
  cases f with
  | zero => exact absurd h (by simp [decode])
  | succ f =>
    obtain ⟨n, l, r, hn, hp, hl, hr, hft⟩ := dec_unpack t f x par L h
    subst hft
    have hnx : n = xn := Option.some.inj (hn.symm.trans hx)
    subst hnx
    rw [hxr] at hr
    have hroot := (dec_rootId t f (some y) (some x) r hr).symm
    cases r with
    | nil => exact absurd hroot (by simp [rootId])
    | nd rl j kj rr =>
      have : j = y := Option.some.inj hroot
      subst this
      rw [rotAtL_here]
      rfl

theorem rootId_rotAtR_eq (t : Tree V) (f : Nat) (y : Nat) (par : Option Nat)
    (L : FT) (h : decode t f (some y) par = some L) (yn : Node V)
    (hy : getN t y = some yn) (x : Nat) (hyl : yn.left = some x) :
    rootId (rotAtR L y) = some x := by
  cases f with
  | zero => exact absurd h (by simp [decode])
  | succ f =>
    obtain ⟨n, l, r, hn, hp, hl, hr, hft⟩ := dec_unpack t f y par L h
    subst hft
    have hny : n = yn := Option.some.inj (hn.symm.trans hy)
    subst hny
    rw [hyl] at hl
    have hroot := (dec_rootId t f (some x) (some y) l hl).symm
    cases l with
    | nil => exact absurd hroot (by simp [rootId])
    | nd ll j kj lr =>
      have : j = x := Option.some.inj hroot
      subst this
      rw [rotAtR_here]
      rfl

end RBGo
namespace RBGo

/-- Core preservation argument for a left rotation: on a heap `t'` that agrees
with `t` except for the rotation writes at `x`, `y`, `y.Left`, and `x.parent`,
every decoded subtree containing `x` re-decodes to its functional rotation
`rotAtL`. -/
theorem rotL_decode_aux (t t' : Tree V) (x y : Nat) (xn yn : Node V)
    (hx : getN t x = some xn) (hxr : xn.right = some y) (hy : getN t y = some yn)
    (HX : getN t' x = some { xn with right := yn.left, parent := some y })
    (HY : getN t' y = some { yn with left := some x, parent := xn.parent })
    (HB : ∀ b (bn : Node V), yn.left = some b → getN t b = some bn →
      getN t' b = some { bn with parent := some x })
    (HP : ∀ p (pn : Node V), xn.parent = some p → getN t p = some pn →
      getN t' p = some (if pn.left = some x then { pn with left := some y }
        else { pn with right := some y }))
    (HO : ∀ j, j ≠ x → j ≠ y → (∀ b, yn.left = some b → b ≠ j) →
      (∀ p, xn.parent = some p → p ≠ j) → getN t' j = getN t j) :
    ∀ f (i : Nat) (par : Option Nat) (ft : FT),
      decode t f (some i) par = some ft → (ftIds ft).Nodup → x ∈ ftIds ft →
      (∀ q, par = some q → q ∉ ftIds ft) →
      decode t' (f + 1) (rootId (rotAtL ft x)) par = some (rotAtL ft x) := by
  intro f
  induction f with
  | zero => intro i par ft h; exact absurd h (by simp [decode])
  | succ f ih =>
    intro i par ft hdec hnd hxm hq
    obtain ⟨n, l, r, hn, hp, hl, hr, hft⟩ := dec_unpack t f i par ft hdec
    subst hft
    obtain ⟨hndl, hndr, hil, hirr, hdisj⟩ := nodup_nd_parts l r i n.key hnd
    by_cases hix : i = x
    · -- the rotation point itself
      have hxi : x = i := hix.symm
      subst hxi
      have hnx : xn = n := Option.some.inj (hx.symm.trans hn)
      subst hnx
      rw [hxr] at hr
      have hf0 : f ≠ 0 := fun h0 => dec_zero_ne t (some y) (some x) r (h0 ▸ hr)
      obtain ⟨f1, rfl⟩ := Nat.exists_eq_succ_of_ne_zero hf0
      obtain ⟨ny, br, rr, hny, hpy, hbl2, hrr2, hrft⟩ := dec_unpack t f1 y (some x) r hr
      subst hrft
      have hnyyn : yn = ny := Option.some.inj (hy.symm.trans hny)
      subst hnyyn
      obtain ⟨hndbr, hndrr, hybr, hyrr, hdisjbr⟩ :=
        nodup_nd_parts br rr y yn.key hndr
      have hqx : ∀ p', xn.parent = some p' →
          p' ∉ ftIds (FT.nd l x xn.key (FT.nd br y yn.key rr)) :=
        fun p' hp' => hq p' (hp ▸ hp')
      have hbids : ∀ b, yn.left = some b → b ∈ ftIds br := by
        intro b hb
        have hro := dec_rootId t f1 yn.left (some y) br hbl2
        rw [hb] at hro
        exact rootId_mem br b hro.symm
      have hLf : decode t' (f1 + 1) xn.left (some x) = some l := by
        refine dec_frame t t' (f1 + 1) xn.left (some x) l hl ?_
        intro j hj
        refine HO j ?_ ?_ ?_ ?_
        · exact fun he => hil (he ▸ hj)
        · exact fun he => hdisj j hj (by rw [mem_ftIds_nd]; exact Or.inr (Or.inl he))
        · intro b hb he
          exact hdisj j hj (by rw [mem_ftIds_nd]; exact Or.inl (he ▸ hbids b hb))
        · intro p' hp' he
          exact hqx p' hp' (by rw [he, mem_ftIds_nd]; exact Or.inl hj)
      have hBf : decode t' (f1 + 1) yn.left (some x) = some br := by
        cases hblc : yn.left with
        | none =>
          rw [hblc] at hbl2
          have hbrnil : br = FT.nil := by
            cases f1 with
            | zero => exact absurd hbl2 (by simp [decode])
            | succ f2 => exact (Option.some.inj hbl2).symm
          rw [hbrnil]
          exact dec_nil t' (some x) (f1 + 1) (by omega)
        | some b =>
          have hbm : b ∈ ftIds br := hbids b hblc
          rw [hblc] at hbl2
          have hf1 : f1 ≠ 0 := fun h0 => dec_zero_ne t (some b) (some y) br (h0 ▸ hbl2)
          obtain ⟨f2, rfl⟩ := Nat.exists_eq_succ_of_ne_zero hf1
          obtain ⟨nb, bl, brr2, hnb, hpb2, hbll, hbrr, hbft⟩ :=
            dec_unpack t f2 b (some y) br hbl2
          subst hbft
          obtain ⟨hndbl, hndbrr, hbbl, hbbrr, hdisjb2⟩ :=
            nodup_nd_parts bl brr2 b nb.key hndbr
          have hgb : getN t' b = some { nb with parent := some x } := HB b nb hblc hnb
          have hjglue : ∀ j, j ∈ ftIds (FT.nd bl b nb.key brr2) →
              j ∈ ftIds (FT.nd (FT.nd bl b nb.key brr2) y yn.key rr) := by
            intro j hj
            rw [mem_ftIds_nd]
            exact Or.inl hj
          have hfrbl : decode t' f2 nb.left (some b) = some bl := by
            refine dec_frame t t' f2 nb.left (some b) bl hbll ?_
            intro j hj
            have hjbr : j ∈ ftIds (FT.nd bl b nb.key brr2) := by
              rw [mem_ftIds_nd]; exact Or.inl hj
            refine HO j ?_ ?_ ?_ ?_
            · exact fun he => hirr (by rw [← he]; exact hjglue j hjbr)
            · exact fun he => hybr (by rw [← he]; exact hjbr)
            · intro b' hb' he
              have hb'b : b' = b := Option.some.inj (hb'.symm.trans hblc)
              exact hbbl (by rw [← hb'b, he]; exact hj)
            · intro p' hp' he
              exact hqx p' hp'
                (by rw [he, mem_ftIds_nd]; exact Or.inr (Or.inr (hjglue j hjbr)))
          have hfrbrr : decode t' f2 nb.right (some b) = some brr2 := by
            refine dec_frame t t' f2 nb.right (some b) brr2 hbrr ?_
            intro j hj
            have hjbr : j ∈ ftIds (FT.nd bl b nb.key brr2) := by
              rw [mem_ftIds_nd]; exact Or.inr (Or.inr hj)
            refine HO j ?_ ?_ ?_ ?_
            · exact fun he => hirr (by rw [← he]; exact hjglue j hjbr)
            · exact fun he => hybr (by rw [← he]; exact hjbr)
            · intro b' hb' he
              have hb'b : b' = b := Option.some.inj (hb'.symm.trans hblc)
              exact hbbrr (by rw [← hb'b, he]; exact hj)
            · intro p' hp' he
              exact hqx p' hp'
                (by rw [he, mem_ftIds_nd]; exact Or.inr (Or.inr (hjglue j hjbr)))
          have hbuild := dec_build t' f2 b (some x) { nb with parent := some x }
            bl brr2 hgb rfl hfrbl hfrbrr
          exact dec_mono t' (f2 + 1) (f2 + 1 + 1) _ _ _ hbuild (by omega)
      have hRf : decode t' (f1 + 2) yn.right (some y) = some rr := by
        refine dec_mono t' f1 (f1 + 2) _ _ _ ?_ (by omega)
        refine dec_frame t t' f1 yn.right (some y) rr hrr2 ?_
        intro j hj
        have hjr : j ∈ ftIds (FT.nd br y yn.key rr) := by
          rw [mem_ftIds_nd]; exact Or.inr (Or.inr hj)
        refine HO j ?_ ?_ ?_ ?_
        · exact fun he => hirr (by rw [← he]; exact hjr)
        · exact fun he => hyrr (by rw [← he]; exact hj)
        · intro b' hb' he
          exact hdisjbr b' (hbids b' hb') (by rw [he]; exact hj)
        · intro p' hp' he
          exact hqx p' hp' (by rw [he, mem_ftIds_nd]; exact Or.inr (Or.inr hjr))
      have hXb : decode t' (f1 + 2) (some x) (some y)
          = some (FT.nd l x xn.key br) :=
        dec_build t' (f1 + 1) x (some y)
          { xn with right := yn.left, parent := some y } l br HX rfl hLf hBf
      have hYb : decode t' (f1 + 3) (some y) par
          = some (FT.nd (FT.nd l x xn.key br) y yn.key rr) :=
        dec_build t' (f1 + 2) y par
          { yn with left := some x, parent := xn.parent }
          (FT.nd l x xn.key br) rr HY hp hXb hRf
      rw [rotAtL_here l x xn.key br y yn.key rr]
      exact hYb
    · -- the rotation happens strictly below or beside `i`
      have hxm2 : x ∈ ftIds l ∨ x ∈ ftIds r := by
        rw [mem_ftIds_nd] at hxm
        rcases hxm with h | h | h
        · exact Or.inl h
        · exact absurd h.symm hix
        · exact Or.inr h
      rw [rotAtL_there l r i x n.key hix]
      rcases hxm2 with hxl2 | hxr2
      · -- x inside the left subtree
        have hxnotr : x ∉ ftIds r := hdisj x hxl2
        rw [rotAtL_of_not_mem r x hxnotr]
        cases hlc : l with
        | nil =>
          rw [hlc] at hxl2
          exact absurd hxl2 (by simp [ftIds, ftPairs])
        | nd ll li lk lr =>
          rw [← hlc]
          have hroot := dec_rootId t f n.left (some i) l hl
          rw [hlc] at hroot
          have hleq : n.left = some li := hroot
          have hl' : decode t f (some li) (some i) = some l := by
            rw [← hleq]; exact hl
          have hym_l : y ∈ ftIds l :=
            dec_child_inR t f (some li) (some i) l hl' x xn y hxl2 hx hxr
          have hbm_l : ∀ b, yn.left = some b → b ∈ ftIds l :=
            fun b hb => dec_child_inL t f (some li) (some i) l hl' y yn b hym_l hy hb
          have hIH := ih li (some i) l hl' hndl hxl2
            (fun q hqe => (Option.some.inj hqe) ▸ hil)
          have hpar := dec_par_in' t f (some li) (some i) l hl' x xn hxl2 hx
          have hpnotr : ∀ p', xn.parent = some p' → p' ∉ ftIds r := by
            intro p' hp'
            rcases hpar with ⟨_, hxp⟩ | ⟨q, hxq, hqm⟩
            · have hpi : p' = i := Option.some.inj (hp'.symm.trans hxp)
              rw [hpi]; exact hirr
            · have hpq : p' = q := Option.some.inj (hp'.symm.trans hxq)
              rw [hpq]; exact hdisj q hqm
          have hRfr : decode t' (f + 1) n.right (some i) = some r := by
            refine dec_mono t' f (f + 1) _ _ _ ?_ (by omega)
            refine dec_frame t t' f n.right (some i) r hr ?_
            intro j hj
            refine HO j ?_ ?_ ?_ ?_
            · exact fun he => hxnotr (by rw [← he]; exact hj)
            · exact fun he => hdisj y hym_l (by rw [← he]; exact hj)
            · intro b hb he
              exact hdisj b (hbm_l b hb) (by rw [he]; exact hj)
            · intro p' hp' he
              exact hpnotr p' hp' (by rw [he]; exact hj)
          rcases hpar with ⟨hlix, hxp⟩ | ⟨q, hxq, hqm⟩
          · -- x is i's left child
            have hlix' : li = x := Option.some.inj hlix
            have hnlx : n.left = some x := by rw [hleq, hlix']
            have hgi0 := HP i n hxp hn
            rw [if_pos hnlx] at hgi0
            have hl'' : decode t f (some x) (some i) = some l := by
              rw [← hlix']; exact hl'
            have hrid : rootId (rotAtL l x) = some y :=
              rootId_rotAtL_eq t f x (some i) l hl'' xn hx y hxr
            rw [hrid] at hIH
            exact dec_build t' (f + 1) i par { n with left := some y }
              (rotAtL l x) r hgi0 hp hIH hRfr
          · -- x strictly below i's left child
            have hline : li ≠ x := by
              intro he
              have hl'' : decode t f (some x) (some i) = some l := by
                rw [← he]; exact hl'
              cases f with
              | zero => exact dec_zero_ne t (some x) (some i) l hl''
              | succ f' =>
                obtain ⟨n2, l2, r2, hn2, hp2, _, _, _⟩ :=
                  dec_unpack t f' x (some i) l hl''
                have hn2x : n2 = xn := Option.some.inj (hn2.symm.trans hx)
                rw [hn2x] at hp2
                have hqi : q = i := Option.some.inj (hxq.symm.trans hp2)
                exact hil (hqi ▸ hqm)
            have hgin : getN t' i = getN t i := by
              refine HO i hix ?_ ?_ ?_
              · exact fun he => hil (by rw [he]; exact hym_l)
              · intro b hb he
                exact hil (by rw [← he]; exact hbm_l b hb)
              · intro p' hp' he
                have hpq : p' = q := Option.some.inj (hp'.symm.trans hxq)
                exact hil (by rw [← he, hpq]; exact hqm)
            have hgi : getN t' i = some n := hgin.trans hn
            have hrid : rootId (rotAtL l x) = some li := by
              rw [hlc, rotAtL_there ll lr li x lk hline]
              rfl
            rw [hrid] at hIH
            have hLrot : decode t' (f + 1) n.left (some i) = some (rotAtL l x) := by
              rw [hleq]; exact hIH
            exact dec_build t' (f + 1) i par n (rotAtL l x) r hgi hp hLrot hRfr
      · -- x inside the right subtree
        have hxnotl : x ∉ ftIds l := fun hm => hdisj x hm hxr2
        rw [rotAtL_of_not_mem l x hxnotl]
        cases hrc : r with
        | nil =>
          rw [hrc] at hxr2
          exact absurd hxr2 (by simp [ftIds, ftPairs])
        | nd rl ri rk rr2 =>
          rw [← hrc]
          have hroot := dec_rootId t f n.right (some i) r hr
          rw [hrc] at hroot
          have hreq : n.right = some ri := hroot
          have hr' : decode t f (some ri) (some i) = some r := by
            rw [← hreq]; exact hr
          have hym_r : y ∈ ftIds r :=
            dec_child_inR t f (some ri) (some i) r hr' x xn y hxr2 hx hxr
          have hbm_r : ∀ b, yn.left = some b → b ∈ ftIds r :=
            fun b hb => dec_child_inL t f (some ri) (some i) r hr' y yn b hym_r hy hb
          have hIH := ih ri (some i) r hr' hndr hxr2
            (fun q hqe => (Option.some.inj hqe) ▸ hirr)
          have hpar := dec_par_in' t f (some ri) (some i) r hr' x xn hxr2 hx
          have hpnotl : ∀ p', xn.parent = some p' → p' ∉ ftIds l := by
            intro p' hp'
            rcases hpar with ⟨_, hxp⟩ | ⟨q, hxq, hqm⟩
            · have hpi : p' = i := Option.some.inj (hp'.symm.trans hxp)
              rw [hpi]; exact hil
            · have hpq : p' = q := Option.some.inj (hp'.symm.trans hxq)
              rw [hpq]
              exact fun hm => hdisj q hm hqm
          have hLfr : decode t' (f + 1) n.left (some i) = some l := by
            refine dec_mono t' f (f + 1) _ _ _ ?_ (by omega)
            refine dec_frame t t' f n.left (some i) l hl ?_
            intro j hj
            refine HO j ?_ ?_ ?_ ?_
            · exact fun he => hxnotl (by rw [← he]; exact hj)
            · exact fun he => hdisj j hj (by rw [he]; exact hym_r)
            · intro b hb he
              exact hdisj j hj (by rw [← he]; exact hbm_r b hb)
            · intro p' hp' he
              exact hpnotl p' hp' (by rw [he]; exact hj)
          rcases hpar with ⟨hrix, hxp⟩ | ⟨q, hxq, hqm⟩
          · -- x is i's right child
            have hrix' : ri = x := Option.some.inj hrix
            have hnlxne : n.left ≠ some x := by
              intro he
              have hro := dec_rootId t f n.left (some i) l hl
              rw [he] at hro
              exact hxnotl (rootId_mem l x hro.symm)
            have hgi0 := HP i n hxp hn
            rw [if_neg hnlxne] at hgi0
            have hr'' : decode t f (some x) (some i) = some r := by
              rw [← hrix']; exact hr'
            have hrid : rootId (rotAtL r x) = some y :=
              rootId_rotAtL_eq t f x (some i) r hr'' xn hx y hxr
            rw [hrid] at hIH
            exact dec_build t' (f + 1) i par { n with right := some y }
              l (rotAtL r x) hgi0 hp hLfr hIH
          · -- x strictly below i's right child
            have hrine : ri ≠ x := by
              intro he
              have hr'' : decode t f (some x) (some i) = some r := by
                rw [← he]; exact hr'
              cases f with
              | zero => exact dec_zero_ne t (some x) (some i) r hr''
              | succ f' =>
                obtain ⟨n2, l2, r2, hn2, hp2, _, _, _⟩ :=
                  dec_unpack t f' x (some i) r hr''
                have hn2x : n2 = xn := Option.some.inj (hn2.symm.trans hx)
                rw [hn2x] at hp2
                have hqi : q = i := Option.some.inj (hxq.symm.trans hp2)
                exact hirr (hqi ▸ hqm)
            have hgin : getN t' i = getN t i := by
              refine HO i hix ?_ ?_ ?_
              · exact fun he => hirr (by rw [he]; exact hym_r)
              · intro b hb he
                exact hirr (by rw [← he]; exact hbm_r b hb)
              · intro p' hp' he
                have hpq : p' = q := Option.some.inj (hp'.symm.trans hxq)
                exact hirr (by rw [← he, hpq]; exact hqm)
            have hgi : getN t' i = some n := hgin.trans hn
            have hrid : rootId (rotAtL r x) = some ri := by
              rw [hrc, rotAtL_there rl rr2 ri x rk hrine]
              rfl
            rw [hrid] at hIH
            have hRrot : decode t' (f + 1) n.right (some i) = some (rotAtL r x) := by
              rw [hreq]; exact hIH
            exact dec_build t' (f + 1) i par n l (rotAtL r x) hgi hp hLfr hRrot

end RBGo
namespace RBGo

/-- Mirror of `rotL_decode_aux` for a right rotation at `y` (with
`x = y.Left`): the decoded subtree re-decodes to `rotAtR`. -/
theorem rotR_decode_aux (t t' : Tree V) (y x : Nat) (yn xn : Node V)
    (hy : getN t y = some yn) (hyl : yn.left = some x) (hx : getN t x = some xn)
    (HY : getN t' y = some { yn with left := xn.right, parent := some x })
    (HX : getN t' x = some { xn with right := some y, parent := yn.parent })
    (HB : ∀ b (bn : Node V), xn.right = some b → getN t b = some bn →
      getN t' b = some { bn with parent := some y })
    (HP : ∀ p (pn : Node V), yn.parent = some p → getN t p = some pn →
      getN t' p = some (if pn.left = some y then { pn with left := some x }
        else { pn with right := some x }))
    (HO : ∀ j, j ≠ x → j ≠ y → (∀ b, xn.right = some b → b ≠ j) →
      (∀ p, yn.parent = some p → p ≠ j) → getN t' j = getN t j) :
    ∀ f (i : Nat) (par : Option Nat) (ft : FT),
      decode t f (some i) par = some ft → (ftIds ft).Nodup → y ∈ ftIds ft →
      (∀ q, par = some q → q ∉ ftIds ft) →
      decode t' (f + 1) (rootId (rotAtR ft y)) par = some (rotAtR ft y) := by
  intro f
  induction f with
  | zero => intro i par ft h; exact absurd h (by simp [decode])
  | succ f ih =>
    intro i par ft hdec hnd hym hq
    obtain ⟨n, l, r, hn, hp, hl, hr, hft⟩ := dec_unpack t f i par ft hdec
    subst hft
    obtain ⟨hndl, hndr, hil, hirr, hdisj⟩ := nodup_nd_parts l r i n.key hnd
    by_cases hiy : i = y
    · -- the rotation point itself
      have hyi : y = i := hiy.symm
      subst hyi
      have hny : yn = n := Option.some.inj (hy.symm.trans hn)
      subst hny
      rw [hyl] at hl
      have hf0 : f ≠ 0 := fun h0 => dec_zero_ne t (some x) (some y) l (h0 ▸ hl)
      obtain ⟨f1, rfl⟩ := Nat.exists_eq_succ_of_ne_zero hf0
      obtain ⟨nx, ll, lr, hnx2, hpx2, hll2, hlr2, hlft⟩ := dec_unpack t f1 x (some y) l hl
      subst hlft
      have hnxxn : xn = nx := Option.some.inj (hx.symm.trans hnx2)
      subst hnxxn
      obtain ⟨hndll, hndlr, hxll, hxlr, hdisjl⟩ :=
        nodup_nd_parts ll lr x xn.key hndl
      have hqy : ∀ p', yn.parent = some p' →
          p' ∉ ftIds (FT.nd (FT.nd ll x xn.key lr) y yn.key r) :=
        fun p' hp' => hq p' (hp ▸ hp')
      have hbids : ∀ b, xn.right = some b → b ∈ ftIds lr := by
        intro b hb
        have hro := dec_rootId t f1 xn.right (some x) lr hlr2
        rw [hb] at hro
        exact rootId_mem lr b hro.symm
      have hRf : decode t' (f1 + 1) yn.right (some y) = some r := by
        refine dec_frame t t' (f1 + 1) yn.right (some y) r hr ?_
        intro j hj
        refine HO j ?_ ?_ ?_ ?_
        · exact fun he => hdisj j
            (by rw [mem_ftIds_nd]; exact Or.inr (Or.inl he)) hj
        · exact fun he => hirr (he ▸ hj)
        · intro b hb he
          exact hdisj j
            (by rw [mem_ftIds_nd]; exact Or.inr (Or.inr (he ▸ hbids b hb))) hj
        · intro p' hp' he
          exact hqy p' hp' (by rw [he, mem_ftIds_nd]; exact Or.inr (Or.inr hj))
      have hBf : decode t' (f1 + 1) xn.right (some y) = some lr := by
        cases hbrc : xn.right with
        | none =>
          rw [hbrc] at hlr2
          have hlrnil : lr = FT.nil := by
            cases f1 with
            | zero => exact absurd hlr2 (by simp [decode])
            | succ f2 => exact (Option.some.inj hlr2).symm
          rw [hlrnil]
          exact dec_nil t' (some y) (f1 + 1) (by omega)
        | some b =>
          have hbm : b ∈ ftIds lr := hbids b hbrc
          rw [hbrc] at hlr2
          have hf1 : f1 ≠ 0 := fun h0 => dec_zero_ne t (some b) (some x) lr (h0 ▸ hlr2)
          obtain ⟨f2, rfl⟩ := Nat.exists_eq_succ_of_ne_zero hf1
          obtain ⟨nb, bl, brr2, hnb, hpb2, hbll, hbrr, hbft⟩ :=
            dec_unpack t f2 b (some x) lr hlr2
          subst hbft
          obtain ⟨hndbl, hndbrr, hbbl, hbbrr, hdisjb2⟩ :=
            nodup_nd_parts bl brr2 b nb.key hndlr
          have hgb : getN t' b = some { nb with parent := some y } := HB b nb hbrc hnb
          have hjglue : ∀ j, j ∈ ftIds (FT.nd bl b nb.key brr2) →
              j ∈ ftIds (FT.nd ll x xn.key (FT.nd bl b nb.key brr2)) := by
            intro j hj
            rw [mem_ftIds_nd]
            exact Or.inr (Or.inr hj)
          have hfrbl : decode t' f2 nb.left (some b) = some bl := by
            refine dec_frame t t' f2 nb.left (some b) bl hbll ?_
            intro j hj
            have hjbr : j ∈ ftIds (FT.nd bl b nb.key brr2) := by
              rw [mem_ftIds_nd]; exact Or.inl hj
            refine HO j ?_ ?_ ?_ ?_
            · exact fun he => hxlr (by rw [← he]; exact hjbr)
            · exact fun he => hil (by rw [← he]; exact hjglue j hjbr)
            · intro b' hb' he
              have hb'b : b' = b := Option.some.inj (hb'.symm.trans hbrc)
              exact hbbl (by rw [← hb'b, he]; exact hj)
            · intro p' hp' he
              exact hqy p' hp'
                (by rw [he, mem_ftIds_nd]; exact Or.inl (hjglue j hjbr))
          have hfrbrr : decode t' f2 nb.right (some b) = some brr2 := by
            refine dec_frame t t' f2 nb.right (some b) brr2 hbrr ?_
            intro j hj
            have hjbr : j ∈ ftIds (FT.nd bl b nb.key brr2) := by
              rw [mem_ftIds_nd]; exact Or.inr (Or.inr hj)
            refine HO j ?_ ?_ ?_ ?_
            · exact fun he => hxlr (by rw [← he]; exact hjbr)
            · exact fun he => hil (by rw [← he]; exact hjglue j hjbr)
            · intro b' hb' he
              have hb'b : b' = b := Option.some.inj (hb'.symm.trans hbrc)
              exact hbbrr (by rw [← hb'b, he]; exact hj)
            · intro p' hp' he
              exact hqy p' hp'
                (by rw [he, mem_ftIds_nd]; exact Or.inl (hjglue j hjbr))
          have hbuild := dec_build t' f2 b (some y) { nb with parent := some y }
            bl brr2 hgb rfl hfrbl hfrbrr
          exact dec_mono t' (f2 + 1) (f2 + 1 + 1) _ _ _ hbuild (by omega)
      have hLf2 : decode t' (f1 + 2) xn.left (some x) = some ll := by
        refine dec_mono t' f1 (f1 + 2) _ _ _ ?_ (by omega)
        refine dec_frame t t' f1 xn.left (some x) ll hll2 ?_
        intro j hj
        have hjl : j ∈ ftIds (FT.nd ll x xn.key lr) := by
          rw [mem_ftIds_nd]; exact Or.inl hj
        refine HO j ?_ ?_ ?_ ?_
        · exact fun he => hxll (by rw [← he]; exact hj)
        · exact fun he => hil (by rw [← he]; exact hjl)
        · intro b' hb' he
          exact hdisjl j hj (by rw [← he]; exact hbids b' hb')
        · intro p' hp' he
          exact hqy p' hp' (by rw [he, mem_ftIds_nd]; exact Or.inl hjl)
      have hYb : decode t' (f1 + 2) (some y) (some x)
          = some (FT.nd lr y yn.key r) :=
        dec_build t' (f1 + 1) y (some x)
          { yn with left := xn.right, parent := some x } lr r HY rfl hBf hRf
      have hXb : decode t' (f1 + 3) (some x) par
          = some (FT.nd ll x xn.key (FT.nd lr y yn.key r)) :=
        dec_build t' (f1 + 2) x par
          { xn with right := some y, parent := yn.parent }
          ll (FT.nd lr y yn.key r) HX hp hLf2 hYb
      rw [rotAtR_here ll x xn.key lr y yn.key r]
      exact hXb
    · -- the rotation happens strictly below or beside `i`
      have hym2 : y ∈ ftIds l ∨ y ∈ ftIds r := by
        rw [mem_ftIds_nd] at hym
        rcases hym with h | h | h
        · exact Or.inl h
        · exact absurd h.symm hiy
        · exact Or.inr h
      rw [rotAtR_there l r i y n.key hiy]
      rcases hym2 with hyl2 | hyr2
      · -- y inside the left subtree
        have hynotr : y ∉ ftIds r := hdisj y hyl2
        rw [rotAtR_of_not_mem r y hynotr]
        cases hlc : l with
        | nil =>
          rw [hlc] at hyl2
          exact absurd hyl2 (by simp [ftIds, ftPairs])
        | nd ll li lk lr =>
          rw [← hlc]
          have hroot := dec_rootId t f n.left (some i) l hl
          rw [hlc] at hroot
          have hleq : n.left = some li := hroot
          have hl' : decode t f (some li) (some i) = some l := by
            rw [← hleq]; exact hl
          have hxm_l : x ∈ ftIds l :=
            dec_child_inL t f (some li) (some i) l hl' y yn x hyl2 hy hyl
          have hbm_l : ∀ b, xn.right = some b → b ∈ ftIds l :=
            fun b hb => dec_child_inR t f (some li) (some i) l hl' x xn b hxm_l hx hb
          have hIH := ih li (some i) l hl' hndl hyl2
            (fun q hqe => (Option.some.inj hqe) ▸ hil)
          have hpar := dec_par_in' t f (some li) (some i) l hl' y yn hyl2 hy
          have hpnotr : ∀ p', yn.parent = some p' → p' ∉ ftIds r := by
            intro p' hp'
            rcases hpar with ⟨_, hyp2⟩ | ⟨q, hyq, hqm⟩
            · have hpi : p' = i := Option.some.inj (hp'.symm.trans hyp2)
              rw [hpi]; exact hirr
            · have hpq : p' = q := Option.some.inj (hp'.symm.trans hyq)
              rw [hpq]; exact hdisj q hqm
          have hRfr : decode t' (f + 1) n.right (some i) = some r := by
            refine dec_mono t' f (f + 1) _ _ _ ?_ (by omega)
            refine dec_frame t t' f n.right (some i) r hr ?_
            intro j hj
            refine HO j ?_ ?_ ?_ ?_
            · exact fun he => hdisj x hxm_l (by rw [← he]; exact hj)
            · exact fun he => hynotr (by rw [← he]; exact hj)
            · intro b hb he
              exact hdisj b (hbm_l b hb) (by rw [he]; exact hj)
            · intro p' hp' he
              exact hpnotr p' hp' (by rw [he]; exact hj)
          rcases hpar with ⟨hliy, hyp2⟩ | ⟨q, hyq, hqm⟩
          · -- y is i's left child
            have hliy' : li = y := Option.some.inj hliy
            have hnly : n.left = some y := by rw [hleq, hliy']
            have hgi0 := HP i n hyp2 hn
            rw [if_pos hnly] at hgi0
            have hl'' : decode t f (some y) (some i) = some l := by
              rw [← hliy']; exact hl'
            have hrid : rootId (rotAtR l y) = some x :=
              rootId_rotAtR_eq t f y (some i) l hl'' yn hy x hyl
            rw [hrid] at hIH
            exact dec_build t' (f + 1) i par { n with left := some x }
              (rotAtR l y) r hgi0 hp hIH hRfr
          · -- y strictly below i's left child
            have hline : li ≠ y := by
              intro he
              have hl'' : decode t f (some y) (some i) = some l := by
                rw [← he]; exact hl'
              cases f with
              | zero => exact dec_zero_ne t (some y) (some i) l hl''
              | succ f' =>
                obtain ⟨n2, l2, r2, hn2, hp2, _, _, _⟩ :=
                  dec_unpack t f' y (some i) l hl''
                have hn2y : n2 = yn := Option.some.inj (hn2.symm.trans hy)
                rw [hn2y] at hp2
                have hqi : q = i := Option.some.inj (hyq.symm.trans hp2)
                exact hil (hqi ▸ hqm)
            have hgin : getN t' i = getN t i := by
              refine HO i ?_ hiy ?_ ?_
              · exact fun he => hil (by rw [he]; exact hxm_l)
              · intro b hb he
                exact hil (by rw [← he]; exact hbm_l b hb)
              · intro p' hp' he
                have hpq : p' = q := Option.some.inj (hp'.symm.trans hyq)
                exact hil (by rw [← he, hpq]; exact hqm)
            have hgi : getN t' i = some n := hgin.trans hn
            have hrid : rootId (rotAtR l y) = some li := by
              rw [hlc, rotAtR_there ll lr li y lk hline]
              rfl
            rw [hrid] at hIH
            have hLrot : decode t' (f + 1) n.left (some i) = some (rotAtR l y) := by
              rw [hleq]; exact hIH
            exact dec_build t' (f + 1) i par n (rotAtR l y) r hgi hp hLrot hRfr
      · -- y inside the right subtree
        have hynotl : y ∉ ftIds l := fun hm => hdisj y hm hyr2
        rw [rotAtR_of_not_mem l y hynotl]
        cases hrc : r with
        | nil =>
          rw [hrc] at hyr2
          exact absurd hyr2 (by simp [ftIds, ftPairs])
        | nd rl ri rk rr2 =>
          rw [← hrc]
          have hroot := dec_rootId t f n.right (some i) r hr
          rw [hrc] at hroot
          have hreq : n.right = some ri := hroot
          have hr' : decode t f (some ri) (some i) = some r := by
            rw [← hreq]; exact hr
          have hxm_r : x ∈ ftIds r :=
            dec_child_inL t f (some ri) (some i) r hr' y yn x hyr2 hy hyl
          have hbm_r : ∀ b, xn.right = some b → b ∈ ftIds r :=
            fun b hb => dec_child_inR t f (some ri) (some i) r hr' x xn b hxm_r hx hb
          have hIH := ih ri (some i) r hr' hndr hyr2
            (fun q hqe => (Option.some.inj hqe) ▸ hirr)
          have hpar := dec_par_in' t f (some ri) (some i) r hr' y yn hyr2 hy
          have hpnotl : ∀ p', yn.parent = some p' → p' ∉ ftIds l := by
            intro p' hp'
            rcases hpar with ⟨_, hyp2⟩ | ⟨q, hyq, hqm⟩
            · have hpi : p' = i := Option.some.inj (hp'.symm.trans hyp2)
              rw [hpi]; exact hil
            · have hpq : p' = q := Option.some.inj (hp'.symm.trans hyq)
              rw [hpq]
              exact fun hm => hdisj q hm hqm
          have hLfr : decode t' (f + 1) n.left (some i) = some l := by
            refine dec_mono t' f (f + 1) _ _ _ ?_ (by omega)
            refine dec_frame t t' f n.left (some i) l hl ?_
            intro j hj
            refine HO j ?_ ?_ ?_ ?_
            · exact fun he => hdisj j hj (by rw [he]; exact hxm_r)
            · exact fun he => hdisj j hj (by rw [he]; exact hyr2)
            · intro b hb he
              exact hdisj j hj (by rw [← he]; exact hbm_r b hb)
            · intro p' hp' he
              exact hpnotl p' hp' (by rw [he]; exact hj)
          rcases hpar with ⟨hriy, hyp2⟩ | ⟨q, hyq, hqm⟩
          · -- y is i's right child
            have hriy' : ri = y := Option.some.inj hriy
            have hnlyne : n.left ≠ some y := by
              intro he
              have hro := dec_rootId t f n.left (some i) l hl
              rw [he] at hro
              exact hynotl (rootId_mem l y hro.symm)
            have hgi0 := HP i n hyp2 hn
            rw [if_neg hnlyne] at hgi0
            have hr'' : decode t f (some y) (some i) = some r := by
              rw [← hriy']; exact hr'
            have hrid : rootId (rotAtR r y) = some x :=
              rootId_rotAtR_eq t f y (some i) r hr'' yn hy x hyl
            rw [hrid] at hIH
            exact dec_build t' (f + 1) i par { n with right := some x }
              l (rotAtR r y) hgi0 hp hLfr hIH
          · -- y strictly below i's right child
            have hrine : ri ≠ y := by
              intro he
              have hr'' : decode t f (some y) (some i) = some r := by
                rw [← he]; exact hr'
              cases f with
              | zero => exact dec_zero_ne t (some y) (some i) r hr''
              | succ f' =>
                obtain ⟨n2, l2, r2, hn2, hp2, _, _, _⟩ :=
                  dec_unpack t f' y (some i) r hr''
                have hn2y : n2 = yn := Option.some.inj (hn2.symm.trans hy)
                rw [hn2y] at hp2
                have hqi : q = i := Option.some.inj (hyq.symm.trans hp2)
                exact hirr (hqi ▸ hqm)
            have hgin : getN t' i = getN t i := by
              refine HO i ?_ hiy ?_ ?_
              · exact fun he => hirr (by rw [he]; exact hxm_r)
              · intro b hb he
                exact hirr (by rw [← he]; exact hbm_r b hb)
              · intro p' hp' he
                have hpq : p' = q := Option.some.inj (hp'.symm.trans hyq)
                exact hirr (by rw [← he, hpq]; exact hqm)
            have hgi : getN t' i = some n := hgin.trans hn
            have hrid : rootId (rotAtR r y) = some ri := by
              rw [hrc, rotAtR_there rl rr2 ri y rk hrine]
              rfl
            rw [hrid] at hIH
            have hRrot : decode t' (f + 1) n.right (some i) = some (rotAtR r y) := by
              rw [hreq]; exact hIH
            exact dec_build t' (f + 1) i par n l (rotAtR r y) hgi hp hLfr hRrot

end RBGo
namespace RBGo

/-! ## Refueling a decode and whole-tree rotation preservation -/

theorem ftSize_le_len (t : Tree V) (f : Nat) (i? par : Option Nat) (ft : FT)
    (hdec : decode t f i? par = some ft) (hnd : (ftIds ft).Nodup) :
    ftSize ft ≤ t.nodes.length := by
  have hsub : ftIds ft ⊆ List.range t.nodes.length := by
    intro j hj
    rw [List.mem_range]
    exact dec_ids_lt t f i? par ft hdec j hj
  have hlen := List.Subperm.length_le (List.subperm_of_subset hnd hsub)
  rw [List.length_range] at hlen
  calc ftSize ft = (ftPairs ft).length := ftSize_eq_pairs_length ft
    _ = (ftIds ft).length := by rw [ftIds, List.length_map]
    _ ≤ _ := hlen

/-- A sorted decode always re-decodes at the default fuel `dFuel`. -/
theorem dec_refuel (t : Tree V) (f : Nat) (i? par : Option Nat) (ft : FT)
    (hdec : decode t f i? par = some ft) (hnd : (ftIds ft).Nodup) :
    decode t (dFuel t) i? par = some ft := by
  have h1 := dec_exact t f i? par ft hdec
  refine dec_mono t _ _ _ _ _ h1 ?_
  have h2 := ftDepth_le_size ft
  have h3 := ftSize_le_len t f i? par ft hdec hnd
  unfold dFuel
  omega

theorem ftIds_rotAtL (ft : FT) (x : Nat) : ftIds (rotAtL ft x) = ftIds ft := by
  rw [ftIds, ftPairs_rotAtL, ftIds]

theorem ftIds_rotAtR (ft : FT) (y : Nat) : ftIds (rotAtR ft y) = ftIds ft := by
  rw [ftIds, ftPairs_rotAtR, ftIds]

/-- A left rotation at a decoded node `x` with a real right child: the heap
re-decodes from the new root to `rotAtL`, payloads are untouched, and the
arena length is unchanged. -/
theorem rotL_pres (t : Tree V) (F : Nat) (ft0 : FT)
    (hdec : decode t F t.root none = some ft0)
    (hnd : (ftIds ft0).Nodup)
    (x : Nat) (xn : Node V) (hx : getN t x = some xn) (hxm : x ∈ ftIds ft0)
    (y : Nat) (hxr : xn.right = some y) (yn : Node V) (hy : getN t y = some yn) :
    (RotateLeft t (some x)).root = rootId (rotAtL ft0 x) ∧
    decode (RotateLeft t (some x)) (F + 1) (rootId (rotAtL ft0 x)) none
      = some (rotAtL ft0 x) ∧
    (∀ j, (getN (RotateLeft t (some x)) j).map Node.payload
      = (getN t j).map Node.payload) ∧
    (RotateLeft t (some x)).nodes.length = t.nodes.length ∧
    getN (RotateLeft t (some x)) x
      = some { xn with right := yn.left, parent := some y } ∧
    (∀ p (pn : Node V), xn.parent = some p → getN t p = some pn →
      getN (RotateLeft t (some x)) p
        = some (if pn.left = some x then { pn with left := some y }
          else { pn with right := some y })) := by
  cases hroot0 : t.root with
  | none =>
    rw [hroot0] at hdec
    have hnil : ft0 = .nil := by
      cases F with
      | zero => exact absurd hdec (by simp [decode])
      | succ F => exact (Option.some.inj hdec).symm
    rw [hnil] at hxm
    exact absurd hxm (by simp [ftIds, ftPairs])
  | some r0 =>
    rw [hroot0] at hdec
    have hym : y ∈ ftIds ft0 :=
      dec_child_inR t F (some r0) none ft0 hdec x xn y hxm hx hxr
    obtain ⟨g, sub, hgF, hsubdec, hsubm, hsubnd, hsubq⟩ :=
      dec_locate t F (some r0) none ft0 hdec hnd
        (fun q hq => absurd hq (by simp)) x xn hxm hx
    have hg0 : g ≠ 0 := fun h0 => dec_zero_ne t (some x) xn.parent sub (h0 ▸ hsubdec)
    obtain ⟨g1, rfl⟩ := Nat.exists_eq_succ_of_ne_zero hg0
    obtain ⟨n1, lsub, rsub, hn1, hp1, hls, hrs, hsft⟩ :=
      dec_unpack t g1 x xn.parent sub hsubdec
    subst hsft
    have hn1x : xn = n1 := Option.some.inj (hx.symm.trans hn1)
    subst hn1x
    rw [hxr] at hrs
    have hg1 : g1 ≠ 0 := fun h0 => dec_zero_ne t (some y) (some x) rsub (h0 ▸ hrs)
    obtain ⟨g2, rfl⟩ := Nat.exists_eq_succ_of_ne_zero hg1
    obtain ⟨n2, brs, rrs, hn2, hp2, hbs, hrrs, hrft⟩ :=
      dec_unpack t g2 y (some x) rsub hrs
    subst hrft
    have hn2y : yn = n2 := Option.some.inj (hy.symm.trans hn2)
    subst hn2y
    obtain ⟨hndls, hndrs, hxls, hxrs, hdisjs⟩ :=
      nodup_nd_parts lsub (FT.nd brs y yn.key rrs) x xn.key hsubnd
    obtain ⟨hndbrs, hndrrs, hybrs, hyrrs, hdisjbrs⟩ :=
      nodup_nd_parts brs rrs y yn.key hndrs
    have hymr : y ∈ ftIds (FT.nd brs y yn.key rrs) := by
      rw [mem_ftIds_nd]; exact Or.inr (Or.inl rfl)
    have hxy : x ≠ y := fun he => hxrs (by rw [he]; exact hymr)
    have hbids2 : ∀ b, yn.left = some b → b ∈ ftIds brs := by
      intro b hb
      have hro := dec_rootId t g2 yn.left (some y) brs hbs
      rw [hb] at hro
      exact rootId_mem brs b hro.symm
    have hbne : ∀ b, yn.left = some b → b ≠ x ∧ b ≠ y := by
      intro b hb
      constructor
      · intro he
        exact hxrs (by rw [← he, mem_ftIds_nd]; exact Or.inl (hbids2 b hb))
      · intro he
        exact hybrs (by rw [← he]; exact hbids2 b hb)
    have hxsub : x ∈ ftIds (FT.nd lsub x xn.key (FT.nd brs y yn.key rrs)) := by
      rw [mem_ftIds_nd]; exact Or.inr (Or.inl rfl)
    have hysub : y ∈ ftIds (FT.nd lsub x xn.key (FT.nd brs y yn.key rrs)) := by
      rw [mem_ftIds_nd]; exact Or.inr (Or.inr hymr)
    have hpne : ∀ p, xn.parent = some p → p ≠ x ∧ p ≠ y := by
      intro p hp
      exact ⟨fun he => hsubq p hp (by rw [he]; exact hxsub),
        fun he => hsubq p hp (by rw [he]; exact hysub)⟩
    have hpb : ∀ p b, xn.parent = some p → yn.left = some b → b ≠ p := by
      intro p b hp hb he
      refine hsubq p hp ?_
      rw [← he, mem_ftIds_nd]
      exact Or.inr (Or.inr (by rw [mem_ftIds_nd]; exact Or.inl (hbids2 b hb)))
    have hRL : RotateLeft t (some x) = rlChain t x y xn yn :=
      rotateLeft_chain t x y xn yn hx hxr hy hxy hbne hpne
    have hbex : ∀ b, yn.left = some b → ∃ bn : Node V, getN t b = some bn := by
      intro b hb
      refine dec_ids_node t F (some r0) none ft0 hdec b ?_
      refine hsubm b ?_
      rw [mem_ftIds_nd]
      exact Or.inr (Or.inr (by rw [mem_ftIds_nd]; exact Or.inl (hbids2 b hb)))
    have hpex : ∀ p, xn.parent = some p → ∃ pn : Node V, getN t p = some pn := by
      intro p hp
      rcases dec_par_in' t F (some r0) none ft0 hdec x xn hxm hx with
        ⟨_, hxpn⟩ | ⟨q, hq1, hq2⟩
      · rw [hp] at hxpn; exact absurd hxpn (by simp)
      · have hpq : p = q := Option.some.inj (hp.symm.trans hq1)
        exact dec_ids_node t F (some r0) none ft0 hdec p (hpq ▸ hq2)
    have HXf := rlChain_getN_x t x y xn yn hx
    have HYf := rlChain_getN_y t x y xn yn hy hxy
    have HBf : ∀ b (bn : Node V), yn.left = some b → getN t b = some bn →
        getN (rlChain t x y xn yn) b = some { bn with parent := some x } :=
      fun b bn hb hbn => rlChain_getN_b t x y xn yn b bn hb (hbne b hb).1
        (hbne b hb).2 (fun p hp => (hpb p b hp hb).symm) hbn
    have HPf : ∀ p (pn : Node V), xn.parent = some p → getN t p = some pn →
        getN (rlChain t x y xn yn) p
          = some (if pn.left = some x then { pn with left := some y }
            else { pn with right := some y }) :=
      fun p pn hp hpn => rlChain_getN_p t x y xn yn p pn hp (hpne p hp).1
        (hpne p hp).2 (fun b hb => hpb p b hp hb) hpn
    have HOf : ∀ j, j ≠ x → j ≠ y → (∀ b, yn.left = some b → b ≠ j) →
        (∀ p, xn.parent = some p → p ≠ j) →
        getN (rlChain t x y xn yn) j = getN t j :=
      fun j h1 h2 h3 h4 => rlChain_getN_other t x y xn yn j h1 h2 h3 h4
    have hmain := rotL_decode_aux t (rlChain t x y xn yn) x y xn yn hx hxr hy
      HXf HYf HBf HPf HOf F r0 none ft0 hdec hnd hxm
      (fun q hq => absurd hq (by simp))
    have hpay := rlChain_payload t x y xn yn hx hy hxy hbex hbne hpne hpb hpex
    have hlen := rlChain_length t x y xn yn
    have hrooteq : (rlChain t x y xn yn).root = rootId (rotAtL ft0 x) := by
      cases hxp : xn.parent with
      | none =>
        rcases dec_par_in' t F (some r0) none ft0 hdec x xn hxm hx with
          ⟨hr0x, _⟩ | ⟨q, hq1, _⟩
        · have hr0x' : r0 = x := Option.some.inj hr0x
          rw [rlChain_root_none t x y xn yn hxp]
          rw [hr0x'] at hdec
          exact (rootId_rotAtL_eq t F x none ft0 hdec xn hx y hxr).symm
        · rw [hxp] at hq1
          exact absurd hq1 (by simp)
      | some p =>
        rw [rlChain_root_some t x y xn yn p hxp, hroot0]
        have hr0ne : r0 ≠ x := by
          intro he
          rw [he] at hdec
          cases F with
          | zero => exact dec_zero_ne t (some x) none ft0 hdec
          | succ F =>
            obtain ⟨n3, _, _, hn3, hp3, _, _, _⟩ := dec_unpack t F x none ft0 hdec
            have hn3x : n3 = xn := Option.some.inj (hn3.symm.trans hx)
            rw [hn3x, hxp] at hp3
            exact absurd hp3 (by simp)
        cases hft0c : ft0 with
        | nil =>
          rw [hft0c] at hxm
          exact absurd hxm (by simp [ftIds, ftPairs])
        | nd l0 i0 k0 r0' =>
          have hro := dec_rootId t F (some r0) none ft0 hdec
          rw [hft0c] at hro
          have hi0 : r0 = i0 := Option.some.inj hro
          have hi0ne : i0 ≠ x := by rw [← hi0]; exact hr0ne
          rw [rotAtL_there l0 r0' i0 x k0 hi0ne]
          rw [hi0]
          rfl
    rw [hRL]
    exact ⟨hrooteq, hmain, hpay, hlen, HXf, HPf⟩

/-- Mirror of `rotL_pres` for `RotateRight`. -/
theorem rotR_pres (t : Tree V) (F : Nat) (ft0 : FT)
    (hdec : decode t F t.root none = some ft0)
    (hnd : (ftIds ft0).Nodup)
    (y : Nat) (yn : Node V) (hy : getN t y = some yn) (hym : y ∈ ftIds ft0)
    (x : Nat) (hyl : yn.left = some x) (xn : Node V) (hx : getN t x = some xn) :
    (RotateRight t (some y)).root = rootId (rotAtR ft0 y) ∧
    decode (RotateRight t (some y)) (F + 1) (rootId (rotAtR ft0 y)) none
      = some (rotAtR ft0 y) ∧
    (∀ j, (getN (RotateRight t (some y)) j).map Node.payload
      = (getN t j).map Node.payload) ∧
    (RotateRight t (some y)).nodes.length = t.nodes.length ∧
    getN (RotateRight t (some y)) y
      = some { yn with left := xn.right, parent := some x } ∧
    (∀ p (pn : Node V), yn.parent = some p → getN t p = some pn →
      getN (RotateRight t (some y)) p
        = some (if pn.left = some y then { pn with left := some x }
          else { pn with right := some x })) := by
  cases hroot0 : t.root with
  | none =>
    rw [hroot0] at hdec
    have hnil : ft0 = .nil := by
      cases F with
      | zero => exact absurd hdec (by simp [decode])
      | succ F => exact (Option.some.inj hdec).symm
    rw [hnil] at hym
    exact absurd hym (by simp [ftIds, ftPairs])
  | some r0 =>
    rw [hroot0] at hdec
    have hxm : x ∈ ftIds ft0 :=
      dec_child_inL t F (some r0) none ft0 hdec y yn x hym hy hyl
    obtain ⟨g, sub, hgF, hsubdec, hsubm, hsubnd, hsubq⟩ :=
      dec_locate t F (some r0) none ft0 hdec hnd
        (fun q hq => absurd hq (by simp)) y yn hym hy
    have hg0 : g ≠ 0 := fun h0 => dec_zero_ne t (some y) yn.parent sub (h0 ▸ hsubdec)
    obtain ⟨g1, rfl⟩ := Nat.exists_eq_succ_of_ne_zero hg0
    obtain ⟨n1, lsub, rsub, hn1, hp1, hls, hrs, hsft⟩ :=
      dec_unpack t g1 y yn.parent sub hsubdec
    subst hsft
    have hn1y : yn = n1 := Option.some.inj (hy.symm.trans hn1)
    subst hn1y
    rw [hyl] at hls
    have hg1 : g1 ≠ 0 := fun h0 => dec_zero_ne t (some x) (some y) lsub (h0 ▸ hls)
    obtain ⟨g2, rfl⟩ := Nat.exists_eq_succ_of_ne_zero hg1
    obtain ⟨n2, lls, lrs, hn2, hp2, hlls, hlrs, hlft⟩ :=
      dec_unpack t g2 x (some y) lsub hls
    subst hlft
    have hn2x : xn = n2 := Option.some.inj (hx.symm.trans hn2)
    subst hn2x
    obtain ⟨hndls, hndrs, hyls, hyrs, hdisjs⟩ :=
      nodup_nd_parts (FT.nd lls x xn.key lrs) rsub y yn.key hsubnd
    obtain ⟨hndlls, hndlrs, hxlls, hxlrs, hdisjlls⟩ :=
      nodup_nd_parts lls lrs x xn.key hndls
    have hxml : x ∈ ftIds (FT.nd lls x xn.key lrs) := by
      rw [mem_ftIds_nd]; exact Or.inr (Or.inl rfl)
    have hxy : x ≠ y := fun he => hyls (by rw [← he]; exact hxml)
    have hbids2 : ∀ b, xn.right = some b → b ∈ ftIds lrs := by
      intro b hb
      have hro := dec_rootId t g2 xn.right (some x) lrs hlrs
      rw [hb] at hro
      exact rootId_mem lrs b hro.symm
    have hbne : ∀ b, xn.right = some b → b ≠ x ∧ b ≠ y := by
      intro b hb
      constructor
      · intro he
        exact hxlrs (by rw [← he]; exact hbids2 b hb)
      · intro he
        exact hyls (by rw [← he, mem_ftIds_nd]; exact Or.inr (Or.inr (hbids2 b hb)))
    have hxsub : x ∈ ftIds (FT.nd (FT.nd lls x xn.key lrs) y yn.key rsub) := by
      rw [mem_ftIds_nd]; exact Or.inl hxml
    have hysub : y ∈ ftIds (FT.nd (FT.nd lls x xn.key lrs) y yn.key rsub) := by
      rw [mem_ftIds_nd]; exact Or.inr (Or.inl rfl)
    have hpne : ∀ p, yn.parent = some p → p ≠ x ∧ p ≠ y := by
      intro p hp
      exact ⟨fun he => hsubq p hp (by rw [he]; exact hxsub),
        fun he => hsubq p hp (by rw [he]; exact hysub)⟩
    have hpb : ∀ p b, yn.parent = some p → xn.right = some b → b ≠ p := by
      intro p b hp hb he
      refine hsubq p hp ?_
      rw [← he, mem_ftIds_nd]
      exact Or.inl (by rw [mem_ftIds_nd]; exact Or.inr (Or.inr (hbids2 b hb)))
    have hRR : RotateRight t (some y) = rrChain t y x yn xn :=
      rotateRight_chain t y x yn xn hy hyl hx hxy hbne hpne
    have hbex : ∀ b, xn.right = some b → ∃ bn : Node V, getN t b = some bn := by
      intro b hb
      refine dec_ids_node t F (some r0) none ft0 hdec b ?_
      refine hsubm b ?_
      rw [mem_ftIds_nd]
      exact Or.inl (by rw [mem_ftIds_nd]; exact Or.inr (Or.inr (hbids2 b hb)))
    have hpex : ∀ p, yn.parent = some p → ∃ pn : Node V, getN t p = some pn := by
      intro p hp
      rcases dec_par_in' t F (some r0) none ft0 hdec y yn hym hy with
        ⟨_, hypn⟩ | ⟨q, hq1, hq2⟩
      · rw [hp] at hypn; exact absurd hypn (by simp)
      · have hpq : p = q := Option.some.inj (hp.symm.trans hq1)
        exact dec_ids_node t F (some r0) none ft0 hdec p (hpq ▸ hq2)
    have HYf := rrChain_getN_y t y x yn xn hy
    have HXf := rrChain_getN_x t y x yn xn hx hxy
    have HBf : ∀ b (bn : Node V), xn.right = some b → getN t b = some bn →
        getN (rrChain t y x yn xn) b = some { bn with parent := some y } :=
      fun b bn hb hbn => rrChain_getN_b t y x yn xn b bn hb (hbne b hb).1
        (hbne b hb).2 (fun p hp => (hpb p b hp hb).symm) hbn
    have HPf : ∀ p (pn : Node V), yn.parent = some p → getN t p = some pn →
        getN (rrChain t y x yn xn) p
          = some (if pn.left = some y then { pn with left := some x }
            else { pn with right := some x }) :=
      fun p pn hp hpn => rrChain_getN_p t y x yn xn p pn hp (hpne p hp).1
        (hpne p hp).2 (fun b hb => hpb p b hp hb) hpn
    have HOf : ∀ j, j ≠ x → j ≠ y → (∀ b, xn.right = some b → b ≠ j) →
        (∀ p, yn.parent = some p → p ≠ j) →
        getN (rrChain t y x yn xn) j = getN t j :=
      fun j h1 h2 h3 h4 => rrChain_getN_other t y x yn xn j h1 h2 h3 h4
    have hmain := rotR_decode_aux t (rrChain t y x yn xn) y x yn xn hy hyl hx
      HYf HXf HBf HPf HOf F r0 none ft0 hdec hnd hym
      (fun q hq => absurd hq (by simp))
    have hpay := rrChain_payload t y x yn xn hy hx hxy hbex hbne hpne hpb hpex
    have hlen := rrChain_length t y x yn xn
    have hrooteq : (rrChain t y x yn xn).root = rootId (rotAtR ft0 y) := by
      cases hyp : yn.parent with
      | none =>
        rcases dec_par_in' t F (some r0) none ft0 hdec y yn hym hy with
          ⟨hr0y, _⟩ | ⟨q, hq1, _⟩
        · have hr0y' : r0 = y := Option.some.inj hr0y
          rw [rrChain_root_none t y x yn xn hyp]
          rw [hr0y'] at hdec
          exact (rootId_rotAtR_eq t F y none ft0 hdec yn hy x hyl).symm
        · rw [hyp] at hq1
          exact absurd hq1 (by simp)
      | some p =>
        rw [rrChain_root_some t y x yn xn p hyp, hroot0]
        have hr0ne : r0 ≠ y := by
          intro he
          rw [he] at hdec
          cases F with
          | zero => exact dec_zero_ne t (some y) none ft0 hdec
          | succ F =>
            obtain ⟨n3, _, _, hn3, hp3, _, _, _⟩ := dec_unpack t F y none ft0 hdec
            have hn3y : n3 = yn := Option.some.inj (hn3.symm.trans hy)
            rw [hn3y, hyp] at hp3
            exact absurd hp3 (by simp)
        cases hft0c : ft0 with
        | nil =>
          rw [hft0c] at hym
          exact absurd hym (by simp [ftIds, ftPairs])
        | nd l0 i0 k0 r0' =>
          have hro := dec_rootId t F (some r0) none ft0 hdec
          rw [hft0c] at hro
          have hi0 : r0 = i0 := Option.some.inj hro
          have hi0ne : i0 ≠ y := by rw [← hi0]; exact hr0ne
          rw [rotAtR_there l0 r0' i0 y k0 hi0ne]
          rw [hi0]
          rfl
    rw [hRR]
    exact ⟨hrooteq, hmain, hpay, hlen, HYf, HPf⟩

end RBGo
namespace RBGo

/-! ## Parent slots, site distinctness, and recoloring -/

/-- A decoded non-root node is stored in its parent's `left` or `right` slot. -/
theorem dec_parent_slot (t : Tree V) :
    ∀ f (i? par : Option Nat) (ft : FT), decode t f i? par = some ft →
      ∀ x (xn : Node V), x ∈ ftIds ft → getN t x = some xn →
        (i? = some x ∧ xn.parent = par) ∨
        ∃ (q : Nat) (qn : Node V), xn.parent = some q ∧ getN t q = some qn ∧
          (qn.left = some x ∨ qn.right = some x) := by
  intro f
  induction f with
  | zero => intro i? par ft h; exact absurd h (by simp [decode])
  | succ f ih =>
    intro i? par ft h x xn hxm hx
    cases i? with
    | none =>
      have : ft = .nil := (Option.some.inj h).symm
      subst this
      exact absurd hxm (by simp [ftIds, ftPairs])
    | some i =>
      obtain ⟨n, l, r, hn, hp, hl, hr, hft⟩ := dec_unpack t f i par ft h
      subst hft
      rw [mem_ftIds_nd] at hxm
      rcases hxm with hm | hm | hm
      · rcases ih n.left (some i) l hl x xn hm hx with ⟨hlx, hxp⟩ | hres
        · exact Or.inr ⟨i, n, hxp, hn, Or.inl hlx⟩
        · exact Or.inr hres
      · subst hm
        have hnx : n = xn := Option.some.inj (hn.symm.trans hx)
        subst hnx
        exact Or.inl ⟨rfl, hp⟩
      · rcases ih n.right (some i) r hr x xn hm hx with ⟨hrx, hxp⟩ | hres
        · exact Or.inr ⟨i, n, hxp, hn, Or.inr hrx⟩
        · exact Or.inr hres

/-- Distinctness at a rotation/fix-up site: a node, its child, and its parent
are three different arena slots on a `Nodup` decode. -/
theorem dec_site_ne (t : Tree V) (F : Nat) (ft : FT)
    (hdec : decode t F t.root none = some ft) (hnd : (ftIds ft).Nodup)
    (zp : Nat) (zpn : Node V) (hzp : getN t zp = some zpn) (hzpm : zp ∈ ftIds ft)
    (z : Nat) (hz : zpn.right = some z ∨ zpn.left = some z) :
    zp ≠ z ∧ (∀ gp, zpn.parent = some gp → gp ≠ z ∧ gp ≠ zp) := by
  cases hroot0 : t.root with
  | none =>
    rw [hroot0] at hdec
    have hnil : ft = .nil := by
      cases F with
      | zero => exact absurd hdec (by simp [decode])
      | succ F => exact (Option.some.inj hdec).symm
    rw [hnil] at hzpm
    exact absurd hzpm (by simp [ftIds, ftPairs])
  | some r0 =>
    rw [hroot0] at hdec
    obtain ⟨g, sub, hgF, hsubdec, hsubm, hsubnd, hsubq⟩ :=
      dec_locate t F (some r0) none ft hdec hnd
        (fun q hq => absurd hq (by simp)) zp zpn hzpm hzp
    have hg0 : g ≠ 0 := fun h0 => dec_zero_ne t (some zp) zpn.parent sub (h0 ▸ hsubdec)
    obtain ⟨g1, rfl⟩ := Nat.exists_eq_succ_of_ne_zero hg0
    obtain ⟨n1, ls, rs, hn1, hp1, hls, hrs, hsft⟩ :=
      dec_unpack t g1 zp zpn.parent sub hsubdec
    subst hsft
    have hn1z : zpn = n1 := Option.some.inj (hzp.symm.trans hn1)
    subst hn1z
    obtain ⟨hndls, hndrs, hzls, hzrs, hdisjs⟩ :=
      nodup_nd_parts ls rs zp zpn.key hsubnd
    have hzin : z ∈ ftIds ls ∨ z ∈ ftIds rs := by
      rcases hz with hz | hz
      · rw [hz] at hrs
        exact Or.inr (rootId_mem rs z (dec_rootId t g1 (some z) (some zp) rs hrs).symm)
      · rw [hz] at hls
        exact Or.inl (rootId_mem ls z (dec_rootId t g1 (some z) (some zp) ls hls).symm)
    have hzsub : z ∈ ftIds (FT.nd ls zp zpn.key rs) := by
      rw [mem_ftIds_nd]
      rcases hzin with h | h
      · exact Or.inl h
      · exact Or.inr (Or.inr h)
    constructor
    · intro he
      rcases hzin with h | h
      · exact hzls (by rw [he]; exact h)
      · exact hzrs (by rw [he]; exact h)
    · intro gp hgp
      refine ⟨fun he => hsubq gp hgp (by rw [he]; exact hzsub),
        fun he => hsubq gp hgp (by rw [he, mem_ftIds_nd]; exact Or.inr (Or.inl rfl))⟩

theorem dFuel_modifyN (t : Tree V) (i : Nat) (g : Node V → Node V) :
    dFuel (modifyN t i g) = dFuel t := by
  unfold dFuel
  rw [modifyN_length]

/-- A structure-preserving `modifyN` leaves every decode unchanged. -/
theorem modifyN_dec (t : Tree V) (i : Nat) (g : Node V → Node V)
    (hg : ∀ n : Node V, structOf (g n) = structOf n) (F : Nat)
    (i? par : Option Nat) (ft : FT) (hdec : decode t F i? par = some ft) :
    decode (modifyN t i g) F i? par = some ft :=
  dec_struct t _ (modifyN_structOf t i g hg) F i? par ft hdec

end RBGo
namespace RBGo

/-! ## Preservation bundle carried through the put fix-up loop -/

/-- After a fix-up step from `t` to `t'`: `t'` still decodes sorted, with the
same inorder (id, key) pairs as `ft`, the same payload at every slot of `t`,
and the same arena length. -/
def presPkg (t t' : Tree V) (ft : FT) : Prop :=
  ∃ ft', decode t' (dFuel t') t'.root none = some ft' ∧
    ftB none none ft' = true ∧ ftPairs ft' = ftPairs ft ∧
    (∀ j, (getN t' j).map Node.payload = (getN t j).map Node.payload) ∧
    t'.nodes.length = t.nodes.length

theorem presPkg_refl (t : Tree V) (ft : FT)
    (hdec : decode t (dFuel t) t.root none = some ft)
    (hb : ftB none none ft = true) : presPkg t t ft :=
  ⟨ft, hdec, hb, rfl, fun _ => rfl, rfl⟩

theorem presPkg_step (t t1 t' : Tree V) (ft ft1 : FT)
    (hpr : ftPairs ft1 = ftPairs ft)
    (hpay1 : ∀ j, (getN t1 j).map Node.payload = (getN t j).map Node.payload)
    (hlen1 : t1.nodes.length = t.nodes.length)
    (hpkg : presPkg t1 t' ft1) : presPkg t t' ft := by
  obtain ⟨ft', a, b, c, d, e⟩ := hpkg
  exact ⟨ft', a, b, c.trans hpr, fun j => (d j).trans (hpay1 j), e.trans hlen1⟩

/-- Recoloring one node does not disturb the full decode. -/
theorem recolor_full (t : Tree V) (i : Nat) (c : Color) (ft : FT)
    (hdec : decode t (dFuel t) t.root none = some ft) :
    decode (modifyN t i (fun n => { n with color := c }))
      (dFuel (modifyN t i (fun n => { n with color := c })))
      (modifyN t i (fun n => { n with color := c })).root none = some ft := by
  rw [dFuel_modifyN, modifyN_root]
  exact modifyN_dec t i (fun n => { n with color := c }) (fun n => rfl)
    (dFuel t) t.root none ft hdec

/-- Package for a left rotation: decode, order, pairs, payloads, length, and
the two heap reads the fix-up needs afterwards. -/
theorem rotL_pkg (t : Tree V) (ft : FT)
    (hdec : decode t (dFuel t) t.root none = some ft)
    (hb : ftB none none ft = true)
    (x : Nat) (xn : Node V) (hx : getN t x = some xn) (hxm : x ∈ ftIds ft)
    (y : Nat) (hxr : xn.right = some y) (yn : Node V) (hy : getN t y = some yn) :
    decode (RotateLeft t (some x)) (dFuel (RotateLeft t (some x)))
        (RotateLeft t (some x)).root none = some (rotAtL ft x) ∧
    ftB none none (rotAtL ft x) = true ∧
    ftPairs (rotAtL ft x) = ftPairs ft ∧
    (∀ j, (getN (RotateLeft t (some x)) j).map Node.payload
      = (getN t j).map Node.payload) ∧
    (RotateLeft t (some x)).nodes.length = t.nodes.length ∧
    getN (RotateLeft t (some x)) x
      = some { xn with right := yn.left, parent := some y } ∧
    (∀ p (pn : Node V), xn.parent = some p → getN t p = some pn →
      getN (RotateLeft t (some x)) p
        = some (if pn.left = some x then { pn with left := some y }
          else { pn with right := some y })) := by
  have hnd := dec_nodup t (dFuel t) t.root none ft none none hdec hb
  obtain ⟨hroot, hmain, hpay, hlen, hxf, hpf⟩ :=
    rotL_pres t (dFuel t) ft hdec hnd x xn hx hxm y hxr yn hy
  have hnd' : (ftIds (rotAtL ft x)).Nodup := by
    rw [ftIds_rotAtL]; exact hnd
  refine ⟨?_, ftB_rotAtL ft x none none hb, ftPairs_rotAtL ft x,
    hpay, hlen, hxf, hpf⟩
  rw [hroot]
  exact dec_refuel _ (dFuel t + 1) _ none _ hmain hnd'

/-- Package for a right rotation (mirror of `rotL_pkg`). -/
theorem rotR_pkg (t : Tree V) (ft : FT)
    (hdec : decode t (dFuel t) t.root none = some ft)
    (hb : ftB none none ft = true)
    (y : Nat) (yn : Node V) (hy : getN t y = some yn) (hym : y ∈ ftIds ft)
    (x : Nat) (hyl : yn.left = some x) (xn : Node V) (hx : getN t x = some xn) :
    decode (RotateRight t (some y)) (dFuel (RotateRight t (some y)))
        (RotateRight t (some y)).root none = some (rotAtR ft y) ∧
    ftB none none (rotAtR ft y) = true ∧
    ftPairs (rotAtR ft y) = ftPairs ft ∧
    (∀ j, (getN (RotateRight t (some y)) j).map Node.payload
      = (getN t j).map Node.payload) ∧
    (RotateRight t (some y)).nodes.length = t.nodes.length ∧
    getN (RotateRight t (some y)) y
      = some { yn with left := xn.right, parent := some x } ∧
    (∀ p (pn : Node V), yn.parent = some p → getN t p = some pn →
      getN (RotateRight t (some y)) p
        = some (if pn.left = some y then { pn with left := some x }
          else { pn with right := some x })) := by
  have hnd := dec_nodup t (dFuel t) t.root none ft none none hdec hb
  obtain ⟨hroot, hmain, hpay, hlen, hyf, hpf⟩ :=
    rotR_pres t (dFuel t) ft hdec hnd y yn hy hym x hyl xn hx
  have hnd' : (ftIds (rotAtR ft y)).Nodup := by
    rw [ftIds_rotAtR]; exact hnd
  refine ⟨?_, ftB_rotAtR ft y none none hb, ftPairs_rotAtR ft y,
    hpay, hlen, hyf, hpf⟩
  rw [hroot]
  exact dec_refuel _ (dFuel t + 1) _ none _ hmain hnd'

end RBGo
namespace RBGo

/-- The put fix-up loop only recolors and rotates: whenever it returns a tree,
that tree still decodes to a sorted arena with the same (id, key) pairs, the
same payloads, and the same length. -/
theorem fixupPutLoop_pres :
    ∀ fuel (t : Tree V) (z : Nat) (t' : Tree V),
      fixupPutLoop t fuel z = .ok t' →
      ∀ (ft : FT), decode t (dFuel t) t.root none = some ft →
        ftB none none ft = true → z ∈ ftIds ft →
        presPkg t t' ft := by
  intro fuel
  induction fuel with
  | zero => intro t z t' h; exact absurd h (by simp [fixupPutLoop])
  | succ fuel ih =>
    intro t z t' h ft hdec hb hz
    have hnd := dec_nodup t (dFuel t) t.root none ft none none hdec hb
    obtain ⟨zn, hzn⟩ := dec_ids_node t (dFuel t) t.root none ft hdec z hz
    unfold fixupPutLoop at h
    rw [hzn] at h
    dsimp only at h
    cases hzpc : zn.parent with
    | none =>
      rw [hzpc] at h
      dsimp only at h
      have ht : t = t' := Except.ok.inj h
      rw [← ht]
      exact presPkg_refl t ft hdec hb
    | some zp =>
      rw [hzpc] at h
      dsimp only at h
      have hzpm : zp ∈ ftIds ft := by
        rcases dec_parent_in t (dFuel t) t.root none ft hdec z hz zn hzn zp hzpc
          with hco | hm
        · exact absurd hco (by simp)
        · exact hm
      obtain ⟨zpn, hzpn⟩ := dec_ids_node t (dFuel t) t.root none ft hdec zp hzpm
      rw [hzpn] at h
      dsimp only at h
      by_cases hcol : zpn.color = BLACK
      · rw [if_pos hcol] at h
        have ht : t = t' := Except.ok.inj h
        rw [← ht]
        exact presPkg_refl t ft hdec hb
      · rw [if_neg hcol] at h
        cases hgppc : zpn.parent with
        | none =>
          rw [hgppc] at h
          dsimp only at h
          exact Except.noConfusion h
        | some gp =>
          rw [hgppc] at h
          dsimp only at h
          have hgpm : gp ∈ ftIds ft := by
            rcases dec_parent_in t (dFuel t) t.root none ft hdec zp hzpm zpn hzpn
              gp hgppc with hco | hm
            · exact absurd hco (by simp)
            · exact hm
          obtain ⟨gpn, hgpn⟩ := dec_ids_node t (dFuel t) t.root none ft hdec gp hgpm
          rw [hgpn] at h
          dsimp only at h
          -- z sits in one of zp's child slots
          have hzslot : zpn.left = some z ∨ zpn.right = some z := by
            rcases dec_parent_slot t (dFuel t) t.root none ft hdec z zn hz hzn
              with ⟨_, hzpar⟩ | ⟨q, qn, hq, hqn, hslot2⟩
            · rw [hzpc] at hzpar
              exact absurd hzpar (by simp)
            · have hqzp : q = zp := Option.some.inj (hq.symm.trans hzpc)
              rw [hqzp] at hqn
              have hqn2 : qn = zpn := Option.some.inj (hqn.symm.trans hzpn)
              rw [hqn2] at hslot2
              exact hslot2
          obtain ⟨hzpz, hgpfn⟩ := dec_site_ne t (dFuel t) ft hdec hnd zp zpn hzpn
            hzpm z hzslot.symm
          obtain ⟨hgpz, hgpzp⟩ := hgpfn gp hgppc
          by_cases hslot : gpn.left = some zp
          · rw [if_pos hslot] at h
            by_cases hred : isRed t gpn.right = true
            · -- case 1 (left): recolor and recurse at the grandparent
              rw [if_pos hred] at h
              cases hyic : gpn.right with
              | none =>
                rw [hyic] at hred
                exact absurd hred (by simp [isRed])
              | some yi =>
                rw [hyic] at h
                have hdec3 :=
                  recolor_full _ gp RED ft (recolor_full _ yi BLACK ft
                    (recolor_full t zp BLACK ft hdec))
                refine presPkg_step t _ t' ft ft rfl ?_ ?_
                  (ih _ gp t' h ft hdec3 hb hgpm)
                · intro j
                  exact (modifyN_map_payload _ gp (fun n => { n with color := RED }) (fun n => rfl) j).trans
                    ((modifyN_map_payload _ yi (fun n => { n with color := BLACK }) (fun n => rfl) j).trans
                      (modifyN_map_payload t zp (fun n => { n with color := BLACK }) (fun n => rfl) j))
                · simp only [modifyN_length]
            · -- cases 2 and 3 (left)
              rw [if_neg hred] at h
              by_cases hinner : zpn.right = some z
              · -- case 2: pre-rotate left at the parent
                rw [if_pos hinner] at h
                dsimp only at h
                obtain ⟨hdec4, hb4, hpr4, hpay4, hlen4, hx4, hp4⟩ :=
                  rotL_pkg t ft hdec hb zp zpn hzpn hzpm z hinner zn hzn
                have hpar4 : (getN (RotateLeft t (some zp)) zp).bind Node.parent
                    = some z := by rw [hx4]; rfl
                rw [hpar4] at h
                dsimp only [derefP] at h
                rw [bindOk] at h
                have ggp4 : getN (RotateLeft t (some zp)) gp
                    = some { gpn with left := some z } := by
                  have := hp4 gp gpn hgppc hgpn
                  rw [if_pos hslot] at this
                  exact this
                have hdec6 :=
                  recolor_full _ gp RED (rotAtL ft zp)
                    (recolor_full _ z BLACK (rotAtL ft zp) hdec4)
                have ggp6 : getN (modifyN (modifyN (RotateLeft t (some zp)) z
                      (fun n => { n with color := BLACK })) gp
                      (fun n => { n with color := RED })) gp
                    = some { gpn with left := some z, color := RED } := by
                  have h1 : getN (modifyN (RotateLeft t (some zp)) z
                      (fun n => { n with color := BLACK })) gp
                      = some { gpn with left := some z } := by
                    rw [getN_modifyN_ne _ gp z _ (Ne.symm hgpz)]
                    exact ggp4
                  exact getN_modifyN_self _ gp _ _ h1
                have hgpm4 : gp ∈ ftIds (rotAtL ft zp) := by
                  rw [ftIds_rotAtL]; exact hgpm
                obtain ⟨zn6, hzn6⟩ := dec_ids_node _ _ _ none _ hdec6 z
                  (by rw [ftIds_rotAtL]; exact hz)
                obtain ⟨hdec7, hb7, hpr7, hpay7, hlen7, _, _⟩ :=
                  rotR_pkg _ (rotAtL ft zp) hdec6 hb4 gp
                    { gpn with left := some z, color := RED } ggp6 hgpm4
                    z rfl zn6 hzn6
                refine presPkg_step t _ t' ft (rotAtR (rotAtL ft zp) gp)
                  (hpr7.trans hpr4) ?_ ?_
                  (ih _ zp t' h (rotAtR (rotAtL ft zp) gp) hdec7 hb7
                    (by rw [ftIds_rotAtR, ftIds_rotAtL]; exact hzpm))
                · intro j
                  refine (hpay7 j).trans ?_
                  refine ((modifyN_map_payload _ gp (fun n => { n with color := RED }) (fun n => rfl) j).trans
                    ((modifyN_map_payload _ z (fun n => { n with color := BLACK }) (fun n => rfl) j).trans
                      (hpay4 j)))
                · rw [hlen7, modifyN_length, modifyN_length, hlen4]
              · -- case 3: z is the outer (left) child
                rw [if_neg hinner] at h
                dsimp only at h
                have hparz : (getN t z).bind Node.parent = some zp := by
                  rw [hzn]; exact hzpc
                rw [hparz] at h
                dsimp only [derefP] at h
                rw [bindOk] at h
                have hdec6 :=
                  recolor_full _ gp RED ft (recolor_full t zp BLACK ft hdec)
                have ggp6 : getN (modifyN (modifyN t zp
                      (fun n => { n with color := BLACK })) gp
                      (fun n => { n with color := RED })) gp
                    = some { gpn with color := RED } := by
                  have h1 : getN (modifyN t zp
                      (fun n => { n with color := BLACK })) gp = some gpn := by
                    rw [getN_modifyN_ne _ gp zp _ (Ne.symm hgpzp)]
                    exact hgpn
                  exact getN_modifyN_self _ gp _ _ h1
                have hzp6 : getN (modifyN (modifyN t zp
                      (fun n => { n with color := BLACK })) gp
                      (fun n => { n with color := RED })) zp
                    = some { zpn with color := BLACK } := by
                  rw [getN_modifyN_ne _ zp gp _ hgpzp]
                  exact getN_modifyN_self t zp _ zpn hzpn
                obtain ⟨hdec7, hb7, hpr7, hpay7, hlen7, _, _⟩ :=
                  rotR_pkg _ ft hdec6 hb gp { gpn with color := RED } ggp6 hgpm
                    zp hslot { zpn with color := BLACK } hzp6
                refine presPkg_step t _ t' ft (rotAtR ft gp) hpr7 ?_ ?_
                  (ih _ z t' h (rotAtR ft gp) hdec7 hb7
                    (by rw [ftIds_rotAtR]; exact hz))
                · intro j
                  exact (hpay7 j).trans
                    ((modifyN_map_payload _ gp (fun n => { n with color := RED }) (fun n => rfl) j).trans
                      (modifyN_map_payload t zp (fun n => { n with color := BLACK }) (fun n => rfl) j))
                · rw [hlen7, modifyN_length, modifyN_length]
          · -- mirror: the parent hangs on the grandparent's right
            rw [if_neg hslot] at h
            have hgr : gpn.right = some zp := by
              rcases dec_parent_slot t (dFuel t) t.root none ft hdec zp zpn hzpm
                hzpn with ⟨_, hzppar⟩ | ⟨q, qn, hq, hqn, hslot2⟩
              · rw [hgppc] at hzppar
                exact absurd hzppar (by simp)
              · have hqgp : q = gp := Option.some.inj (hq.symm.trans hgppc)
                rw [hqgp] at hqn
                have hqn2 : qn = gpn := Option.some.inj (hqn.symm.trans hgpn)
                rw [hqn2] at hslot2
                rcases hslot2 with h2 | h2
                · exact absurd h2 hslot
                · exact h2
            by_cases hred : isRed t gpn.left = true
            · -- case 1 (right)
              rw [if_pos hred] at h
              cases hyic : gpn.left with
              | none =>
                rw [hyic] at hred
                exact absurd hred (by simp [isRed])
              | some yi =>
                rw [hyic] at h
                have hdec3 :=
                  recolor_full _ gp RED ft (recolor_full _ yi BLACK ft
                    (recolor_full t zp BLACK ft hdec))
                refine presPkg_step t _ t' ft ft rfl ?_ ?_
                  (ih _ gp t' h ft hdec3 hb hgpm)
                · intro j
                  exact (modifyN_map_payload _ gp (fun n => { n with color := RED }) (fun n => rfl) j).trans
                    ((modifyN_map_payload _ yi (fun n => { n with color := BLACK }) (fun n => rfl) j).trans
                      (modifyN_map_payload t zp (fun n => { n with color := BLACK }) (fun n => rfl) j))
                · simp only [modifyN_length]
            · -- cases 2 and 3 (right)
              rw [if_neg hred] at h
              by_cases hinner : zpn.left = some z
              · -- case 2 (right): pre-rotate right at the parent
                rw [if_pos hinner] at h
                dsimp only at h
                obtain ⟨hdec4, hb4, hpr4, hpay4, hlen4, hy4, hp4⟩ :=
                  rotR_pkg t ft hdec hb zp zpn hzpn hzpm z hinner zn hzn
                have hpar4 : (getN (RotateRight t (some zp)) zp).bind Node.parent
                    = some z := by rw [hy4]; rfl
                rw [hpar4] at h
                dsimp only [derefP] at h
                rw [bindOk] at h
                have ggp4 : getN (RotateRight t (some zp)) gp
                    = some { gpn with right := some z } := by
                  have := hp4 gp gpn hgppc hgpn
                  rw [if_neg hslot] at this
                  exact this
                have hdec6 :=
                  recolor_full _ gp RED (rotAtR ft zp)
                    (recolor_full _ z BLACK (rotAtR ft zp) hdec4)
                have ggp6 : getN (modifyN (modifyN (RotateRight t (some zp)) z
                      (fun n => { n with color := BLACK })) gp
                      (fun n => { n with color := RED })) gp
                    = some { gpn with right := some z, color := RED } := by
                  have h1 : getN (modifyN (RotateRight t (some zp)) z
                      (fun n => { n with color := BLACK })) gp
                      = some { gpn with right := some z } := by
                    rw [getN_modifyN_ne _ gp z _ (Ne.symm hgpz)]
                    exact ggp4
                  exact getN_modifyN_self _ gp _ _ h1
                have hgpm4 : gp ∈ ftIds (rotAtR ft zp) := by
                  rw [ftIds_rotAtR]; exact hgpm
                obtain ⟨zn6, hzn6⟩ := dec_ids_node _ _ _ none _ hdec6 z
                  (by rw [ftIds_rotAtR]; exact hz)
                obtain ⟨hdec7, hb7, hpr7, hpay7, hlen7, _, _⟩ :=
                  rotL_pkg _ (rotAtR ft zp) hdec6 hb4 gp
                    { gpn with right := some z, color := RED } ggp6 hgpm4
                    z rfl zn6 hzn6
                refine presPkg_step t _ t' ft (rotAtL (rotAtR ft zp) gp)
                  (hpr7.trans hpr4) ?_ ?_
                  (ih _ zp t' h (rotAtL (rotAtR ft zp) gp) hdec7 hb7
                    (by rw [ftIds_rotAtL, ftIds_rotAtR]; exact hzpm))
                · intro j
                  refine (hpay7 j).trans ?_
                  refine ((modifyN_map_payload _ gp (fun n => { n with color := RED }) (fun n => rfl) j).trans
                    ((modifyN_map_payload _ z (fun n => { n with color := BLACK }) (fun n => rfl) j).trans
                      (hpay4 j)))
                · rw [hlen7, modifyN_length, modifyN_length, hlen4]
              · -- case 3 (right): z is the outer (right) child
                rw [if_neg hinner] at h
                dsimp only at h
                have hparz : (getN t z).bind Node.parent = some zp := by
                  rw [hzn]; exact hzpc
                rw [hparz] at h
                dsimp only [derefP] at h
                rw [bindOk] at h
                have hdec6 :=
                  recolor_full _ gp RED ft (recolor_full t zp BLACK ft hdec)
                have ggp6 : getN (modifyN (modifyN t zp
                      (fun n => { n with color := BLACK })) gp
                      (fun n => { n with color := RED })) gp
                    = some { gpn with color := RED } := by
                  have h1 : getN (modifyN t zp
                      (fun n => { n with color := BLACK })) gp = some gpn := by
                    rw [getN_modifyN_ne _ gp zp _ (Ne.symm hgpzp)]
                    exact hgpn
                  exact getN_modifyN_self _ gp _ _ h1
                have hzp6 : getN (modifyN (modifyN t zp
                      (fun n => { n with color := BLACK })) gp
                      (fun n => { n with color := RED })) zp
                    = some { zpn with color := BLACK } := by
                  rw [getN_modifyN_ne _ zp gp _ hgpzp]
                  exact getN_modifyN_self t zp _ zpn hzpn
                obtain ⟨hdec7, hb7, hpr7, hpay7, hlen7, _, _⟩ :=
                  rotL_pkg _ ft hdec6 hb gp { gpn with color := RED } ggp6 hgpm
                    zp hgr { zpn with color := BLACK } hzp6
                refine presPkg_step t _ t' ft (rotAtL ft gp) hpr7 ?_ ?_
                  (ih _ z t' h (rotAtL ft gp) hdec7 hb7
                    (by rw [ftIds_rotAtL]; exact hz))
                · intro j
                  exact (hpay7 j).trans
                    ((modifyN_map_payload _ gp (fun n => { n with color := RED }) (fun n => rfl) j).trans
                      (modifyN_map_payload t zp (fun n => { n with color := BLACK }) (fun n => rfl) j))
                · rw [hlen7, modifyN_length, modifyN_length]

end RBGo
namespace RBGo

/-! ## `Put` in all three branches, and the overwrite claim -/

theorem attach_root (t : Tree V) (p : Nat) (dir : Direction) (k : Int) (v : V) :
    (attach t p dir k v).root = t.root := by
  unfold attach
  cases dir with
  | LEFT => exact modifyN_root _ p _
  | RIGHT => exact modifyN_root _ p _
  | NODIR => rfl

theorem getN_attach_new_nodir (t : Tree V) (p : Nat) (k : Int) (v : V) :
    getN (attach t p .NODIR k v) t.nodes.length
      = some { key := k, payload := v, color := RED, left := none,
               right := none, leaf := false, parent := some p } := by
  simp only [attach]
  exact getN_append_self t _ _

theorem mem_ftIds_of_pairs (ft : FT) (j : Nat) (k : Int)
    (h : (j, k) ∈ ftPairs ft) : j ∈ ftIds ft := by
  simp only [ftIds, List.mem_map]
  exact ⟨(j, k), h, rfl⟩

/-- `fixupPut` = loop + root blackening preserves the decode package. -/
theorem fixupPut_pres (t : Tree V) (fuel z : Nat) (t' : Tree V)
    (h : fixupPut t fuel z = .ok t')
    (ft : FT) (hdec : decode t (dFuel t) t.root none = some ft)
    (hb : ftB none none ft = true) (hz : z ∈ ftIds ft) :
    presPkg t t' ft := by
  unfold fixupPut at h
  cases hloop : fixupPutLoop t fuel z with
  | error e =>
    rw [hloop, bindErr] at h
    exact Except.noConfusion h
  | ok t1 =>
    rw [hloop, bindOk] at h
    obtain ⟨ft1, hdec1, hb1, hpr1, hpay1, hlen1⟩ :=
      fixupPutLoop_pres fuel t z t1 hloop ft hdec hb hz
    cases hr1 : t1.root with
    | none =>
      rw [hr1] at h
      exact Except.noConfusion h
    | some r =>
      rw [hr1] at h
      dsimp only at h
      have ht' : t' = modifyN t1 r (fun n => { n with color := BLACK }) :=
        (Except.ok.inj h).symm
      subst ht'
      refine ⟨ft1, recolor_full t1 r BLACK ft1 hdec1, hb1, hpr1, ?_, ?_⟩
      · intro j
        exact (modifyN_map_payload t1 r (fun n => { n with color := BLACK })
          (fun n => rfl) j).trans (hpay1 j)
      · rw [modifyN_length]
        exact hlen1

/-- After any successful `Put` on a sorted decodable tree, the key is present
with the freshly written payload. -/
theorem put_wfWith (t : Tree V) (ft : FT) (k : Int) (v : V) (fuel : Nat)
    (t' : Tree V)
    (hdec : decode t (dFuel t) t.root none = some ft)
    (hb : ftB none none ft = true)
    (hput : Put t fuel k v = .ok t') :
    wfWith t' k v := by
  by_cases hk : ∃ j, (j, k) ∈ ftPairs ft
  · -- the key is present: the payload is overwritten in place
    obtain ⟨j, hj⟩ := hk
    have heq := put_found t ft k j v fuel hdec hb hj
    rw [hput] at heq
    have ht' : t' = modifyN t j (fun n => { n with payload := v }) :=
      Except.ok.inj heq
    subst ht'
    obtain ⟨nj, hnj⟩ := dec_ids_node t (dFuel t) t.root none ft hdec j
      (mem_ftIds_of_pairs ft j k hj)
    refine ⟨ft, j, { nj with payload := v }, ?_, hb, hj, ?_, rfl⟩
    · rw [dFuel_modifyN, modifyN_root]
      exact modifyN_dec t j (fun n => { n with payload := v }) (fun n => rfl)
        (dFuel t) t.root none ft hdec
    · exact getN_modifyN_self t j _ nj hnj
  · -- the key is absent: a fresh node is attached and fixed up
    have habs : ∀ (j : Nat) (kk : Int), (j, kk) ∈ ftPairs ft → kk ≠ k :=
      fun j kk hm he => hk ⟨j, he ▸ hm⟩
    cases hroot : t.root with
    | none =>
      -- empty tree: a black root is created directly
      unfold Put at hput
      rw [hroot] at hput
      dsimp only at hput
      have ht' : t' = { nodes := t.nodes ++ [{ key := k, payload := v, color := BLACK, left := none, right := none, leaf := false, parent := none }], root := some t.nodes.length } :=
        (Except.ok.inj hput).symm
      subst ht'
      have hdec1 := dec_build
        ({ nodes := t.nodes ++ [{ key := k, payload := v, color := BLACK, left := none, right := none, leaf := false, parent := none }], root := some t.nodes.length } : Tree V)
        1 t.nodes.length none
        ({ key := k, payload := v, color := BLACK, left := none, right := none, leaf := false, parent := none } : Node V)
        .nil .nil (getN_append_self t _ _) rfl
        (dec_nil _ _ 1 one_ne_zero) (dec_nil _ _ 1 one_ne_zero)
      refine ⟨.nd .nil t.nodes.length k .nil, t.nodes.length,
        ({ key := k, payload := v, color := BLACK, left := none, right := none, leaf := false, parent := none } : Node V), ?_, rfl,
        by simp [ftPairs], getN_append_self t _ _, rfl⟩
      exact dec_refuel _ 2 _ none _ hdec1 (by simp [ftIds, ftPairs])
    | some r =>
      have hnd := dec_nodup t (dFuel t) t.root none ft none none hdec hb
      rw [hroot] at hdec
      have hdecE := dec_exact t (dFuel t) (some r) none ft hdec
      have hdepth : ftDepth ft + 1 ≤ dFuel t := by
        have h2 := ftDepth_le_size ft
        have h3 := ftSize_le_len t (dFuel t) (some r) none ft hdec hnd
        unfold dFuel
        omega
      obtain ⟨p, dir', hlook, hpm, hdecA⟩ :=
        lookup_insert t k v (ftDepth ft + 1) r none ft none none (dFuel t)
          .NODIR hdecE hb rfl rfl habs hnd hdepth
      unfold Put at hput
      rw [hroot] at hput
      dsimp only at hput
      rw [hlook, bindOk] at hput
      dsimp only at hput
      rw [if_neg (by simp)] at hput
      rw [← hroot] at hput
      -- the heap after the attach step
      have hplen : p < t.nodes.length :=
        dec_ids_lt t (dFuel t) (some r) none ft hdec p hpm
      have hb2 : ftB none none (ftIns ft k t.nodes.length) = true :=
        ftB_ftIns ft k t.nodes.length none none hb rfl rfl
      have hnd2 : (ftIds (ftIns ft k t.nodes.length)).Nodup :=
        dec_nodup (attach t p dir' k v) (ftDepth ft + 1 + 2) (some r) none
          _ none none hdecA hb2
      have hdecA2 : decode (attach t p dir' k v) (dFuel (attach t p dir' k v))
          (attach t p dir' k v).root none = some (ftIns ft k t.nodes.length) := by
        rw [attach_root, hroot]
        exact dec_refuel _ (ftDepth ft + 1 + 2) _ none _ hdecA hnd2
      have hmemIns : (t.nodes.length, k) ∈ ftPairs (ftIns ft k t.nodes.length) :=
        ftIns_mem ft k t.nodes.length habs
      have hzm : t.nodes.length ∈ ftIds (ftIns ft k t.nodes.length) :=
        mem_ftIds_of_pairs _ _ k hmemIns
      have hnewA : getN (attach t p dir' k v) t.nodes.length
          = some { key := k, payload := v, color := RED, left := none,
                   right := none, leaf := false, parent := some p } := by
        cases dir' with
        | LEFT => exact getN_attach_new_left t p k v hplen
        | RIGHT => exact getN_attach_new_right t p k v hplen
        | NODIR => exact getN_attach_new_nodir t p k v
      have hput2 : fixupPut (attach t p dir' k v) fuel t.nodes.length
          = .ok t' := by
        cases dir' with
        | LEFT => exact hput
        | RIGHT => exact hput
        | NODIR => exact hput
      obtain ⟨ft', hdec', hb', hpr', hpay', hlen'⟩ :=
        fixupPut_pres (attach t p dir' k v) fuel t.nodes.length t' hput2
          (ftIns ft k t.nodes.length) hdecA2 hb2 hzm
      have hpayz := hpay' t.nodes.length
      rw [hnewA] at hpayz
      cases hg : getN t' t.nodes.length with
      | none =>
        rw [hg] at hpayz
        exact absurd hpayz (by simp)
      | some nj' =>
        rw [hg] at hpayz
        refine ⟨ft', t.nodes.length, nj', hdec', hb', ?_, hg, ?_⟩
        · rw [hpr']
          exact hmemIns
        · exact Option.some.inj hpayz

/-- The tree decodes to a sorted search tree (the well-formedness `Put`
maintains). -/
def wf (t : Tree V) : Prop :=
  ∃ ft, decode t (dFuel t) t.root none = some ft ∧ ftB none none ft = true

end RBGo
namespace RBGo

/-- C7: on any tree whose arena decodes to a sorted search tree, `Put k v1`
followed by `Put k v2` leaves the tree with `Get k` returning `(true, v2)`,
and `Size` is unchanged by the second `Put`: the existing node's payload is
overwritten in place with no structural change. -/
theorem C7_put_put_overwrites (t : Tree V) (k : Int) (v1 v2 : V) (f1 f2 : Nat)
    (t1 t2 : Tree V) (hwf : wf t)
    (h1 : Put t f1 k v1 = .ok t1) (h2 : Put t1 f2 k v2 = .ok t2) :
    GetCore t2 k = .ok (true, some v2) ∧ Size t2 = Size t1 := by
  obtain ⟨ft, hdec, hb⟩ := hwf
  have hw1 : wfWith t1 k v1 := put_wfWith t ft k v1 f1 t1 hdec hb h1
  obtain ⟨hget, hsize, _⟩ := overwrite_spec t1 k v2 v1 f2 t2 hw1 h2
  exact ⟨hget, hsize⟩

theorem C7_put_put_overwrites_witness :
    Put ({ nodes := [], root := none } : Tree Nat) 0 0 1
      = .ok { nodes := [{ key := 0, payload := 1, color := BLACK, left := none, right := none, leaf := false, parent := none }], root := some 0 } ∧
    Put ({ nodes := [{ key := 0, payload := 1, color := BLACK, left := none, right := none, leaf := false, parent := none }], root := some 0 } : Tree Nat) 0 0 2
      = .ok { nodes := [{ key := 0, payload := 2, color := BLACK, left := none, right := none, leaf := false, parent := none }], root := some 0 } ∧
    GetCore ({ nodes := [{ key := 0, payload := 2, color := BLACK, left := none, right := none, leaf := false, parent := none }], root := some 0 } : Tree Nat) 0
      = .ok (true, some 2) ∧
    Size ({ nodes := [{ key := 0, payload := 2, color := BLACK, left := none, right := none, leaf := false, parent := none }], root := some 0 } : Tree Nat)
      = Size ({ nodes := [{ key := 0, payload := 1, color := BLACK, left := none, right := none, leaf := false, parent := none }], root := some 0 } : Tree Nat) := by
  refine ⟨by decide, by decide, ?_⟩
  exact C7_put_put_overwrites { nodes := [], root := none } 0 1 2 0 0
    { nodes := [{ key := 0, payload := 1, color := BLACK, left := none, right := none, leaf := false, parent := none }], root := some 0 }
    { nodes := [{ key := 0, payload := 2, color := BLACK, left := none, right := none, leaf := false, parent := none }], root := some 0 }
    ⟨.nil, rfl, rfl⟩ (by decide) (by decide)

end RBGo
